import Mathlib

/-!
# Collective schedule linearizer and collective completion tracker

A shallow embedding of

* `xla/service/gpu/runtime/collectives.cc` / `collectives.h`
  (`Key`, `CollectivesSupport::MaybeBlockAfterFirstRun`,
  `AsyncCollectivesSupport::PushEvent` / `PopEvent`, the replica-group loop of
  `GetNcclComm`), and
* `xla/service/collectives_schedule_linearizer.cc`
  (`CollectivesScheduleLinearizer::Run`),

followed by the properties proved about them.

Conventions.  `int32_t` / `int64_t` values are mathematical integers (`Int`)
together with an explicit range predicate; bit patterns are natural numbers
below `2 ^ 64`.  The hash maps `executed_` and `done_events_` are finite maps
seen through their lookup function (`Int → Option _`).  Every public method of
the two support classes holds `mutex_` for the whole of its map access, so one
call is one atomic step on the map.
-/

namespace xla

/-! ## Status -/

/-- The `Status` values that occur in the embedded code. -/
inductive Status where
  | OkStatus : Status
  | Internal (msg : String) : Status
  deriving DecidableEq, Repr

/-- `status.ok()`. -/
def Status.ok : Status → Bool
  | .OkStatus => true
  | .Internal _ => false

namespace gpu

/-! ## `Key` (collectives.cc, lines 95-97) -/

/-- Range of an `int32_t`. -/
def IsInt32 (x : Int) : Prop := -(2 : Int) ^ 31 ≤ x ∧ x < (2 : Int) ^ 31

instance (x : Int) : Decidable (IsInt32 x) := by
  unfold IsInt32; exact inferInstance

/-- Two's complement bit pattern of an integer converted to `int64_t`
(`static_cast<int64_t>(x)`, or the integral promotion of an `int32_t` operand
of a 64-bit operator: sign extension). -/
def toBits64 (x : Int) : Nat := (x % (2 : Int) ^ 64).toNat

/-- The `int64_t` value of a 64-bit pattern. -/
def ofBits64 (n : Nat) : Int :=
  if n % 2 ^ 64 < 2 ^ 63 then (n % 2 ^ 64 : Nat) else (n % 2 ^ 64 : Nat) - (2 : Int) ^ 64

/-- `static int64_t Key(int32_t uid, int32_t device_ordinal)`:
`static_cast<int64_t>(uid) << 32 | device_ordinal`.  The shift binds tighter
than `|`; the shift keeps the low 64 bits; `device_ordinal` is sign-extended to
64 bits before the bitwise or. -/
def Key (uid device_ordinal : Int) : Int :=
  ofBits64 (((toBits64 uid <<< 32) % 2 ^ 64) ||| toBits64 device_ordinal)

/-! ## Hash maps -/

/-- A `flat_hash_map<int64_t, V>` / `node_hash_map<int64_t, V>`, seen through
`find`: `m k = none` when `find(k) == end()`. -/
abbrev HashMap (V : Type) := Int → Option V

/-- The empty map. -/
def HashMap.empty {V : Type} : HashMap V := fun _ => none

/-- `m.try_emplace(k, v)`: inserts `k ↦ v` when `k` is absent; returns the map
and `.second` (whether the insertion took place). -/
def HashMap.try_emplace {V : Type} (m : HashMap V) (k : Int) (v : V) : HashMap V × Bool :=
  match m k with
  | some _ => (m, false)
  | none => (fun k' => if k' = k then some v else m k', true)

/-- `m.erase(it)` for the iterator of key `k`. -/
def HashMap.erase {V : Type} (m : HashMap V) (k : Int) : HashMap V :=
  fun k' => if k' = k then none else m k'

/-! ## `AsyncCollectivesSupport` (collectives.h lines 55-71, collectives.cc lines 112-134) -/

/-- State of an `AsyncCollectivesSupport`: the `done_events_` map. -/
structure AsyncCollectivesSupport (Event : Type) where
  done_events_ : HashMap Event

/-- A freshly constructed `AsyncCollectivesSupport`. -/
def AsyncCollectivesSupport.init {Event : Type} : AsyncCollectivesSupport Event :=
  ⟨HashMap.empty⟩

/-- `AsyncCollectivesSupport::PopEvent`: the new state and the `StatusOr<se::Event>`. -/
def AsyncCollectivesSupport.PopEvent {Event : Type} (s : AsyncCollectivesSupport Event)
    (uid device_ordinal : Int) : AsyncCollectivesSupport Event × Except Status Event :=
  match s.done_events_ (Key uid device_ordinal) with
  | none =>
    (s, .error (Status.Internal
      ("Async collective event was not found uid=%d and device_ordinal=%d")))
  | some done_event =>
    (⟨s.done_events_.erase (Key uid device_ordinal)⟩, .ok done_event)

/-- `AsyncCollectivesSupport::PushEvent`: the new state and the `Status`. -/
def AsyncCollectivesSupport.PushEvent {Event : Type} (s : AsyncCollectivesSupport Event)
    (uid device_ordinal : Int) (done_event : Event) : AsyncCollectivesSupport Event × Status :=
  let emplaced := s.done_events_.try_emplace (Key uid device_ordinal) done_event
  if !emplaced.2 then (⟨emplaced.1⟩, Status.Internal ("Done event has not been consumed"))
  else (⟨emplaced.1⟩, Status.OkStatus)

/-- One call on an `AsyncCollectivesSupport`. -/
inductive Call (Event : Type) where
  | Push (uid device_ordinal : Int) (done_event : Event) : Call Event
  | Pop (uid device_ordinal : Int) : Call Event

/-- What a call returned: the `Status` of a `PushEvent`, the
`StatusOr<se::Event>` of a `PopEvent`. -/
inductive Reply (Event : Type) where
  | Pushed (status : Status) : Reply Event
  | Popped (result : Except Status Event) : Reply Event

/-- The value of `Key(uid, device_ordinal)` for the arguments of a call. -/
def Call.key {Event : Type} : Call Event → Int
  | .Push uid device_ordinal _ => Key uid device_ordinal
  | .Pop uid device_ordinal => Key uid device_ordinal

/-- The call is a `PushEvent`. -/
def Call.isPush {Event : Type} : Call Event → Bool
  | .Push _ _ _ => true
  | .Pop _ _ => false

/-- The call returned an error. -/
def Reply.failed {Event : Type} : Reply Event → Bool
  | .Pushed .OkStatus => false
  | .Pushed (.Internal _) => true
  | .Popped (.ok _) => false
  | .Popped (.error _) => true

/-- Performs one call. -/
def AsyncCollectivesSupport.step {Event : Type} (s : AsyncCollectivesSupport Event) :
    Call Event → AsyncCollectivesSupport Event × Reply Event
  | .Push uid device_ordinal done_event =>
    ((s.PushEvent uid device_ordinal done_event).1,
      .Pushed (s.PushEvent uid device_ordinal done_event).2)
  | .Pop uid device_ordinal =>
    ((s.PopEvent uid device_ordinal).1, .Popped (s.PopEvent uid device_ordinal).2)

/-- Performs a sequence of calls, one after the other (each call holds
`mutex_` from entry to return), and records each call with what it returned. -/
def AsyncCollectivesSupport.run {Event : Type} (s : AsyncCollectivesSupport Event) :
    List (Call Event) → List (Call Event × Reply Event)
  | [] => []
  | c :: cs => (c, (s.step c).2) :: AsyncCollectivesSupport.run (s.step c).1 cs

/-- A successful hand-off operation on one key, with the handle it moved. -/
inductive Handoff (Event : Type) where
  | push (h : Event) : Handoff Event
  | pop (h : Event) : Handoff Event

/-- The successful operation on key `k` recorded by a trace entry, if any. -/
def success {Event : Type} (k : Int) : Call Event × Reply Event → Option (Handoff Event)
  | (.Push uid device_ordinal h, .Pushed .OkStatus) =>
    if Key uid device_ordinal = k then some (.push h) else none
  | (.Pop uid device_ordinal, .Popped (.ok h)) =>
    if Key uid device_ordinal = k then some (.pop h) else none
  | _ => none

/-- The successful operations on key `k` of a trace, in order. -/
def successes {Event : Type} (k : Int) (trace : List (Call Event × Reply Event)) :
    List (Handoff Event) :=
  trace.filterMap (success k)

/-- A prefix of `(push, pop)*` in which every `pop` carries the handle of the
`push` right before it. -/
def IsHandoffPrefix {Event : Type} : List (Handoff Event) → Prop
  | [] => True
  | [.push _] => True
  | .push h :: .pop h2 :: rest => h = h2 ∧ IsHandoffPrefix rest
  | _ => False

/-- A call deviates from the pattern `(push, pop)*` after `n` successful
operations on its key: a push while a handle is pending (`n` odd), a pop while
none is pending (`n` even). -/
def deviates {Event : Type} (c : Call Event) (n : Nat) : Prop :=
  (c.isPush = true ∧ n % 2 = 1) ∨ (c.isPush = false ∧ n % 2 = 0)

/-! ## `CollectivesSupport` (collectives.h lines 32-52, collectives.cc lines 102-110) -/

/-- An `se::Stream`, seen through the one member the code calls: the status
that `BlockHostUntilDone()` returns once the host has waited. -/
structure Stream where
  BlockHostUntilDone : Status
  deriving DecidableEq, Repr

/-- The observable actions of one call of `MaybeBlockAfterFirstRun`. -/
inductive Action where
  | MutexLock : Action
  | TryEmplace (key : Int) : Action
  | MutexUnlock : Action
  | BlockHostUntilDone (stream : Stream) : Action
  deriving DecidableEq, Repr

/-- The action is a host-blocking wait. -/
def Action.isBlock : Action → Bool
  | .BlockHostUntilDone _ => true
  | _ => false

/-- State of a `CollectivesSupport`: the `executed_` map. -/
structure CollectivesSupport where
  executed_ : HashMap Bool

/-- A freshly constructed `CollectivesSupport`. -/
def CollectivesSupport.init : CollectivesSupport := ⟨HashMap.empty⟩

/-- Result of one call of `MaybeBlockAfterFirstRun`: the state afterwards, the
returned `Status`, and the actions performed, in program order. -/
structure BlockResult where
  support : CollectivesSupport
  status : Status
  actions : List Action

/-- The call invoked `stream->BlockHostUntilDone()`. -/
def BlockResult.blocked (r : BlockResult) : Bool := r.actions.any Action.isBlock

/-- `CollectivesSupport::MaybeBlockAfterFirstRun`.  The lambda takes the lock,
does `executed_.try_emplace(Key(uid, device_ordinal), true)` and yields
`.second`; the lock is released when the lambda returns; then
`block ? stream->BlockHostUntilDone() : OkStatus()`. -/
def CollectivesSupport.MaybeBlockAfterFirstRun (s : CollectivesSupport)
    (uid device_ordinal : Int) (stream : Stream) : BlockResult :=
  let emplaced := s.executed_.try_emplace (Key uid device_ordinal) true
  let block := emplaced.2
  let locked := [Action.MutexLock, Action.TryEmplace (Key uid device_ordinal), Action.MutexUnlock]
  if block then
    { support := ⟨emplaced.1⟩, status := stream.BlockHostUntilDone,
      actions := locked ++ [Action.BlockHostUntilDone stream] }
  else
    { support := ⟨emplaced.1⟩, status := Status.OkStatus, actions := locked }

/-- Consecutive calls `MaybeBlockAfterFirstRun(uid, device_ordinal, stream)`,
one per stream of the list, each on the state the previous one left. -/
def CollectivesSupport.calls (s : CollectivesSupport) (uid device_ordinal : Int) :
    List Stream → List BlockResult
  | [] => []
  | stream :: rest =>
    (s.MaybeBlockAfterFirstRun uid device_ordinal stream) ::
      CollectivesSupport.calls (s.MaybeBlockAfterFirstRun uid device_ordinal stream).support
        uid device_ordinal rest

end gpu

/-! ## HLO computations, as far as the linearizer reads and writes them -/

/-- An `HloComputation`: its instructions (by unique id), which of them are
`HloCollectiveInstruction`s (`DynCast<HloCollectiveInstruction>` succeeds), the
data edges `(operand, user)` and the control edges `(predecessor, successor)`.
A control edge `(a, b)` stands for `b ∈ a->control_successors()` and
`a ∈ b->control_predecessors()`. -/
structure HloComputation where
  instructions : List Nat
  is_collective : Nat → Bool
  operand_edges : List (Nat × Nat)
  control_edges : List (Nat × Nat)

/-- All dependency edges of a computation, data and control. -/
def HloComputation.edges (c : HloComputation) : List (Nat × Nat) :=
  c.operand_edges ++ c.control_edges

/-- The combined data+control relation: `b` depends directly on `a`. -/
def HloComputation.Edge (c : HloComputation) (a b : Nat) : Prop := (a, b) ∈ c.edges

instance (c : HloComputation) (a b : Nat) : Decidable (c.Edge a b) := by
  unfold HloComputation.Edge; exact inferInstance

/-- The instruction `b` is reachable from `a`: `a = b` or a chain of data and
control edges leads from `a` to `b`. -/
def HloComputation.Reaches (c : HloComputation) : Nat → Nat → Prop :=
  Relation.ReflTransGen c.Edge

/-- The instructions `a` and `b` are connected: one is reachable from the other. -/
def HloComputation.Connected (c : HloComputation) (a b : Nat) : Prop :=
  c.Reaches a b ∨ c.Reaches b a

/-- `instruction->control_successors()`. -/
def HloComputation.control_successors (c : HloComputation) (instruction : Nat) : List Nat :=
  (c.control_edges.filter fun e => e.1 == instruction).map Prod.snd

/-- `instruction->control_predecessors()`. -/
def HloComputation.control_predecessors (c : HloComputation) (instruction : Nat) : List Nat :=
  (c.control_edges.filter fun e => e.2 == instruction).map Prod.fst

/-- `CountControlEdges` of collectives_schedule_linearizer_test.cc (lines 39-45):
the sum over the instructions of the number of their control successors. -/
def CountControlEdges (computation : HloComputation) : Nat :=
  (computation.instructions.map fun instruction =>
    (computation.control_successors instruction).length).sum

/-- An `HloReachabilityMap`, seen through `IsReachable`. -/
structure HloReachabilityMap where
  IsReachable : Nat → Nat → Bool

/-- `HloReachabilityMap::IsConnected(a, b)`: `IsReachable(a, b) || IsReachable(b, a)`. -/
def HloReachabilityMap.IsConnected (r : HloReachabilityMap) (a b : Nat) : Bool :=
  r.IsReachable a b || r.IsReachable b a

/-- The reachability map is exact for the computation: on its instructions it
answers the reachability of the combined data+control relation. -/
def HloReachabilityMap.Exact (r : HloReachabilityMap) (c : HloComputation) : Prop :=
  ∀ a ∈ c.instructions, ∀ b ∈ c.instructions, (r.IsReachable a b = true ↔ c.Reaches a b)

/-- The traversal `order` is a topological order of the combined data+control
relation of `c`: it lists every instruction of `c` once, and every edge leads
from an instruction to one that comes later in `order`. -/
def IsTopologicalOrder (c : HloComputation) (order : List Nat) : Prop :=
  order.Nodup ∧ order.Perm c.instructions ∧
  ∀ e ∈ c.edges, e.1 ∈ order ∧ e.2 ∈ order ∧ order.indexOf e.1 < order.indexOf e.2

instance (c : HloComputation) (order : List Nat) : Decidable (IsTopologicalOrder c order) := by
  unfold IsTopologicalOrder; exact inferInstance

/-- Reachability along at most `fuel` edges, by search. -/
def reachableWithin (c : HloComputation) : Nat → Nat → Nat → Bool
  | 0, a, b => a == b
  | fuel + 1, a, b => a == b || c.edges.any fun e => e.1 == a && reachableWithin c fuel e.2 b

/-- A reachability map computed by search along at most as many edges as the
computation has instructions. -/
def searchReachability (c : HloComputation) : HloReachabilityMap :=
  ⟨reachableWithin c c.instructions.length⟩

/-! ## `CollectivesScheduleLinearizer::Run` (collectives_schedule_linearizer.cc, lines 45-69) -/

/-- What `Run` uses of the rest of the compiler: `HloReachabilityMap::Build`,
`HloComputation::MakeInstructionPostOrder`, and for which edges
`HloInstruction::AddControlDependencyTo` reports an error (asked for the
computation as it is at that moment, the predecessor and the successor). -/
structure Collaborators where
  Build : HloComputation → HloReachabilityMap
  MakeInstructionPostOrder : HloComputation → List Nat
  rejects : HloComputation → Nat → Nat → Bool

/-- The status of a rejected edge insertion. -/
def CycleWouldFormError : Status := Status.Internal ("CycleWouldFormError")

/-- Modelled from the spec: `HloInstruction::AddControlDependencyTo`, which is
not among the sources.  `add_ordering_edge(from, to) → Result<void, CycleError>`:
either the insertion is rejected and the graph is left as it is, or `to` joins
the ordering successors of `from` (and `from` the ordering predecessors of
`to`); these are sets, so an edge that is already present is not added again. -/
def AddControlDependencyTo (rejects : HloComputation → Nat → Nat → Bool)
    (c : HloComputation) (pred succ : Nat) : Except Status HloComputation :=
  if rejects c pred succ then .error CycleWouldFormError
  else if (pred, succ) ∈ c.control_edges then .ok c
  else .ok { c with control_edges := c.control_edges ++ [(pred, succ)] }

/-- Modelled from the spec: "edge insertion fails only if it would violate
acyclicity": an insertion `pred → succ` is rejected only when `pred` is
already reachable from `succ`. -/
def RejectsOnlyCycles (rejects : HloComputation → Nat → Nat → Bool) : Prop :=
  ∀ c pred succ, rejects c pred succ = true → c.Reaches succ pred

/-- The loop over the instructions of one computation (lines 54-66), from the
current computation, `prev` and `changed`: the computation as the loop leaves
it, and `changed` or the error that ended the loop. -/
def RunInstructions (rejects : HloComputation → Nat → Nat → Bool)
    (reachability : HloReachabilityMap) :
    List Nat → HloComputation → Option Nat → Bool → HloComputation × Except Status Bool
  | [], computation, _, changed => (computation, .ok changed)
  | instruction :: rest, computation, prev, changed =>
    if computation.is_collective instruction then
      match prev with
      | some p =>
        if !reachability.IsConnected instruction p then
          match AddControlDependencyTo rejects computation p instruction with
          | .error e => (computation, .error e)
          | .ok computation2 =>
            RunInstructions rejects reachability rest computation2 (some instruction) true
        else RunInstructions rejects reachability rest computation (some instruction) changed
      | none => RunInstructions rejects reachability rest computation (some instruction) changed
    else RunInstructions rejects reachability rest computation prev changed

/-- The body of the loop over the computations (lines 51-66) for one
computation: build the reachability map, then visit the instructions in post
order with `prev = nullptr`. -/
def RunComputation (env : Collaborators) (computation : HloComputation) (changed : Bool) :
    HloComputation × Except Status Bool :=
  RunInstructions env.rejects (env.Build computation)
    (env.MakeInstructionPostOrder computation) computation none changed

/-- The loop over the computations (lines 49-67): the computations as the loop
leaves them, and `changed` or the error that ended the pass. -/
def RunComputations (env : Collaborators) :
    List HloComputation → Bool → List HloComputation × Except Status Bool
  | [], changed => ([], .ok changed)
  | computation :: rest, changed =>
    match RunComputation env computation changed with
    | (computation2, .error e) => (computation2 :: rest, .error e)
    | (computation2, .ok changed2) =>
      ((computation2 :: (RunComputations env rest changed2).1),
        (RunComputations env rest changed2).2)

/-- `CollectivesScheduleLinearizer::Run` on the computations that
`module->MakeNonfusionComputations(execution_threads)` returns: the
computations after the pass (they are mutated in place, whether or not the
pass returns an error) and the returned `StatusOr<bool>`. -/
def Run (env : Collaborators) (module : List HloComputation) :
    List HloComputation × Except Status Bool :=
  RunComputations env module false

/-- The computation `c2` is `c` with control edges added, and nothing else
changed. -/
def Frame (c c2 : HloComputation) : Prop :=
  c2.instructions = c.instructions ∧ c2.is_collective = c.is_collective ∧
  c2.operand_edges = c.operand_edges ∧ ∀ e ∈ c.control_edges, e ∈ c2.control_edges

/-- The standing assumptions on what the collaborators return for a
computation: the post order is a topological order of its data+control
relation and the reachability map is exact for it. -/
def WellTraversed (env : Collaborators) (c : HloComputation) : Prop :=
  IsTopologicalOrder c (env.MakeInstructionPostOrder c) ∧ (env.Build c).Exact c

/-- In `c2` the collectives of `c` are totally ordered by reachability, along
the traversal `order`: any two distinct ones are related in one direction, from
the one visited earlier to the one visited later. -/
def CollectivesLinearized (order : List Nat) (c c2 : HloComputation) : Prop :=
  ∀ a ∈ c.instructions, ∀ b ∈ c.instructions,
    c.is_collective a = true → c.is_collective b = true → a ≠ b →
    (c2.Reaches a b ∨ c2.Reaches b a) ∧
    (order.indexOf a < order.indexOf b → c2.Reaches a b ∧ ¬ c2.Reaches b a)

/-! ## The graphs of collectives_schedule_linearizer_test.cc

Instructions are numbered `p0 = 0`, `p1 = 1`, `c1 = 2`, `c2 = 3`, then the
others; the computation `sum` has `a = 0`, `b = 1`, `out = 2`. -/

/-- The computation `sum` of the tests. -/
def test_sum : HloComputation :=
  { instructions := [0, 1, 2], is_collective := fun _ => false,
    operand_edges := [(0, 2), (1, 2)], control_edges := [] }

/-- The `entry` computation of `FixOrdering` (lines 65-71), with `out = 4`. -/
def FixOrdering_entry : HloComputation :=
  { instructions := [0, 1, 2, 3, 4], is_collective := fun n => n == 2 || n == 3,
    operand_edges := [(0, 2), (1, 3), (2, 4), (3, 4)], control_edges := [] }

/-- The `entry` computation of `NoFixRequired` (lines 101-107): `c1` is a
control predecessor of `c2`. -/
def NoFixRequired_entry : HloComputation :=
  { instructions := [0, 1, 2, 3, 4], is_collective := fun n => n == 2 || n == 3,
    operand_edges := [(0, 2), (1, 3), (2, 4), (3, 4)], control_edges := [(2, 3)] }

/-- The `entry` computation of `DependentCollectives` (lines 126-132): `c2`
consumes `c1`. -/
def DependentCollectives_entry : HloComputation :=
  { instructions := [0, 1, 2, 3, 4], is_collective := fun n => n == 2 || n == 3,
    operand_edges := [(0, 2), (2, 3), (2, 4), (3, 4)], control_edges := [] }

/-- The `entry` computation of `FixOrdering` after the pass: `c1` has become a
control predecessor of `c2`. -/
def FixOrdering_entry_after : HloComputation :=
  { instructions := [0, 1, 2, 3, 4], is_collective := fun n => n == 2 || n == 3,
    operand_edges := [(0, 2), (1, 3), (2, 4), (3, 4)], control_edges := [(2, 3)] }

/-- Collaborators for the test graphs: reachability by search, the
instructions in the order they are listed (a post order for each of the graphs
above), and an edge insertion that never reports an error. -/
def test_env : Collaborators :=
  { Build := searchReachability, MakeInstructionPostOrder := fun c => c.instructions,
    rejects := fun _ _ _ => false }

/-- The combined data+control relation of the computation has no cycle. -/
def HloComputation.Acyclic (c : HloComputation) : Prop :=
  ∀ a, ¬ Relation.TransGen c.Edge a a

/-! ## The pass, step by step -/

/-- The steps of the pass that the claims speak of: entering the body of the
computation loop (where the reachability map is built), visiting an
instruction, and calling `AddControlDependencyTo`, with the status it returned. -/
inductive PassEvent where
  | Enter : PassEvent
  | Visit (instruction : Nat) : PassEvent
  | Insert (pred succ : Nat) (status : Status) : PassEvent
  deriving DecidableEq, Repr

/-- The step is an edge insertion that returned an error. -/
def PassEvent.failed : PassEvent → Bool
  | .Insert _ _ status => !status.ok
  | _ => false

/-- `RunInstructions`, with the steps it takes, in order. -/
def RunInstructionsLog (rejects : HloComputation → Nat → Nat → Bool)
    (reachability : HloReachabilityMap) :
    List Nat → HloComputation → Option Nat → Bool →
      (HloComputation × Except Status Bool) × List PassEvent
  | [], computation, _, changed => ((computation, .ok changed), [])
  | instruction :: rest, computation, prev, changed =>
    if computation.is_collective instruction then
      match prev with
      | some p =>
        if !reachability.IsConnected instruction p then
          match AddControlDependencyTo rejects computation p instruction with
          | .error e =>
            ((computation, .error e),
              [PassEvent.Visit instruction, PassEvent.Insert p instruction e])
          | .ok computation2 =>
            ((RunInstructionsLog rejects reachability rest computation2 (some instruction)
                true).1,
              PassEvent.Visit instruction :: PassEvent.Insert p instruction Status.OkStatus ::
                (RunInstructionsLog rejects reachability rest computation2 (some instruction)
                  true).2)
        else
          ((RunInstructionsLog rejects reachability rest computation (some instruction)
              changed).1,
            PassEvent.Visit instruction ::
              (RunInstructionsLog rejects reachability rest computation (some instruction)
                changed).2)
      | none =>
        ((RunInstructionsLog rejects reachability rest computation (some instruction)
            changed).1,
          PassEvent.Visit instruction ::
            (RunInstructionsLog rejects reachability rest computation (some instruction)
              changed).2)
    else
      ((RunInstructionsLog rejects reachability rest computation prev changed).1,
        PassEvent.Visit instruction ::
          (RunInstructionsLog rejects reachability rest computation prev changed).2)

/-- `RunComputations`, with the steps it takes, in order. -/
def RunComputationsLog (env : Collaborators) :
    List HloComputation → Bool → (List HloComputation × Except Status Bool) × List PassEvent
  | [], changed => (([], .ok changed), [])
  | computation :: rest, changed =>
    match RunInstructionsLog env.rejects (env.Build computation)
        (env.MakeInstructionPostOrder computation) computation none changed with
    | ((computation2, .error e), log) => ((computation2 :: rest, .error e), PassEvent.Enter :: log)
    | ((computation2, .ok changed2), log) =>
      ((computation2 :: (RunComputationsLog env rest changed2).1.1,
          (RunComputationsLog env rest changed2).1.2),
        PassEvent.Enter :: (log ++ (RunComputationsLog env rest changed2).2))

/-- `Run`, with the steps it takes, in order. -/
def RunLog (env : Collaborators) (module : List HloComputation) :
    (List HloComputation × Except Status Bool) × List PassEvent :=
  RunComputationsLog env module false

/-- The pairs of consecutive elements: `[(l₀, l₁), (l₁, l₂), …]`. -/
def consecutive (l : List Nat) : List (Nat × Nat) := l.zip l.tail

/-- The edges `cᵢ → cᵢ₊₁` between consecutive collectives that the
reachability map does not connect in either direction. -/
def insertedEdges (r : HloReachabilityMap) (collectives : List Nat) : List (Nat × Nat) :=
  (consecutive collectives).filter fun e => !r.IsConnected e.2 e.1

/-- The `entry` computation of `NonPostorder` (lines 151-159) after the test
has added the control dependency `c3 → c1` (lines 163-167): `c3 = 4`, `t = 5`,
`out = 6`; the instructions are listed in a post order of the graph,
`p0, p1, c3, c1, c2, t, out`. -/
def NonPostorder_entry : HloComputation :=
  { instructions := [0, 1, 4, 2, 3, 5, 6], is_collective := fun n => n == 2 || n == 3 || n == 4,
    operand_edges := [(0, 2), (1, 3), (1, 4), (2, 5), (3, 5), (5, 6), (4, 6)],
    control_edges := [(4, 2)] }

/-- The `entry` computation of `NonPostorder` after the pass. -/
def NonPostorder_entry_after : HloComputation :=
  { instructions := [0, 1, 4, 2, 3, 5, 6], is_collective := fun n => n == 2 || n == 3 || n == 4,
    operand_edges := [(0, 2), (1, 3), (1, 4), (2, 5), (3, 5), (5, 6), (4, 6)],
    control_edges := [(4, 2), (2, 3)] }

namespace gpu

/-- Whether `mutex_` is held after a sequence of actions that starts with the
mutex free. -/
def mutexHeld (actions : List Action) : Bool :=
  actions.foldl (fun held a =>
    match a with
    | .MutexLock => true
    | .MutexUnlock => false
    | _ => held) false

/-- Consecutive calls of `MaybeBlockAfterFirstRun`, each with its own
`(uid, device_ordinal, stream)`, each on the state the previous one left. -/
def CollectivesSupport.sequence (s : CollectivesSupport) :
    List (Int × Int × Stream) → List BlockResult
  | [] => []
  | (uid, device_ordinal, stream) :: rest =>
    (s.MaybeBlockAfterFirstRun uid device_ordinal stream) ::
      CollectivesSupport.sequence
        (s.MaybeBlockAfterFirstRun uid device_ordinal stream).support rest

end gpu

namespace gpu

/-! ## The replica-group loop of `GetNcclComm` (collectives.cc, lines 50-62) -/

/-- How a loop ends: with its result, with a read of `replica_group_values`
at an index that is not one of its indices, or without having finished within
the number of iterations allowed. -/
inductive Decode (α : Type) where
  | done (a : α) : Decode α
  | outOfBounds (index : Int) : Decode α
  | outOfFuel : Decode α

/-- The inner loop,
`while (i < replica_group_end) replica_group.add_replica_ids(replica_group_values[i++]);`
for at most `fuel` evaluations of the loop condition: the group read and the
value of `i` afterwards.  The counter `i` starts at 0 and is only incremented;
it is an integer here, the increment being the increment of integers. -/
def readGroup (replica_group_values : List Int) (replica_group_end : Int) :
    Nat → Int → List Int → Decode (List Int × Int)
  | 0, _, _ => .outOfFuel
  | fuel + 1, i, replica_group =>
    if i < replica_group_end then
      if 0 ≤ i then
        match replica_group_values[i.toNat]? with
        | some v =>
          readGroup replica_group_values replica_group_end fuel (i + 1)
            (replica_group ++ [v])
        | none => .outOfBounds i
      else .outOfBounds i
    else .done (replica_group, i)

/-- The outer loop, `for (int64_t replica_group_end : replica_group_offsets)`,
from the current `i` and `replica_groups`. -/
def decodeGroups (replica_group_values : List Int) (fuel : Nat) :
    List Int → Int → List (List Int) → Decode (List (List Int))
  | [], _, replica_groups => .done replica_groups
  | replica_group_end :: rest, i, replica_groups =>
    match readGroup replica_group_values replica_group_end fuel i [] with
    | .done (replica_group, i2) =>
      decodeGroups replica_group_values fuel rest i2 (replica_groups ++ [replica_group])
    | .outOfBounds index => .outOfBounds index
    | .outOfFuel => .outOfFuel

/-- The loop of `GetNcclComm` that rebuilds `replica_groups`, from `i = 0`.
An inner loop that reads only inside `replica_group_values` evaluates its
condition at most `replica_group_values.size() + 1` times. -/
def decodeReplicaGroups (replica_group_offsets replica_group_values : List Int) :
    Decode (List (List Int)) :=
  decodeGroups replica_group_values (replica_group_values.length + 1) replica_group_offsets 0 []

/-- The (ending) offsets of the groups in the vector of all values, the first
group starting at `start` (comment of lines 51-54). -/
def encodeOffsets : List (List Int) → Int → List Int
  | [], _ => []
  | group :: rest, start =>
    (start + group.length) :: encodeOffsets rest (start + group.length)

/-- The offsets vector of an array of arrays:
`[[10,20,30,40],[50,60],[70,80,90]]` gives `[4, 6, 9]`. -/
def replica_group_offsets_of (groups : List (List Int)) : List Int := encodeOffsets groups 0

/-- The values vector of an array of arrays: all the values, in order. -/
def replica_group_values_of (groups : List (List Int)) : List Int := groups.flatten

end gpu

/-! ## The pass with the reachability map rebuilt before every test -/

/-- The instruction loop as it would be if the reachability map were rebuilt
after every insertion: each test `IsConnected(next, prev)` asks the map built
from the computation as it is at that moment. -/
def RunInstructionsRebuilding (rejects : HloComputation → Nat → Nat → Bool)
    (Build : HloComputation → HloReachabilityMap) :
    List Nat → HloComputation → Option Nat → Bool → HloComputation × Except Status Bool
  | [], computation, _, changed => (computation, .ok changed)
  | instruction :: rest, computation, prev, changed =>
    if computation.is_collective instruction then
      match prev with
      | some p =>
        if !(Build computation).IsConnected instruction p then
          match AddControlDependencyTo rejects computation p instruction with
          | .error e => (computation, .error e)
          | .ok computation2 =>
            RunInstructionsRebuilding rejects Build rest computation2 (some instruction) true
        else RunInstructionsRebuilding rejects Build rest computation (some instruction) changed
      | none => RunInstructionsRebuilding rejects Build rest computation (some instruction) changed
    else RunInstructionsRebuilding rejects Build rest computation prev changed

/-- The loop over the computations, with the rebuilding instruction loop. -/
def RunComputationsRebuilding (env : Collaborators) :
    List HloComputation → Bool → List HloComputation × Except Status Bool
  | [], changed => ([], .ok changed)
  | computation :: rest, changed =>
    match RunInstructionsRebuilding env.rejects env.Build
        (env.MakeInstructionPostOrder computation) computation none changed with
    | (computation2, .error e) => (computation2 :: rest, .error e)
    | (computation2, .ok changed2) =>
      ((computation2 :: (RunComputationsRebuilding env rest changed2).1),
        (RunComputationsRebuilding env rest changed2).2)

/-- The pass as it would be if the reachability map were rebuilt after every
insertion. -/
def RunRebuilding (env : Collaborators) (module : List HloComputation) :
    List HloComputation × Except Status Bool :=
  RunComputationsRebuilding env module false

namespace gpu

/-! ## Calls, per execution key `(uid, device_ordinal)` -/

/-- The `uid` argument of a call. -/
def Call.uid {Event : Type} : Call Event → Int
  | .Push uid _ _ => uid
  | .Pop uid _ => uid

/-- The `device_ordinal` argument of a call. -/
def Call.device_ordinal {Event : Type} : Call Event → Int
  | .Push _ device_ordinal _ => device_ordinal
  | .Pop _ device_ordinal => device_ordinal

/-- The arguments are a 32-bit uid and a non-negative 32-bit device ordinal. -/
def InRange (uid device_ordinal : Int) : Prop :=
  IsInt32 uid ∧ 0 ≤ device_ordinal ∧ device_ordinal < (2 : Int) ^ 31

instance (uid device_ordinal : Int) : Decidable (InRange uid device_ordinal) := by
  unfold InRange; exact inferInstance

/-- The successful operation on the execution key `(uid, device_ordinal)`
recorded by a trace entry, if any. -/
def successOn {Event : Type} (uid device_ordinal : Int) :
    Call Event × Reply Event → Option (Handoff Event)
  | (.Push u d h, .Pushed .OkStatus) =>
    if u = uid ∧ d = device_ordinal then some (.push h) else none
  | (.Pop u d, .Popped (.ok h)) =>
    if u = uid ∧ d = device_ordinal then some (.pop h) else none
  | _ => none

/-- The successful operations on the execution key `(uid, device_ordinal)` of
a trace, in order. -/
def successesOn {Event : Type} (uid device_ordinal : Int)
    (trace : List (Call Event × Reply Event)) : List (Handoff Event) :=
  trace.filterMap (successOn uid device_ordinal)

end gpu

end xla

namespace xla
namespace gpu

/-! ## Properties of `Key` -/

/-- For non-negative device ordinals the key is `uid * 2 ^ 32 + device_ordinal`. -/
theorem Key_of_nonneg (uid d : Int) (hu : IsInt32 uid) (h0 : 0 ≤ d) (h1 : d < (2 : Int) ^ 31) :
    Key uid d = uid * (2 : Int) ^ 32 + d := by
  obtain ⟨hu0, hu1⟩ := hu
  have hd : toBits64 d = d.toNat := by
    unfold toBits64
    congr 1
    omega
  have hD : d.toNat < 2 ^ 32 := by omega
  have hsh : (toBits64 uid <<< 32) % 2 ^ 64 = 2 ^ 32 * (toBits64 uid % 2 ^ 32) := by
    rw [Nat.shiftLeft_eq]
    omega
  unfold Key
  rw [hsh, hd, ← Nat.mul_add_lt_is_or hD]
  unfold ofBits64 toBits64
  split <;> omega

/-- C2 (as stated, refuted): with device ordinal `-1` the sign extension sets
all the upper bits, so the uids `0` and `1` get the same key `-1`. -/
theorem Key_collides_at_negative_ordinal :
    IsInt32 0 ∧ IsInt32 1 ∧ IsInt32 (-1) ∧ Key 0 (-1) = Key 1 (-1) ∧ (0 : Int) ≠ 1 := by
  decide

/-- C2 (amended): for 32-bit signed uids and non-negative 32-bit signed device
ordinals, equal keys come from equal uids and equal device ordinals. -/
theorem Key_injective_of_nonneg_ordinal (uid uid2 d d2 : Int)
    (hu : IsInt32 uid) (hu2 : IsInt32 uid2)
    (hd : 0 ≤ d ∧ d < (2 : Int) ^ 31) (hd2 : 0 ≤ d2 ∧ d2 < (2 : Int) ^ 31)
    (h : Key uid d = Key uid2 d2) : uid = uid2 ∧ d = d2 := by
  rw [Key_of_nonneg uid d hu hd.1 hd.2, Key_of_nonneg uid2 d2 hu2 hd2.1 hd2.2] at h
  obtain ⟨hd0, hd1⟩ := hd
  obtain ⟨hd20, hd21⟩ := hd2
  constructor <;> omega

/-- Witness of C2 (amended) at uid 5, device ordinal 3. -/
theorem Key_injective_of_nonneg_ordinal_witness :
    Key 5 3 = 21474836483 ∧ ((5 : Int) = 5 ∧ (3 : Int) = 3) :=
  ⟨by decide,
    Key_injective_of_nonneg_ordinal 5 5 3 3 (by decide) (by decide) (by decide) (by decide) rfl⟩

/-! ## Properties of `AsyncCollectivesSupport` -/

theorem PushEvent_of_none {Event : Type} (s : AsyncCollectivesSupport Event) (uid d : Int)
    (h : Event) (hk : s.done_events_ (Key uid d) = none) :
    s.PushEvent uid d h =
      (⟨fun k => if k = Key uid d then some h else s.done_events_ k⟩, Status.OkStatus) := by
  simp [AsyncCollectivesSupport.PushEvent, HashMap.try_emplace, hk]

theorem PushEvent_of_some {Event : Type} (s : AsyncCollectivesSupport Event) (uid d : Int)
    (h h2 : Event) (hk : s.done_events_ (Key uid d) = some h) :
    s.PushEvent uid d h2 = (s, Status.Internal ("Done event has not been consumed")) := by
  simp [AsyncCollectivesSupport.PushEvent, HashMap.try_emplace, hk]

theorem PopEvent_of_some {Event : Type} (s : AsyncCollectivesSupport Event) (uid d : Int)
    (h : Event) (hk : s.done_events_ (Key uid d) = some h) :
    s.PopEvent uid d = (⟨s.done_events_.erase (Key uid d)⟩, .ok h) := by
  simp [AsyncCollectivesSupport.PopEvent, hk]

theorem PopEvent_of_none {Event : Type} (s : AsyncCollectivesSupport Event) (uid d : Int)
    (hk : s.done_events_ (Key uid d) = none) :
    s.PopEvent uid d = (s, .error (Status.Internal
      ("Async collective event was not found uid=%d and device_ordinal=%d"))) := by
  simp [AsyncCollectivesSupport.PopEvent, hk]

theorem erase_after_emplace {Event : Type} (s : AsyncCollectivesSupport Event) (k : Int)
    (h : Event) (hk : s.done_events_ k = none) :
    (⟨HashMap.erase (fun k2 => if k2 = k then some h else s.done_events_ k2) k⟩ :
      AsyncCollectivesSupport Event) = s := by
  cases s with
  | mk m =>
    congr 1
    funext k2
    by_cases e : k2 = k
    · subst e; simpa [HashMap.erase] using hk.symm
    · simp [HashMap.erase, e]

/-- A push on an empty key followed by the pop of that key is the identity on
the state and hands the pushed handle over. -/
theorem push_pop_roundtrip {Event : Type} (s : AsyncCollectivesSupport Event) (uid d : Int)
    (h : Event) (hk : s.done_events_ (Key uid d) = none) :
    (s.PushEvent uid d h).2 = Status.OkStatus ∧
    ((s.PushEvent uid d h).1.PopEvent uid d) = (s, .ok h) := by
  rw [PushEvent_of_none s uid d h hk]
  refine ⟨rfl, ?_⟩
  rw [PopEvent_of_some _ uid d h (by simp)]
  simp only [erase_after_emplace s _ h hk]

/-- C4: on a key with no pending handle, `PushEvent` succeeds, the following
`PopEvent` returns exactly the pushed handle and leaves the tracker in the
state it had before the push (the key is empty again); in that state a second
`PopEvent` fails and a new `PushEvent` succeeds; and any number of push/pop
rounds on the key all succeed, each pop returning the handle of its round. -/
theorem push_pop_exactly_once {Event : Type} (s : AsyncCollectivesSupport Event)
    (uid d : Int) (h : Event) (hk : s.done_events_ (Key uid d) = none) :
    (s.PushEvent uid d h).2 = Status.OkStatus ∧
    ((s.PushEvent uid d h).1.PopEvent uid d).2 = .ok h ∧
    ((s.PushEvent uid d h).1.PopEvent uid d).1 = s ∧
    ((s.PushEvent uid d h).1.PopEvent uid d).1.done_events_ (Key uid d) = none ∧
    (∃ e, (((s.PushEvent uid d h).1.PopEvent uid d).1.PopEvent uid d).2 = .error e) ∧
    (∀ h2, (((s.PushEvent uid d h).1.PopEvent uid d).1.PushEvent uid d h2).2
      = Status.OkStatus) ∧
    (∀ hs : List Event,
      s.run (hs.flatMap fun x => [Call.Push uid d x, Call.Pop uid d]) =
        hs.flatMap fun x => [(Call.Push uid d x, Reply.Pushed Status.OkStatus),
                          (Call.Pop uid d, Reply.Popped (.ok x))]) := by
  obtain ⟨h1, h2⟩ := push_pop_roundtrip s uid d h hk
  refine ⟨h1, by rw [h2], by rw [h2], by rw [h2]; exact hk, ?_, ?_, ?_⟩
  · rw [h2]; exact ⟨_, by rw [PopEvent_of_none s uid d hk]⟩
  · intro h3; rw [h2, PushEvent_of_none s uid d h3 hk]
  · intro hs
    induction hs with
    | nil => rfl
    | cons x xs ih =>
      obtain ⟨g1, g2⟩ := push_pop_roundtrip s uid d x hk
      rw [List.flatMap_cons, List.flatMap_cons]
      show s.run (Call.Push uid d x :: Call.Pop uid d ::
          (xs.flatMap fun x => [Call.Push uid d x, Call.Pop uid d])) = _
      rw [AsyncCollectivesSupport.run, AsyncCollectivesSupport.run]
      simp only [AsyncCollectivesSupport.step, g1, g2, ih]
      rfl

/-- Witness of C4: key (5, 0) on a fresh tracker, handle 7. -/
theorem push_pop_exactly_once_witness :
    (((AsyncCollectivesSupport.init : AsyncCollectivesSupport Nat).PushEvent 5 0 7).1.PopEvent 5 0).2
      = .ok 7 :=
  (push_pop_exactly_once (AsyncCollectivesSupport.init : AsyncCollectivesSupport Nat) 5 0 7 rfl).2.1

/-- C5: while a handle `h` is pending for the key, `PushEvent` with any handle
`h2` returns an error and leaves the tracker state as it was, and the next
`PopEvent` on the key returns `h`. -/
theorem duplicate_push_rejected {Event : Type} (s : AsyncCollectivesSupport Event)
    (uid d : Int) (h : Event) (hk : s.done_events_ (Key uid d) = some h) (h2 : Event) :
    (s.PushEvent uid d h2).2 = Status.Internal ("Done event has not been consumed") ∧
    (s.PushEvent uid d h2).2.ok = false ∧
    (s.PushEvent uid d h2).1 = s ∧
    ((s.PushEvent uid d h2).1.PopEvent uid d).2 = .ok h := by
  rw [PushEvent_of_some s uid d h h2 hk]
  refine ⟨rfl, rfl, rfl, ?_⟩
  rw [PopEvent_of_some s uid d h hk]

/-- Witness of C5: Scenario D, `push(uid=5, dev=0, 7)` then `push(uid=5, dev=0, 8)`. -/
theorem duplicate_push_rejected_witness :
    (((AsyncCollectivesSupport.init : AsyncCollectivesSupport Nat).PushEvent 5 0 7).1.PushEvent 5 0 8).2.ok
      = false :=
  (duplicate_push_rejected ((AsyncCollectivesSupport.init : AsyncCollectivesSupport Nat).PushEvent 5 0 7).1
    5 0 7 (by simp [AsyncCollectivesSupport.PushEvent, AsyncCollectivesSupport.init,
      HashMap.try_emplace, HashMap.empty]) 8).2.1

/-- C6: `PopEvent` returns an error exactly when no handle is registered for
the key, and then the tracker state is unchanged; when a handle is registered
it is the one returned. -/
theorem pop_fails_iff_not_pending {Event : Type} (s : AsyncCollectivesSupport Event)
    (uid d : Int) :
    ((∃ e, (s.PopEvent uid d).2 = .error e) ↔ s.done_events_ (Key uid d) = none) ∧
    (s.done_events_ (Key uid d) = none → (s.PopEvent uid d).1 = s) ∧
    (∀ h, s.done_events_ (Key uid d) = some h → (s.PopEvent uid d).2 = .ok h) := by
  refine ⟨⟨?_, ?_⟩, ?_, ?_⟩
  · rintro ⟨e, he⟩
    cases hk : s.done_events_ (Key uid d) with
    | none => rfl
    | some h => rw [PopEvent_of_some s uid d h hk] at he; cases he
  · intro hk; exact ⟨_, by rw [PopEvent_of_none s uid d hk]⟩
  · intro hk; rw [PopEvent_of_none s uid d hk]
  · intro h hk; rw [PopEvent_of_some s uid d h hk]

/-! ### Sequences of calls -/

/-- After any calls, starting with the key `k` empty, the successful
operations on `k` form a hand-off prefix; starting with `h` pending, they are
empty or start with the pop of `h` followed by a hand-off prefix. -/
theorem successes_run_shape {Event : Type} (k : Int) (calls : List (Call Event)) :
    ∀ s : AsyncCollectivesSupport Event,
      (s.done_events_ k = none → IsHandoffPrefix (successes k (s.run calls))) ∧
      (∀ h, s.done_events_ k = some h →
        successes k (s.run calls) = [] ∨
        ∃ rest, successes k (s.run calls) = Handoff.pop h :: rest ∧ IsHandoffPrefix rest) := by
  induction calls with
  | nil =>
    intro s
    exact ⟨fun _ => trivial, fun h _ => Or.inl rfl⟩
  | cons c cs ih =>
    intro s
    cases c with
    | Push uid d x =>
      cases hs : s.done_events_ (Key uid d) with
      | none =>
        have hstep : s.PushEvent uid d x = _ := PushEvent_of_none s uid d x hs
        by_cases hkey : Key uid d = k
        · subst hkey
          have h2 := (ih ⟨fun k2 => if k2 = Key uid d then some x else s.done_events_ k2⟩).2 x
            (by simp)
          refine ⟨fun _ => ?_, fun h hh => ?_⟩
          · simp only [AsyncCollectivesSupport.run, AsyncCollectivesSupport.step, hstep,
              successes, List.filterMap_cons, success, if_true]
            rcases h2 with h2 | ⟨rest, h2, h3⟩
            · simp only [successes] at h2; rw [h2]; trivial
            · simp only [successes] at h2; rw [h2]; exact ⟨rfl, h3⟩
          · rw [hs] at hh; cases hh
        · have h1 := ih ⟨fun k2 => if k2 = Key uid d then some x else s.done_events_ k2⟩
          have hsame : (if k = Key uid d then some x else s.done_events_ k) = s.done_events_ k := by
            rw [if_neg (Ne.symm hkey)]
          simp only [hsame] at h1
          simpa only [AsyncCollectivesSupport.run, AsyncCollectivesSupport.step, hstep,
              successes, List.filterMap_cons, success, if_neg hkey] using h1
      | some y =>
        have hstep : s.PushEvent uid d x = _ := PushEvent_of_some s uid d y x hs
        simpa only [AsyncCollectivesSupport.run, AsyncCollectivesSupport.step, hstep,
              successes, List.filterMap_cons, success] using ih s
    | Pop uid d =>
      cases hs : s.done_events_ (Key uid d) with
      | none =>
        have hstep : s.PopEvent uid d = _ := PopEvent_of_none s uid d hs
        simpa only [AsyncCollectivesSupport.run, AsyncCollectivesSupport.step, hstep,
              successes, List.filterMap_cons, success] using ih s
      | some y =>
        have hstep : s.PopEvent uid d = _ := PopEvent_of_some s uid d y hs
        by_cases hkey : Key uid d = k
        · subst hkey
          have h1 := (ih ⟨s.done_events_.erase (Key uid d)⟩).1 (by simp [HashMap.erase])
          refine ⟨fun hn => ?_, fun h hh => ?_⟩
          · rw [hs] at hn; cases hn
          · rw [hs] at hh
            cases hh
            right
            refine ⟨_, ?_, h1⟩
            simp only [AsyncCollectivesSupport.run, AsyncCollectivesSupport.step, hstep,
              successes, List.filterMap_cons, success, if_true]
        · have h1 := ih ⟨s.done_events_.erase (Key uid d)⟩
          have hsame : HashMap.erase s.done_events_ (Key uid d) k = s.done_events_ k := by
            simp [HashMap.erase, Ne.symm hkey]
          simp only [hsame] at h1
          simpa only [AsyncCollectivesSupport.run, AsyncCollectivesSupport.step, hstep,
              successes, List.filterMap_cons, success, if_neg hkey] using h1

theorem run_map_fst {Event : Type} (calls : List (Call Event)) :
    ∀ s : AsyncCollectivesSupport Event, (s.run calls).map Prod.fst = calls := by
  induction calls with
  | nil => intro s; rfl
  | cons c cs ih => intro s; simp [AsyncCollectivesSupport.run, ih]

/-- One call flips "a handle is pending for `k`" exactly when it is a
successful operation on `k`. -/
theorem step_parity {Event : Type} (k : Int) (s : AsyncCollectivesSupport Event)
    (c : Call Event) (n : Nat) (hn : n % 2 = 1 ↔ s.done_events_ k ≠ none) :
    ((n + (successes k [(c, (s.step c).2)]).length) % 2 = 1 ↔
      (s.step c).1.done_events_ k ≠ none) := by
  cases c with
  | Push uid d x =>
    cases hs : s.done_events_ (Key uid d) with
    | none =>
      by_cases hkey : Key uid d = k
      · subst hkey
        have h0 : n % 2 ≠ 1 := fun h => (hn.1 h) hs
        simp [AsyncCollectivesSupport.step, PushEvent_of_none s uid d x hs, successes, success]
        omega
      · simp [AsyncCollectivesSupport.step, PushEvent_of_none s uid d x hs, successes, success,
          hkey, Ne.symm hkey]
        simpa using hn
    | some y =>
      simp [AsyncCollectivesSupport.step, PushEvent_of_some s uid d y x hs, successes, success]
      simpa using hn
  | Pop uid d =>
    cases hs : s.done_events_ (Key uid d) with
    | none =>
      simp [AsyncCollectivesSupport.step, PopEvent_of_none s uid d hs, successes, success]
      simpa using hn
    | some y =>
      by_cases hkey : Key uid d = k
      · subst hkey
        have h0 : n % 2 = 1 := hn.2 (by rw [hs]; simp)
        simp [AsyncCollectivesSupport.step, PopEvent_of_some s uid d y hs, successes, success,
          HashMap.erase]
        omega
      · simp [AsyncCollectivesSupport.step, PopEvent_of_some s uid d y hs, successes, success,
          hkey, Ne.symm hkey, HashMap.erase]
        simpa using hn

/-- A call on `k` fails exactly when it is a push with a handle pending for
`k` or a pop with none pending. -/
theorem step_failed_iff {Event : Type} (s : AsyncCollectivesSupport Event)
    (c : Call Event) (n : Nat) (hn : n % 2 = 1 ↔ s.done_events_ c.key ≠ none) :
    ((s.step c).2.failed = true ↔ deviates c n) := by
  cases c with
  | Push uid d x =>
    cases hs : s.done_events_ (Key uid d) with
    | none =>
      have h0 : n % 2 ≠ 1 := fun h => (hn.1 h) hs
      simp [AsyncCollectivesSupport.step, PushEvent_of_none s uid d x hs, Reply.failed,
        deviates, Call.isPush, h0]
    | some y =>
      have h0 : n % 2 = 1 := hn.2 (by simp [Call.key, hs])
      simp [AsyncCollectivesSupport.step, PushEvent_of_some s uid d y x hs, Reply.failed,
        deviates, Call.isPush, h0]
  | Pop uid d =>
    cases hs : s.done_events_ (Key uid d) with
    | none =>
      have h0 : n % 2 ≠ 1 := fun h => (hn.1 h) hs
      have h1 : n % 2 = 0 := by omega
      simp [AsyncCollectivesSupport.step, PopEvent_of_none s uid d hs, Reply.failed,
        deviates, Call.isPush, h1]
    | some y =>
      have h0 : n % 2 = 1 := hn.2 (by simp [Call.key, hs])
      simp [AsyncCollectivesSupport.step, PopEvent_of_some s uid d y hs, Reply.failed,
        deviates, Call.isPush, h0]

theorem run_failed_iff {Event : Type} (k : Int) (calls : List (Call Event)) :
    ∀ (s : AsyncCollectivesSupport Event) (n : Nat),
      (n % 2 = 1 ↔ s.done_events_ k ≠ none) →
      ∀ (i : Nat) (c : Call Event) (r : Reply Event),
        (s.run calls)[i]? = some (c, r) → c.key = k →
        (r.failed = true ↔ deviates c (n + (successes k ((s.run calls).take i)).length)) := by
  induction calls with
  | nil => intro s n _ i c r h; simp [AsyncCollectivesSupport.run] at h
  | cons c0 cs ih =>
    intro s n hn i c r h hkey
    cases i with
    | zero =>
      simp only [AsyncCollectivesSupport.run, List.getElem?_cons_zero, Option.some.injEq,
        Prod.mk.injEq] at h
      obtain ⟨rfl, rfl⟩ := h
      subst hkey
      simpa [successes] using step_failed_iff s c0 n hn
    | succ j =>
      simp only [AsyncCollectivesSupport.run, List.getElem?_cons_succ] at h
      have hp := step_parity k s c0 n hn
      have := ih (s.step c0).1 _ hp j c r h hkey
      rw [this]
      simp only [AsyncCollectivesSupport.run, List.take_succ_cons, successes,
        List.filterMap_cons, List.filterMap_nil]
      cases success k (c0, (s.step c0).2) <;> simp [Nat.add_assoc, Nat.add_comm]

/-- The hand-off per value of `Key`: for every finite sequence of
`PushEvent`/`PopEvent` calls applied to a freshly constructed tracker and
every value `k` of `Key`:
every call gets its reply, in order; the successful calls on `k` form a prefix
of `(push, pop)*` in which every pop returns the handle of the push right
before it; and a call on `k` fails exactly when it deviates from the pattern,
that is, a push when the number of earlier successful calls on `k` is odd (a
handle is pending) or a pop when that number is even (none is pending). -/
theorem handoff_by_key_value {Event : Type} (calls : List (Call Event)) (k : Int) :
    ((AsyncCollectivesSupport.init : AsyncCollectivesSupport Event).run calls).map Prod.fst = calls ∧
    IsHandoffPrefix (successes k ((AsyncCollectivesSupport.init : AsyncCollectivesSupport Event).run calls)) ∧
    ∀ (i : Nat) (c : Call Event) (r : Reply Event),
      ((AsyncCollectivesSupport.init : AsyncCollectivesSupport Event).run calls)[i]? = some (c, r) →
      c.key = k →
      (r.failed = true ↔
        deviates c
          (successes k (((AsyncCollectivesSupport.init : AsyncCollectivesSupport Event).run calls).take i)).length) := by
  refine ⟨run_map_fst calls _, (successes_run_shape k calls _).1 rfl, ?_⟩
  intro i c r h hkey
  have := run_failed_iff k calls (AsyncCollectivesSupport.init : AsyncCollectivesSupport Event) 0
    (by simp [AsyncCollectivesSupport.init, HashMap.empty]) i c r h hkey
  simpa using this

/-! ## Properties of `CollectivesSupport` -/

theorem MaybeBlock_of_none (s : CollectivesSupport) (uid d : Int) (stream : Stream)
    (hk : s.executed_ (Key uid d) = none) :
    s.MaybeBlockAfterFirstRun uid d stream =
      { support := ⟨fun k => if k = Key uid d then some true else s.executed_ k⟩,
        status := stream.BlockHostUntilDone,
        actions := [Action.MutexLock, Action.TryEmplace (Key uid d), Action.MutexUnlock,
          Action.BlockHostUntilDone stream] } := by
  simp [CollectivesSupport.MaybeBlockAfterFirstRun, HashMap.try_emplace, hk]

theorem MaybeBlock_of_some (s : CollectivesSupport) (uid d : Int) (stream : Stream) (b : Bool)
    (hk : s.executed_ (Key uid d) = some b) :
    s.MaybeBlockAfterFirstRun uid d stream =
      { support := s, status := Status.OkStatus,
        actions := [Action.MutexLock, Action.TryEmplace (Key uid d), Action.MutexUnlock] } := by
  simp [CollectivesSupport.MaybeBlockAfterFirstRun, HashMap.try_emplace, hk]

/-- Once the key is recorded, no call for it blocks and every call returns OK. -/
theorem calls_of_some (uid d : Int) (streams : List Stream) :
    ∀ (s : CollectivesSupport) (b : Bool), s.executed_ (Key uid d) = some b →
      ∀ r ∈ s.calls uid d streams, r.blocked = false ∧ r.status = Status.OkStatus := by
  induction streams with
  | nil => intro s b _ r hr; simp [CollectivesSupport.calls] at hr
  | cons st rest ih =>
    intro s b hk r hr
    simp only [CollectivesSupport.calls, MaybeBlock_of_some s uid d st b hk,
      List.mem_cons] at hr
    rcases hr with rfl | hr
    · exact ⟨by simp [BlockResult.blocked, Action.isBlock], rfl⟩
    · exact ih s b hk r hr

theorem calls_length (uid d : Int) (streams : List Stream) :
    ∀ s : CollectivesSupport, (s.calls uid d streams).length = streams.length := by
  induction streams with
  | nil => intro s; rfl
  | cons st rest ih => intro s; simp [CollectivesSupport.calls, ih]

/-- C7: starting from a `CollectivesSupport` in which the key of
`(uid, device_ordinal)` has never been observed, in every sequence of `N ≥ 1`
calls `MaybeBlockAfterFirstRun(uid, device_ordinal, stream)` (one result per
call) the first call invokes `BlockHostUntilDone` on its stream, once, and
returns the status of that wait; each of the other `N - 1` calls returns OK
without blocking; so exactly one call of the `N` blocks. -/
theorem first_run_blocks_exactly_once (s : CollectivesSupport) (uid d : Int)
    (stream : Stream) (streams : List Stream) (hk : s.executed_ (Key uid d) = none) :
    (s.calls uid d (stream :: streams)).length = streams.length + 1 ∧
    (∃ first rest, s.calls uid d (stream :: streams) = first :: rest ∧
      first.blocked = true ∧
      first.actions.filter Action.isBlock = [Action.BlockHostUntilDone stream] ∧
      first.status = stream.BlockHostUntilDone ∧
      ∀ r ∈ rest, r.blocked = false ∧ r.status = Status.OkStatus) ∧
    ((s.calls uid d (stream :: streams)).filter BlockResult.blocked).length = 1 := by
  have hrest := calls_of_some uid d streams
    ⟨fun k => if k = Key uid d then some true else s.executed_ k⟩ true (by simp)
  refine ⟨calls_length uid d _ s, ⟨_, _, rfl, ?_, ?_, ?_, ?_⟩, ?_⟩
  · simp [MaybeBlock_of_none s uid d stream hk, BlockResult.blocked, Action.isBlock]
  · simp [MaybeBlock_of_none s uid d stream hk, Action.isBlock]
  · simp [MaybeBlock_of_none s uid d stream hk]
  · simpa only [MaybeBlock_of_none s uid d stream hk] using hrest
  · simp only [CollectivesSupport.calls, MaybeBlock_of_none s uid d stream hk]
    rw [List.filter_cons_of_pos (by simp [BlockResult.blocked, Action.isBlock])]
    rw [List.filter_eq_nil_iff.2 (fun r hr => by simp [(hrest r hr).1])]
    rfl

/-- Witness of C7: three calls for key (5, 0) on a fresh `CollectivesSupport`,
the first of them on a stream whose wait fails. -/
theorem first_run_blocks_exactly_once_witness :
    ((CollectivesSupport.init.calls 5 0
      [⟨Status.Internal ("stream error")⟩, ⟨Status.OkStatus⟩, ⟨Status.OkStatus⟩]).filter
        BlockResult.blocked).length = 1 :=
  (first_run_blocks_exactly_once CollectivesSupport.init 5 0 ⟨Status.Internal ("stream error")⟩
    [⟨Status.OkStatus⟩, ⟨Status.OkStatus⟩] rfl).2.2

end gpu
end xla

namespace xla

/-! ## Reachability -/

theorem Frame.refl (c : HloComputation) : Frame c c := ⟨rfl, rfl, rfl, fun _ h => h⟩

theorem Frame.trans {c c2 c3 : HloComputation} (h : Frame c c2) (h2 : Frame c2 c3) :
    Frame c c3 :=
  ⟨h2.1.trans h.1, h2.2.1.trans h.2.1, h2.2.2.1.trans h.2.2.1,
    fun e he => h2.2.2.2 e (h.2.2.2 e he)⟩

theorem Frame.edge {c c2 : HloComputation} (h : Frame c c2) {a b : Nat} (hab : c.Edge a b) :
    c2.Edge a b := by
  unfold HloComputation.Edge HloComputation.edges at *
  rw [List.mem_append] at *
  rw [h.2.2.1]
  exact hab.imp id (h.2.2.2 _)

theorem Frame.reaches {c c2 : HloComputation} (h : Frame c c2) {a b : Nat}
    (hab : c.Reaches a b) : c2.Reaches a b :=
  Relation.ReflTransGen.mono (fun _ _ he => h.edge he) hab

/-- When every edge increases `pos`, reachability does not decrease it, and
increases it between distinct instructions. -/
theorem reaches_pos {c : HloComputation} {pos : Nat → Nat}
    (hpos : ∀ a b, c.Edge a b → pos a < pos b) {a b : Nat} (h : c.Reaches a b) :
    a = b ∨ pos a < pos b := by
  induction h with
  | refl => exact Or.inl rfl
  | tail _ hbc ih =>
    have := hpos _ _ hbc
    rcases ih with rfl | ih
    · exact Or.inr this
    · exact Or.inr (lt_trans ih this)

theorem reachableWithin_sound (c : HloComputation) :
    ∀ (fuel a b : Nat), reachableWithin c fuel a b = true → c.Reaches a b := by
  intro fuel
  induction fuel with
  | zero =>
    intro a b h
    simp only [reachableWithin, beq_iff_eq] at h
    subst h; exact Relation.ReflTransGen.refl
  | succ n ih =>
    intro a b h
    simp only [reachableWithin, Bool.or_eq_true, beq_iff_eq, List.any_eq_true,
      Bool.and_eq_true] at h
    rcases h with rfl | ⟨e, he, hea, hr⟩
    · exact Relation.ReflTransGen.refl
    · subst hea
      exact Relation.ReflTransGen.head (show c.Edge e.1 e.2 from he) (ih _ _ hr)

theorem reachableWithin_complete (c : HloComputation) (pos : Nat → Nat)
    (hpos : ∀ a b, c.Edge a b → pos a < pos b) :
    ∀ (fuel a b : Nat), c.Reaches a b → pos b - pos a ≤ fuel →
      reachableWithin c fuel a b = true := by
  intro fuel
  induction fuel with
  | zero =>
    intro a b h hle
    rcases reaches_pos hpos h with rfl | hlt
    · simp [reachableWithin]
    · omega
  | succ n ih =>
    intro a b h hle
    rcases Relation.ReflTransGen.cases_head h with rfl | ⟨a2, hedge, hrest⟩
    · simp [reachableWithin]
    · have h1 := hpos _ _ hedge
      have h2 := ih a2 b hrest (by omega)
      simp only [reachableWithin, Bool.or_eq_true, beq_iff_eq, List.any_eq_true,
        Bool.and_eq_true]
      exact Or.inr ⟨(a, a2), hedge, rfl, h2⟩

/-- The search is exact on every computation that has a topological order. -/
theorem searchReachability_exact (c : HloComputation) (order : List Nat)
    (h : IsTopologicalOrder c order) : (searchReachability c).Exact c := by
  intro a _ b _
  constructor
  · exact reachableWithin_sound c _ a b
  · intro hr
    apply reachableWithin_complete c (fun n => order.indexOf n)
      (fun x y hxy => (h.2.2 (x, y) hxy).2.2) _ a b hr
    have : order.indexOf b ≤ order.length := List.indexOf_le_length
    have hlen : order.length = c.instructions.length := h.2.1.length_eq
    show order.indexOf b - order.indexOf a ≤ c.instructions.length
    omega

/-! ## Edge insertion -/

/-- What a successful insertion does: nothing but the control edges changes,
and the control edges are the old ones, followed by the new edge when it was
not among them. -/
theorem AddControlDependencyTo_ok {rejects : HloComputation → Nat → Nat → Bool}
    {c c2 : HloComputation} {p n : Nat}
    (h : AddControlDependencyTo rejects c p n = .ok c2) :
    Frame c c2 ∧ (p, n) ∈ c2.control_edges ∧
    (c2.control_edges = c.control_edges ∨ c2.control_edges = c.control_edges ++ [(p, n)]) := by
  unfold AddControlDependencyTo at h
  split at h
  · cases h
  · split at h
    · cases h
      exact ⟨Frame.refl _, by assumption, Or.inl rfl⟩
    · cases h
      exact ⟨⟨rfl, rfl, rfl, fun e he => List.mem_append_left _ he⟩, by simp, Or.inr rfl⟩

/-- An insertion that is not rejected succeeds. -/
theorem AddControlDependencyTo_of_not_rejected (rejects : HloComputation → Nat → Nat → Bool)
    (c : HloComputation) (p n : Nat) (h : rejects c p n = false) :
    ∃ c2, AddControlDependencyTo rejects c p n = .ok c2 := by
  unfold AddControlDependencyTo
  rw [h]
  by_cases hm : (p, n) ∈ c.control_edges
  · exact ⟨c, by simp [hm]⟩
  · exact ⟨{ c with control_edges := c.control_edges ++ [(p, n)] }, by simp [hm]⟩

theorem edge_after_insertion {c c2 : HloComputation} {p n : Nat}
    (hf : Frame c c2)
    (hc : c2.control_edges = c.control_edges ∨ c2.control_edges = c.control_edges ++ [(p, n)])
    {a b : Nat} (h : c2.Edge a b) : c.Edge a b ∨ (a = p ∧ b = n) := by
  unfold HloComputation.Edge HloComputation.edges at *
  rw [List.mem_append] at *
  rw [hf.2.2.1] at h
  rcases h with h | h
  · exact Or.inl (Or.inl h)
  · rcases hc with hc | hc
    · rw [hc] at h; exact Or.inl (Or.inr h)
    · rw [hc, List.mem_append, List.mem_singleton] at h
      rcases h with h | h
      · exact Or.inl (Or.inr h)
      · cases h; exact Or.inr ⟨rfl, rfl⟩

/-! ## The instruction loop on a topologically ordered traversal -/

/-- The loop invariant behind totality.  `r` is exact for `c0`, the current
computation `c` is `c0` with control edges added, every edge of `c` increases
`pos`, the instructions still to visit are listed by increasing `pos`, and
`prev` has a smaller `pos` than all of them.  Then the loop succeeds, only
adds control edges, keeps every edge increasing in `pos`, and afterwards each
collective still to visit is reachable from `prev` and from every collective
visited before it. -/
theorem RunInstructions_total (rejects : HloComputation → Nat → Nat → Bool)
    (hrej : RejectsOnlyCycles rejects) (r : HloReachabilityMap) (c0 : HloComputation)
    (hexact : r.Exact c0) (pos : Nat → Nat) :
    ∀ (order : List Nat) (c : HloComputation) (prev : Option Nat) (changed : Bool),
      Frame c0 c → (∀ a b, c.Edge a b → pos a < pos b) →
      order.Pairwise (fun x y => pos x < pos y) →
      (∀ x ∈ order, x ∈ c0.instructions) →
      (∀ p, prev = some p → p ∈ c0.instructions ∧ ∀ x ∈ order, pos p < pos x) →
      ∃ c2 changed2, RunInstructions rejects r order c prev changed = (c2, .ok changed2) ∧
        Frame c c2 ∧ (∀ a b, c2.Edge a b → pos a < pos b) ∧
        order.Pairwise (fun x y => c0.is_collective x = true → c0.is_collective y = true →
          c2.Reaches x y) ∧
        (∀ p, prev = some p → ∀ x ∈ order, c0.is_collective x = true → c2.Reaches p x) := by
  intro order
  induction order with
  | nil =>
    intro c prev changed _ hpos _ _ _
    exact ⟨c, changed, rfl, Frame.refl c, hpos, List.Pairwise.nil, fun _ _ x hx => by cases hx⟩
  | cons x rest ih =>
    intro c prev changed hfr hpos hpw hmem hprev
    have hpw2 := List.pairwise_cons.1 hpw
    have hxin : x ∈ c0.instructions := hmem x (List.mem_cons_self _ _)
    have hmem2 : ∀ y ∈ rest, y ∈ c0.instructions := fun y hy => hmem y (List.mem_cons_of_mem _ hy)
    have hcoll : c.is_collective = c0.is_collective := hfr.2.1
    by_cases hx : c0.is_collective x = true
    · -- a collective: continue from `c3` with `prev = x`
      have key : ∀ c3 ch3, Frame c c3 → (∀ a b, c3.Edge a b → pos a < pos b) →
          (∀ p, prev = some p → c3.Reaches p x) →
          RunInstructions rejects r (x :: rest) c prev changed
            = RunInstructions rejects r rest c3 (some x) ch3 →
          ∃ c2 changed2, RunInstructions rejects r (x :: rest) c prev changed
              = (c2, .ok changed2) ∧
            Frame c c2 ∧ (∀ a b, c2.Edge a b → pos a < pos b) ∧
            (x :: rest).Pairwise (fun x y => c0.is_collective x = true →
              c0.is_collective y = true → c2.Reaches x y) ∧
            (∀ p, prev = some p → ∀ y ∈ x :: rest, c0.is_collective y = true →
              c2.Reaches p y) := by
        intro c3 ch3 hf3 hpos3 hpx heq
        obtain ⟨c2, ch2, hrun, hf2, hpos2, hpair, hfrom⟩ :=
          ih c3 (some x) ch3 (hfr.trans hf3) hpos3 hpw2.2 hmem2
            (fun p hp => by cases hp; exact ⟨hxin, hpw2.1⟩)
        refine ⟨c2, ch2, by rw [heq, hrun], hf3.trans hf2, hpos2, ?_, ?_⟩
        · exact List.pairwise_cons.2 ⟨fun y hy _ hcy => hfrom x rfl y hy hcy, hpair⟩
        · intro p hp y hy hcy
          have h1 : c2.Reaches p x := hf2.reaches (hpx p hp)
          rcases List.mem_cons.1 hy with rfl | hy
          · exact h1
          · exact h1.trans (hfrom x rfl y hy hcy)
      cases prev with
      | none =>
        apply key c changed (Frame.refl c) hpos (fun p hp => by cases hp)
        simp [RunInstructions, hcoll, hx]
      | some p =>
        obtain ⟨hpin, hplt⟩ := hprev p rfl
        have hpx : pos p < pos x := hplt x (List.mem_cons_self _ _)
        have hnot : ¬ c.Reaches x p := fun h => by
          rcases reaches_pos hpos h with rfl | h <;> omega
        by_cases hconn : r.IsConnected x p = true
        · -- already connected: no insertion
          have hreach : c.Reaches p x := by
            simp only [HloReachabilityMap.IsConnected, Bool.or_eq_true] at hconn
            rcases hconn with h | h
            · exact absurd (hfr.reaches ((hexact x hxin p hpin).1 h)) hnot
            · exact hfr.reaches ((hexact p hpin x hxin).1 h)
          apply key c changed (Frame.refl c) hpos (fun q hq => by cases hq; exact hreach)
          simp [RunInstructions, hcoll, hx, hconn]
        · -- independent: the insertion is not rejected
          have hrj : rejects c p x = false := by
            cases h : rejects c p x with
            | false => rfl
            | true => exact absurd (hrej c p x h) hnot
          obtain ⟨c3, hadd⟩ := AddControlDependencyTo_of_not_rejected rejects c p x hrj
          obtain ⟨hf3, hin3, hc3⟩ := AddControlDependencyTo_ok hadd
          have hpos3 : ∀ a b, c3.Edge a b → pos a < pos b := by
            intro a b hab
            rcases edge_after_insertion hf3 hc3 hab with h | ⟨rfl, rfl⟩
            · exact hpos a b h
            · exact hpx
          have hedge : c3.Edge p x := by
            unfold HloComputation.Edge HloComputation.edges
            exact List.mem_append_right _ hin3
          apply key c3 true hf3 hpos3
            (fun q hq => by cases hq; exact Relation.ReflTransGen.single hedge)
          simp [RunInstructions, hcoll, hx, hconn, hadd]
    · -- not a collective: skipped
      obtain ⟨c2, ch2, hrun, hf2, hpos2, hpair, hfrom⟩ :=
        ih c prev changed hfr hpos hpw2.2 hmem2
          (fun p hp => ⟨(hprev p hp).1, fun y hy => (hprev p hp).2 y (List.mem_cons_of_mem _ hy)⟩)
      refine ⟨c2, ch2, by simp [RunInstructions, hcoll, hx, hrun], hf2, hpos2, ?_, ?_⟩
      · exact List.pairwise_cons.2 ⟨fun y _ hcx => absurd hcx hx, hpair⟩
      · intro p hp y hy hcy
        rcases List.mem_cons.1 hy with rfl | hy
        · exact absurd hcy hx
        · exact hfrom p hp y hy hcy

/-! ## One computation -/

theorem pairwise_indexOf_of_nodup : ∀ (l : List Nat), l.Nodup →
    l.Pairwise (fun x y => l.indexOf x < l.indexOf y) := by
  intro l
  induction l with
  | nil => intro _; exact List.Pairwise.nil
  | cons x rest ih =>
    intro hnd
    obtain ⟨hx, hrest⟩ := List.nodup_cons.1 hnd
    refine List.pairwise_cons.2 ⟨fun y hy => ?_, ?_⟩
    · have hne : y ≠ x := fun h => hx (h ▸ hy)
      rw [List.indexOf_cons_self, List.indexOf_cons_ne _ hne.symm]
      omega
    · refine (ih hrest).imp_of_mem ?_
      intro a b ha hb hab
      have hna : a ≠ x := fun h => hx (h ▸ ha)
      have hnb : b ≠ x := fun h => hx (h ▸ hb)
      rw [List.indexOf_cons_ne _ hna.symm, List.indexOf_cons_ne _ hnb.symm]
      omega

/-- On a well traversed computation the body of the computation loop succeeds,
only adds control edges, keeps `changed` when it was set, and leaves every
collective reachable from every collective visited before it, and not the
other way round. -/
theorem RunComputation_total (env : Collaborators) (hrej : RejectsOnlyCycles env.rejects)
    (c : HloComputation) (hw : WellTraversed env c) (changed : Bool) :
    ∃ c2 changed2, RunComputation env c changed = (c2, .ok changed2) ∧ Frame c c2 ∧
      ∀ a ∈ c.instructions, ∀ b ∈ c.instructions,
        c.is_collective a = true → c.is_collective b = true →
        (env.MakeInstructionPostOrder c).indexOf a < (env.MakeInstructionPostOrder c).indexOf b →
        c2.Reaches a b ∧ ¬ c2.Reaches b a := by
  obtain ⟨⟨hnd, hperm, hedges⟩, hexact⟩ := hw
  have hpw := pairwise_indexOf_of_nodup _ hnd
  obtain ⟨c2, ch2, hrun, hf, hpos2, hpair, -⟩ :=
    RunInstructions_total env.rejects hrej (env.Build c) c hexact
      (fun n => (env.MakeInstructionPostOrder c).indexOf n)
      (env.MakeInstructionPostOrder c) c none changed (Frame.refl c)
      (fun a b hab => (hedges (a, b) hab).2.2) hpw
      (fun x hx => hperm.mem_iff.1 hx) (fun p hp => by cases hp)
  refine ⟨c2, ch2, hrun, hf, ?_⟩
  intro a ha b hb hca hcb hlt
  constructor
  · have hsym : Symmetric (fun x y : Nat =>
        ((env.MakeInstructionPostOrder c).indexOf x < (env.MakeInstructionPostOrder c).indexOf y →
          c.is_collective x = true → c.is_collective y = true → c2.Reaches x y) ∧
        ((env.MakeInstructionPostOrder c).indexOf y < (env.MakeInstructionPostOrder c).indexOf x →
          c.is_collective y = true → c.is_collective x = true → c2.Reaches y x)) :=
      fun x y h => ⟨h.2, h.1⟩
    have hall : (env.MakeInstructionPostOrder c).Pairwise (fun x y : Nat =>
        ((env.MakeInstructionPostOrder c).indexOf x < (env.MakeInstructionPostOrder c).indexOf y →
          c.is_collective x = true → c.is_collective y = true → c2.Reaches x y) ∧
        ((env.MakeInstructionPostOrder c).indexOf y < (env.MakeInstructionPostOrder c).indexOf x →
          c.is_collective y = true → c.is_collective x = true → c2.Reaches y x)) := by
      refine (hpw.and hpair).imp ?_
      intro x y h
      exact ⟨fun _ hx hy => h.2 hx hy, fun hlt2 => absurd hlt2 (by have := h.1; omega)⟩
    have hne : a ≠ b := fun h => by subst h; omega
    exact (hall.forall hsym (hperm.mem_iff.2 ha) (hperm.mem_iff.2 hb) hne).1 hlt hca hcb
  · intro hba
    rcases reaches_pos hpos2 hba with h | h
    · subst h; omega
    · omega

/-! ## The whole pass -/

/-- On well traversed computations the pass succeeds and linearizes each of them. -/
theorem RunComputations_total (env : Collaborators) (hrej : RejectsOnlyCycles env.rejects) :
    ∀ (module : List HloComputation) (changed : Bool),
      (∀ c ∈ module, WellTraversed env c) →
      ∃ module2 changed2, RunComputations env module changed = (module2, .ok changed2) ∧
        List.Forall₂ (fun c c2 => Frame c c2 ∧
          CollectivesLinearized (env.MakeInstructionPostOrder c) c c2) module module2 := by
  intro module
  induction module with
  | nil => intro changed _; exact ⟨[], changed, rfl, List.Forall₂.nil⟩
  | cons c rest ih =>
    intro changed hw
    obtain ⟨c2, ch2, hrun, hf, hlin⟩ :=
      RunComputation_total env hrej c (hw c (List.mem_cons_self _ _)) changed
    obtain ⟨rest2, ch3, hrest, hall⟩ := ih ch2 (fun x hx => hw x (List.mem_cons_of_mem _ hx))
    refine ⟨c2 :: rest2, ch3, by simp [RunComputations, hrun, hrest], List.Forall₂.cons ⟨hf, ?_⟩ hall⟩
    intro a ha b hb hca hcb hne
    have hnd := (hw c (List.mem_cons_self _ _)).1.1
    have hperm := (hw c (List.mem_cons_self _ _)).1.2.1
    have hidx : (env.MakeInstructionPostOrder c).indexOf a ≠
        (env.MakeInstructionPostOrder c).indexOf b :=
      fun h => hne ((List.indexOf_inj (hperm.mem_iff.2 ha) (hperm.mem_iff.2 hb)).1 h)
    refine ⟨?_, hlin a ha b hb hca hcb⟩
    rcases Nat.lt_or_gt_of_ne hidx with h | h
    · exact Or.inl (hlin a ha b hb hca hcb h).1
    · exact Or.inr (hlin b hb a ha hcb hca h).1

/-- C1: when edge insertion is rejected only for edges that would close a
cycle and, for every computation of the module, the instruction traversal is a
topological order of the combined data+control relation and the reachability
map is exact for that relation, `Run` succeeds, changes nothing but the control
edges, which it only adds to, and in each resulting computation every two
distinct collective instructions are related by reachability in one direction:
the one visited earlier reaches the one visited later, and not the other way
round. -/
theorem linearizer_totality (env : Collaborators) (module : List HloComputation)
    (hrej : RejectsOnlyCycles env.rejects) (hw : ∀ c ∈ module, WellTraversed env c) :
    ∃ module2 changed, Run env module = (module2, .ok changed) ∧
      List.Forall₂ (fun c c2 => Frame c c2 ∧
        CollectivesLinearized (env.MakeInstructionPostOrder c) c c2) module module2 :=
  RunComputations_total env hrej module false hw

theorem test_env_rejectsOnlyCycles : RejectsOnlyCycles test_env.rejects := by
  intro c p n h
  cases h

theorem test_env_wellTraversed (c : HloComputation)
    (h : IsTopologicalOrder c c.instructions) : WellTraversed test_env c :=
  ⟨h, searchReachability_exact c c.instructions h⟩

theorem test_module_wellTraversed :
    ∀ c ∈ [test_sum, FixOrdering_entry], WellTraversed test_env c := by
  intro c hc
  simp only [List.mem_cons, List.mem_singleton, List.not_mem_nil, or_false] at hc
  rcases hc with rfl | rfl
  · exact test_env_wellTraversed _ (by decide)
  · exact test_env_wellTraversed _ (by decide)

/-- Witness of C1: the module of the test `FixOrdering`. -/
theorem linearizer_totality_witness :
    RejectsOnlyCycles test_env.rejects ∧
    (∀ c ∈ [test_sum, FixOrdering_entry], WellTraversed test_env c) ∧
    ∃ module2 changed, Run test_env [test_sum, FixOrdering_entry] = (module2, .ok changed) ∧
      List.Forall₂ (fun c c2 => Frame c c2 ∧
        CollectivesLinearized (test_env.MakeInstructionPostOrder c) c c2)
        [test_sum, FixOrdering_entry] module2 :=
  ⟨test_env_rejectsOnlyCycles, test_module_wellTraversed,
    linearizer_totality test_env [test_sum, FixOrdering_entry] test_env_rejectsOnlyCycles
      test_module_wellTraversed⟩

/-! ## Runs that insert nothing -/

/-- When the reachability map connects every two instructions of a set that
holds `prev` and the collectives still to visit, the loop changes nothing. -/
theorem RunInstructions_noop (rejects : HloComputation → Nat → Nat → Bool)
    (r : HloReachabilityMap) (P : Nat → Prop)
    (hP : ∀ x y, P x → P y → r.IsConnected x y = true) :
    ∀ (order : List Nat) (c : HloComputation) (prev : Option Nat) (changed : Bool),
      (∀ x ∈ order, c.is_collective x = true → P x) → (∀ p, prev = some p → P p) →
      RunInstructions rejects r order c prev changed = (c, .ok changed) := by
  intro order
  induction order with
  | nil => intro c prev changed _ _; rfl
  | cons x rest ih =>
    intro c prev changed hall hprev
    have hrest : ∀ y ∈ rest, c.is_collective y = true → P y :=
      fun y hy => hall y (List.mem_cons_of_mem _ hy)
    by_cases hx : c.is_collective x = true
    · have hPx : P x := hall x (List.mem_cons_self _ _) hx
      have hnext := ih c (some x) changed hrest (fun p hp => by cases hp; exact hPx)
      cases prev with
      | none => simp [RunInstructions, hx, hnext]
      | some p => simp [RunInstructions, hx, hP x p hPx (hprev p rfl), hnext]
    · simp [RunInstructions, hx, ih c prev changed hrest hprev]

/-- A computation whose collectives are pairwise connected is left as it is. -/
theorem RunComputation_noop (env : Collaborators) (c : HloComputation)
    (hw : WellTraversed env c)
    (hconn : ∀ a ∈ c.instructions, ∀ b ∈ c.instructions,
      c.is_collective a = true → c.is_collective b = true → c.Connected a b)
    (changed : Bool) : RunComputation env c changed = (c, .ok changed) := by
  obtain ⟨⟨_, hperm, _⟩, hexact⟩ := hw
  apply RunInstructions_noop env.rejects (env.Build c)
    (fun x => x ∈ c.instructions ∧ c.is_collective x = true)
  · rintro x y ⟨hx, hcx⟩ ⟨hy, hcy⟩
    simp only [HloReachabilityMap.IsConnected, Bool.or_eq_true]
    exact (hconn x hx y hy hcx hcy).imp (hexact x hx y hy).2 (hexact y hy x hx).2
  · exact fun x hx hcx => ⟨hperm.mem_iff.1 hx, hcx⟩
  · intro p hp; cases hp

theorem RunComputations_noop (env : Collaborators) :
    ∀ (module : List HloComputation) (changed : Bool),
      (∀ c ∈ module, ∀ ch, RunComputation env c ch = (c, .ok ch)) →
      RunComputations env module changed = (module, .ok changed) := by
  intro module
  induction module with
  | nil => intro changed _; rfl
  | cons c rest ih =>
    intro changed h
    simp [RunComputations, h c (List.mem_cons_self _ _) changed,
      ih changed (fun x hx => h x (List.mem_cons_of_mem _ hx))]

/-- In a linearized computation the collectives are pairwise connected. -/
theorem connected_of_linearized {order : List Nat} {c c2 : HloComputation}
    (hf : Frame c c2) (hlin : CollectivesLinearized order c c2) :
    ∀ a ∈ c2.instructions, ∀ b ∈ c2.instructions,
      c2.is_collective a = true → c2.is_collective b = true → c2.Connected a b := by
  intro a ha b hb hca hcb
  rw [hf.1] at ha hb
  rw [hf.2.1] at hca hcb
  by_cases hab : a = b
  · subst hab; exact Or.inl Relation.ReflTransGen.refl
  · exact (hlin a ha b hb hca hcb hab).1

/-- C8: for a module of acyclic computations (each with a traversal that is a
topological order and an exact reachability map, insertion being rejected only
for cycle-closing edges), the first `Run` succeeds, and a second `Run` on the
module it produced, with any traversals that are topological orders of the
computations as they are then and reachability maps exact for them, leaves the
module as it is (adds no edge) and returns `changed = false`. -/
theorem linearizer_idempotent (env env2 : Collaborators) (module : List HloComputation)
    (hrej : RejectsOnlyCycles env.rejects) (hw : ∀ c ∈ module, WellTraversed env c)
    (hw2 : ∀ c2 ∈ (Run env module).1, WellTraversed env2 c2) :
    (∃ changed, (Run env module).2 = .ok changed) ∧
    Run env2 (Run env module).1 = ((Run env module).1, .ok false) := by
  obtain ⟨module2, changed, hrun, hall⟩ := RunComputations_total env hrej module false hw
  have hrun2 : Run env module = (module2, .ok changed) := hrun
  rw [hrun2] at hw2 ⊢
  refine ⟨⟨changed, rfl⟩, ?_⟩
  apply RunComputations_noop env2 module2 false
  intro c2 hc2 ch
  have hex : ∃ c, c ∈ module ∧ Frame c c2 ∧
      CollectivesLinearized (env.MakeInstructionPostOrder c) c c2 := by
    clear hw2 hrun hrun2
    induction hall with
    | nil => cases hc2
    | cons hhead _ ih =>
      rcases List.mem_cons.1 hc2 with rfl | hmem
      · exact ⟨_, List.mem_cons_self _ _, hhead.1, hhead.2⟩
      · obtain ⟨c, hc, h⟩ := ih (fun x hx => hw x (List.mem_cons_of_mem _ hx)) hmem
        exact ⟨c, List.mem_cons_of_mem _ hc, h⟩
  obtain ⟨c, _, hf, hlin⟩ := hex
  exact RunComputation_noop env2 c2 (hw2 c2 hc2) (connected_of_linearized hf hlin) ch

theorem Run_FixOrdering :
    Run test_env [test_sum, FixOrdering_entry] =
      ([test_sum, FixOrdering_entry_after], .ok true) := by
  rfl

theorem test_module_after_wellTraversed :
    ∀ c ∈ (Run test_env [test_sum, FixOrdering_entry]).1, WellTraversed test_env c := by
  intro c hc
  rw [Run_FixOrdering] at hc
  simp only [List.mem_cons, List.mem_singleton, List.not_mem_nil, or_false] at hc
  rcases hc with rfl | rfl
  · exact test_env_wellTraversed _ (by decide)
  · exact test_env_wellTraversed _ (by decide)

/-- Witness of C8: the module of the test `FixOrdering`, run twice. -/
theorem linearizer_idempotent_witness :
    (∀ c ∈ [test_sum, FixOrdering_entry], WellTraversed test_env c) ∧
    (∀ c ∈ (Run test_env [test_sum, FixOrdering_entry]).1, WellTraversed test_env c) ∧
    (Run test_env [test_sum, FixOrdering_entry]).2 = .ok true ∧
    Run test_env (Run test_env [test_sum, FixOrdering_entry]).1
      = ((Run test_env [test_sum, FixOrdering_entry]).1, .ok false) :=
  ⟨test_module_wellTraversed, test_module_after_wellTraversed, rfl,
    (linearizer_idempotent test_env test_env [test_sum, FixOrdering_entry]
      test_env_rejectsOnlyCycles test_module_wellTraversed test_module_after_wellTraversed).2⟩

/-! ## No redundant edges -/

/-- The loop adds no edge between two instructions that the reachability map
connects, in either direction, whether or not it ends with an error. -/
theorem RunInstructions_count (rejects : HloComputation → Nat → Nat → Bool)
    (r : HloReachabilityMap) (a b : Nat) (hab : r.IsConnected a b = true) :
    ∀ (order : List Nat) (c : HloComputation) (prev : Option Nat) (changed : Bool),
      (RunInstructions rejects r order c prev changed).1.control_edges.count (a, b)
        = c.control_edges.count (a, b) ∧
      (RunInstructions rejects r order c prev changed).1.control_edges.count (b, a)
        = c.control_edges.count (b, a) := by
  have hba : r.IsConnected b a = true := by
    simpa [HloReachabilityMap.IsConnected, Bool.or_comm] using hab
  intro order
  induction order with
  | nil => intro c prev changed; exact ⟨rfl, rfl⟩
  | cons x rest ih =>
    intro c prev changed
    by_cases hx : c.is_collective x = true
    · cases prev with
      | none => simpa [RunInstructions, hx] using ih c (some x) changed
      | some p =>
        by_cases hconn : r.IsConnected x p = true
        · simpa [RunInstructions, hx, hconn] using ih c (some x) changed
        · cases hadd : AddControlDependencyTo rejects c p x with
          | error e => simp [RunInstructions, hx, hconn, hadd]
          | ok c3 =>
            obtain ⟨_, _, hc3⟩ := AddControlDependencyTo_ok hadd
            have h1 : (p, x) ≠ (a, b) := by
              intro h; cases h; exact hconn hba
            have h2 : (p, x) ≠ (b, a) := by
              intro h; cases h; exact hconn hab
            have hsame : c3.control_edges.count (a, b) = c.control_edges.count (a, b) ∧
                c3.control_edges.count (b, a) = c.control_edges.count (b, a) := by
              rcases hc3 with h | h
              · rw [h]; exact ⟨rfl, rfl⟩
              · rw [h, List.count_append, List.count_append,
                  List.count_singleton, List.count_singleton]
                simp [h1, h2]
            have := ih c3 (some x) true
            simp only [RunInstructions, hx, hconn, hadd, if_true, Bool.not_false]
            simpa [hsame.1, hsame.2] using this
    · simpa [RunInstructions, hx] using ih c prev changed

theorem forall₂_imp_of_mem {S Q : HloComputation → HloComputation → Prop} :
    ∀ {l l2 : List HloComputation}, List.Forall₂ S l l2 →
      (∀ c ∈ l, ∀ c2, S c c2 → Q c c2) → List.Forall₂ Q l l2 := by
  intro l l2 h
  induction h with
  | nil => intro _; exact List.Forall₂.nil
  | cons hhead _ ih =>
    intro himp
    exact List.Forall₂.cons (himp _ (List.mem_cons_self _ _) _ hhead)
      (ih (fun c hc c2 hs => himp c (List.mem_cons_of_mem _ hc) c2 hs))

/-- Each computation after the pass is the computation before, untouched, or
what the body of the computation loop made of it. -/
theorem RunComputations_shape (env : Collaborators) :
    ∀ (module : List HloComputation) (changed : Bool),
      List.Forall₂ (fun c c2 => c2 = c ∨ ∃ ch, c2 = (RunComputation env c ch).1)
        module (RunComputations env module changed).1 := by
  intro module
  induction module with
  | nil => intro changed; exact List.Forall₂.nil
  | cons c rest ih =>
    intro changed
    have hsame : List.Forall₂ (fun c c2 => c2 = c ∨ ∃ ch, c2 = (RunComputation env c ch).1)
        rest rest := List.forall₂_same.2 (fun _ _ => Or.inl rfl)
    cases hrun : RunComputation env c changed with
    | mk c2 res =>
      have hc2 : c2 = (RunComputation env c changed).1 := by rw [hrun]
      cases res with
      | error e =>
        simp only [RunComputations, hrun]
        exact List.Forall₂.cons (Or.inr ⟨changed, hc2⟩) hsame
      | ok ch2 =>
        simp only [RunComputations, hrun]
        exact List.Forall₂.cons (Or.inr ⟨changed, hc2⟩) (ih ch2)

/-- Only the collectives of the traversal matter to the loop. -/
theorem RunInstructions_filter (rejects : HloComputation → Nat → Nat → Bool)
    (r : HloReachabilityMap) :
    ∀ (order : List Nat) (c : HloComputation) (prev : Option Nat) (changed : Bool),
      RunInstructions rejects r order c prev changed
        = RunInstructions rejects r (order.filter c.is_collective) c prev changed := by
  intro order
  induction order with
  | nil => intro c prev changed; rfl
  | cons x rest ih =>
    intro c prev changed
    by_cases hx : c.is_collective x = true
    · rw [List.filter_cons_of_pos hx]
      cases prev with
      | none => simp only [RunInstructions, hx, if_true]; exact ih c (some x) changed
      | some p =>
        by_cases hconn : r.IsConnected x p = true
        · simp only [RunInstructions, hx, hconn, if_true, Bool.not_true]
          exact ih c (some x) changed
        · cases hadd : AddControlDependencyTo rejects c p x with
          | error e => simp [RunInstructions, hx, hconn, hadd]
          | ok c3 =>
            obtain ⟨hf, _, _⟩ := AddControlDependencyTo_ok hadd
            simp only [RunInstructions, hx, hconn, hadd, if_true, Bool.not_false]
            rw [ih c3 (some x) true, hf.2.1]
    · rw [List.filter_cons_of_neg hx]
      simp only [RunInstructions, hx]
      exact ih c prev changed

/-- The body of the computation loop on a computation whose only two
collectives are connected: nothing changes. -/
theorem RunComputation_two_connected (env : Collaborators) (c : HloComputation)
    (hexact : (env.Build c).Exact c) (c1 c2 : Nat)
    (h1 : c1 ∈ c.instructions) (h2 : c2 ∈ c.instructions)
    (hcoll : (env.MakeInstructionPostOrder c).filter c.is_collective = [c1, c2])
    (hconn : c.Connected c1 c2) (changed : Bool) :
    RunComputation env c changed = (c, .ok changed) := by
  unfold RunComputation
  rw [RunInstructions_filter, hcoll]
  apply RunInstructions_noop env.rejects (env.Build c) (fun x => x = c1 ∨ x = c2)
  · have hr1 : (env.Build c).IsReachable c1 c1 = true :=
      (hexact c1 h1 c1 h1).2 Relation.ReflTransGen.refl
    have hr2 : (env.Build c).IsReachable c2 c2 = true :=
      (hexact c2 h2 c2 h2).2 Relation.ReflTransGen.refl
    have hr12 : (env.Build c).IsReachable c1 c2 = true ∨
        (env.Build c).IsReachable c2 c1 = true :=
      hconn.imp (hexact c1 h1 c2 h2).2 (hexact c2 h2 c1 h1).2
    rintro x y (rfl | rfl) (rfl | rfl) <;>
      simp only [HloReachabilityMap.IsConnected, Bool.or_eq_true] <;> tauto
  · intro x hx _
    simpa using hx
  · intro p hp; cases hp

/-- C9: for every module whose reachability maps are exact, and every
computation of it: between two collective instructions that are connected
before the pass (one reaches the other through data or control edges) `Run`
adds no control edge, in either direction, whether or not the pass ends with
an error; in particular, when the only two collectives of the computation are
connected before the pass, its control edges, and so the count of them, are
the same after the pass as before. -/
theorem no_redundant_edges (env : Collaborators) (module : List HloComputation)
    (hexact : ∀ c ∈ module, (env.Build c).Exact c) :
    List.Forall₂ (fun c cAfter =>
      (∀ a ∈ c.instructions, ∀ b ∈ c.instructions,
        c.is_collective a = true → c.is_collective b = true → c.Connected a b →
        cAfter.control_edges.count (a, b) = c.control_edges.count (a, b) ∧
        cAfter.control_edges.count (b, a) = c.control_edges.count (b, a)) ∧
      (∀ c1 ∈ c.instructions, ∀ c2 ∈ c.instructions,
        (env.MakeInstructionPostOrder c).filter c.is_collective = [c1, c2] →
        c.Connected c1 c2 →
        cAfter.control_edges = c.control_edges ∧
        CountControlEdges cAfter = CountControlEdges c))
      module (Run env module).1 := by
  refine forall₂_imp_of_mem (RunComputations_shape env module false) ?_
  intro c hc cAfter hshape
  have hex := hexact c hc
  constructor
  · intro a ha b hb _ _ hconn
    have hr : (env.Build c).IsConnected a b = true := by
      simp only [HloReachabilityMap.IsConnected, Bool.or_eq_true]
      exact hconn.imp (hex a ha b hb).2 (hex b hb a ha).2
    rcases hshape with rfl | ⟨ch, rfl⟩
    · exact ⟨rfl, rfl⟩
    · exact RunInstructions_count env.rejects (env.Build c) a b hr _ c none ch
  · intro c1 h1 c2 h2 hcoll hconn
    rcases hshape with rfl | ⟨ch, rfl⟩
    · exact ⟨rfl, rfl⟩
    · rw [RunComputation_two_connected env c hex c1 c2 h1 h2 hcoll hconn ch]
      exact ⟨rfl, rfl⟩

theorem test_exact_NoFixRequired_Dependent :
    ∀ c ∈ [NoFixRequired_entry, DependentCollectives_entry], (test_env.Build c).Exact c := by
  intro c hc
  simp only [List.mem_cons, List.mem_singleton, List.not_mem_nil, or_false] at hc
  rcases hc with rfl | rfl
  · exact (test_env_wellTraversed _ (by decide)).2
  · exact (test_env_wellTraversed _ (by decide)).2

/-- Witness of C9: the `entry` computations of the tests `NoFixRequired` (one
control edge before the pass) and `DependentCollectives` (none before): the
pass leaves the count of control edges of each as it was. -/
theorem no_redundant_edges_witness :
    (∀ c ∈ [NoFixRequired_entry, DependentCollectives_entry], (test_env.Build c).Exact c) ∧
    List.Forall₂ (fun c cAfter => CountControlEdges cAfter = CountControlEdges c)
      [NoFixRequired_entry, DependentCollectives_entry]
      (Run test_env [NoFixRequired_entry, DependentCollectives_entry]).1 ∧
    CountControlEdges NoFixRequired_entry = 1 ∧
    CountControlEdges DependentCollectives_entry = 0 := by
  refine ⟨test_exact_NoFixRequired_Dependent, ?_, by decide, by decide⟩
  refine forall₂_imp_of_mem (no_redundant_edges test_env
    [NoFixRequired_entry, DependentCollectives_entry] test_exact_NoFixRequired_Dependent) ?_
  intro c hc cAfter h
  simp only [List.mem_cons, List.mem_singleton, List.not_mem_nil, or_false] at hc
  rcases hc with rfl | rfl
  · exact (h.2 2 (by decide) 3 (by decide) rfl
      (Or.inl (Relation.ReflTransGen.single (by decide)))).2
  · exact (h.2 2 (by decide) 3 (by decide) rfl
      (Or.inl (Relation.ReflTransGen.single (by decide)))).2

/-! ## Two independent collectives -/

theorem RunInstructions_changed (rejects : HloComputation → Nat → Nat → Bool)
    (r : HloReachabilityMap) :
    ∀ (order : List Nat) (c : HloComputation) (prev : Option Nat) (c2 : HloComputation)
      (changed2 : Bool),
      RunInstructions rejects r order c prev true = (c2, .ok changed2) → changed2 = true := by
  intro order
  induction order with
  | nil => intro c prev c2 ch2 h; simp only [RunInstructions, Prod.mk.injEq, Except.ok.injEq] at h; exact h.2.symm
  | cons x rest ih =>
    intro c prev c2 ch2 h
    by_cases hx : c.is_collective x = true
    · cases prev with
      | none => simp only [RunInstructions, hx, if_true] at h; exact ih _ _ _ _ h
      | some p =>
        by_cases hconn : r.IsConnected x p = true
        · simp only [RunInstructions, hx, hconn, if_true, Bool.not_true] at h
          exact ih _ _ _ _ h
        · cases hadd : AddControlDependencyTo rejects c p x with
          | error e => simp [RunInstructions, hx, hconn, hadd] at h
          | ok c3 =>
            simp only [RunInstructions, hx, hconn, hadd, if_true, Bool.not_false] at h
            exact ih _ _ _ _ h
    · simp only [RunInstructions, hx] at h
      exact ih _ _ _ _ h

theorem RunComputations_changed (env : Collaborators) :
    ∀ (module module2 : List HloComputation) (changed2 : Bool),
      RunComputations env module true = (module2, .ok changed2) → changed2 = true := by
  intro module
  induction module with
  | nil => intro m2 ch2 h; simp only [RunComputations, Prod.mk.injEq, Except.ok.injEq] at h; exact h.2.symm
  | cons c rest ih =>
    intro m2 ch2 h
    cases hrun : RunComputation env c true with
    | mk c2 res =>
      cases res with
      | error e => simp [RunComputations, hrun] at h
      | ok ch3 =>
        have h3 : ch3 = true := RunInstructions_changed _ _ _ _ _ _ _ hrun
        subst h3
        simp only [RunComputations, hrun, Prod.mk.injEq] at h
        exact ih (RunComputations env rest true).1 ch2 (Prod.ext rfl h.2)

theorem RunComputations_append (env : Collaborators) :
    ∀ (pre : List HloComputation) (changed : Bool) (pre2 : List HloComputation)
      (changed2 : Bool), RunComputations env pre changed = (pre2, .ok changed2) →
      ∀ rest, RunComputations env (pre ++ rest) changed
        = (pre2 ++ (RunComputations env rest changed2).1,
            (RunComputations env rest changed2).2) := by
  intro pre
  induction pre with
  | nil =>
    intro changed pre2 ch2 h rest
    simp only [RunComputations, Prod.mk.injEq, Except.ok.injEq] at h
    obtain ⟨rfl, rfl⟩ := h
    rfl
  | cons c more ih =>
    intro changed pre2 ch2 h rest
    cases hrun : RunComputation env c changed with
    | mk c2 res =>
      cases res with
      | error e => simp [RunComputations, hrun] at h
      | ok ch3 =>
        simp only [RunComputations, hrun, Prod.mk.injEq] at h
        obtain ⟨rfl, h2⟩ := h
        have := ih ch3 (RunComputations env more ch3).1 ch2 (Prod.ext rfl h2) rest
        show RunComputations env (c :: (more ++ rest)) changed = _
        simp only [RunComputations, hrun, this]
        rfl

/-- The body of the computation loop on a computation without control edges
whose only two collectives, `c1` visited before `c2`, are not connected: the
edge `c1 → c2` is inserted and `changed` is set. -/
theorem RunComputation_two_independent (env : Collaborators)
    (hrej : RejectsOnlyCycles env.rejects) (c : HloComputation)
    (hexact : (env.Build c).Exact c) (c1 c2 : Nat)
    (h1 : c1 ∈ c.instructions) (h2 : c2 ∈ c.instructions) (hno : c.control_edges = [])
    (hcoll : (env.MakeInstructionPostOrder c).filter c.is_collective = [c1, c2])
    (hindep : ¬ c.Reaches c1 c2 ∧ ¬ c.Reaches c2 c1) (changed : Bool) :
    RunComputation env c changed = ({ c with control_edges := [(c1, c2)] }, .ok true) := by
  have hc1 : c.is_collective c1 = true :=
    (List.mem_filter.1 (hcoll ▸ List.mem_cons_self c1 [c2])).2
  have hc2 : c.is_collective c2 = true :=
    (List.mem_filter.1 (hcoll ▸ List.mem_cons_of_mem c1 (List.mem_cons_self c2 []))).2
  have hconn : (env.Build c).IsConnected c2 c1 = false := by
    cases h : (env.Build c).IsConnected c2 c1 with
    | false => rfl
    | true =>
      simp only [HloReachabilityMap.IsConnected, Bool.or_eq_true] at h
      rcases h with h | h
      · exact absurd ((hexact c2 h2 c1 h1).1 h) hindep.2
      · exact absurd ((hexact c1 h1 c2 h2).1 h) hindep.1
  have hrj : env.rejects c c1 c2 = false := by
    cases h : env.rejects c c1 c2 with
    | false => rfl
    | true => exact absurd (hrej c c1 c2 h) hindep.2
  unfold RunComputation
  rw [RunInstructions_filter, hcoll]
  simp [RunInstructions, hc1, hc2, hconn, AddControlDependencyTo, hrj, hno]

theorem count_single_edge (c1 c2 : Nat) : ∀ l : List Nat,
    (l.map fun i => (([(c1, c2)].filter fun e => e.1 == i).map Prod.snd).length).sum
      = l.count c1 := by
  intro l
  induction l with
  | nil => rfl
  | cons x rest ih =>
    rw [List.map_cons, List.sum_cons, ih, List.count_cons]
    by_cases h : c1 = x
    · subst h; simp; omega
    · have h2 : ¬ (x = c1) := fun e => h e.symm
      simp [h, h2]

/-- C10: in a module whose other computations are well traversed, for a
computation with no control edges, visited along a traversal that lists each
of its instructions once, with an exact reachability map, whose collective
instructions are exactly `c1` and `c2`, `c1` visited before `c2`, with no path
between them in either direction: `Run` succeeds and returns `changed = true`,
and afterwards the computation has exactly one control edge, `c1 → c2`
(`c1` is the control predecessor of `c2`). -/
theorem two_independent_collectives (env : Collaborators) (pre post : List HloComputation)
    (c : HloComputation) (c1 c2 : Nat) (hrej : RejectsOnlyCycles env.rejects)
    (hpre : ∀ x ∈ pre, WellTraversed env x) (hpost : ∀ x ∈ post, WellTraversed env x)
    (hnd : (env.MakeInstructionPostOrder c).Nodup)
    (hperm : (env.MakeInstructionPostOrder c).Perm c.instructions)
    (hexact : (env.Build c).Exact c) (hno : c.control_edges = [])
    (hcoll : (env.MakeInstructionPostOrder c).filter c.is_collective = [c1, c2])
    (hindep : ¬ c.Reaches c1 c2 ∧ ¬ c.Reaches c2 c1) :
    ∃ pre2 cAfter post2,
      Run env (pre ++ c :: post) = (pre2 ++ cAfter :: post2, .ok true) ∧
      pre2.length = pre.length ∧ Frame c cAfter ∧
      cAfter.control_edges = [(c1, c2)] ∧
      cAfter.control_predecessors c2 = [c1] ∧ cAfter.control_successors c1 = [c2] ∧
      CountControlEdges cAfter = 1 := by
  have hm1 : c1 ∈ env.MakeInstructionPostOrder c :=
    (List.mem_filter.1 (hcoll ▸ List.mem_cons_self c1 [c2])).1
  have hm2 : c2 ∈ env.MakeInstructionPostOrder c :=
    (List.mem_filter.1 (hcoll ▸ List.mem_cons_of_mem c1 (List.mem_cons_self c2 []))).1
  have h1 : c1 ∈ c.instructions := hperm.mem_iff.1 hm1
  have h2 : c2 ∈ c.instructions := hperm.mem_iff.1 hm2
  obtain ⟨pre2, ch2, hrunpre, hallpre⟩ := RunComputations_total env hrej pre false hpre
  obtain ⟨post2, ch3, hrunpost, _⟩ := RunComputations_total env hrej post true hpost
  have hch3 : ch3 = true := RunComputations_changed env post post2 ch3 hrunpost
  subst hch3
  have hc := RunComputation_two_independent env hrej c hexact c1 c2 h1 h2 hno hcoll hindep ch2
  refine ⟨pre2, { c with control_edges := [(c1, c2)] }, post2, ?_, hallpre.length_eq.symm,
    ⟨rfl, rfl, rfl, fun e he => by rw [hno] at he; cases he⟩, rfl, ?_, ?_, ?_⟩
  · unfold Run
    rw [RunComputations_append env pre false pre2 ch2 hrunpre]
    simp only [RunComputations, hc, hrunpost]
  · simp [HloComputation.control_predecessors]
  · simp [HloComputation.control_successors]
  · have hnd2 : c.instructions.Nodup := hperm.nodup_iff.1 hnd
    show (c.instructions.map fun i =>
      (([(c1, c2)].filter fun e => e.1 == i).map Prod.snd).length).sum = 1
    rw [count_single_edge, List.count_eq_one_of_mem hnd2 h1]

/-- Witness of C10: the module of the test `FixOrdering`, `pre = [sum]`, the
`entry` computation, `post = []`, `c1 = 2`, `c2 = 3`. -/
theorem two_independent_collectives_witness :
    ((test_env.MakeInstructionPostOrder FixOrdering_entry).filter
        FixOrdering_entry.is_collective = [2, 3]) ∧
    (¬ FixOrdering_entry.Reaches 2 3 ∧ ¬ FixOrdering_entry.Reaches 3 2) ∧
    ∃ pre2 cAfter post2,
      Run test_env ([test_sum] ++ FixOrdering_entry :: []) = (pre2 ++ cAfter :: post2, .ok true) ∧
      pre2.length = [test_sum].length ∧ Frame FixOrdering_entry cAfter ∧
      cAfter.control_edges = [(2, 3)] ∧
      cAfter.control_predecessors 3 = [2] ∧ cAfter.control_successors 2 = [3] ∧
      CountControlEdges cAfter = 1 :=
  have hex : (test_env.Build FixOrdering_entry).Exact FixOrdering_entry :=
    (test_env_wellTraversed FixOrdering_entry (by decide)).2
  have hindep : ¬ FixOrdering_entry.Reaches 2 3 ∧ ¬ FixOrdering_entry.Reaches 3 2 :=
    ⟨fun h => absurd ((hex 2 (by decide) 3 (by decide)).2 h) (by decide),
     fun h => absurd ((hex 3 (by decide) 2 (by decide)).2 h) (by decide)⟩
  ⟨rfl, hindep,
    two_independent_collectives test_env [test_sum] [] FixOrdering_entry 2 3
      test_env_rejectsOnlyCycles
      (fun x hx => by
        simp only [List.mem_singleton] at hx
        subst hx
        exact test_env_wellTraversed _ (by decide))
      (fun x hx => by cases hx)
      (by decide) (List.Perm.refl _) hex rfl rfl hindep⟩

/-! ## What the loop inserts -/

/-- What the instruction loop does to a computation, whatever the reachability
map and whether or not it ends with an error: it appends control edges and
changes nothing else; each appended edge leads from a collective (the initial
`prev` or one of the traversal) to a collective of the traversal; and when the
instructions still to visit are pairwise related by `R`, and `prev` is related
to each of them, the endpoints of each appended edge are related by `R`. -/
theorem RunInstructions_inserted (rejects : HloComputation → Nat → Nat → Bool)
    (r : HloReachabilityMap) (R : Nat → Nat → Prop) :
    ∀ (order : List Nat) (c : HloComputation) (prev : Option Nat) (changed : Bool),
      order.Pairwise R →
      (∀ p, prev = some p → c.is_collective p = true ∧ ∀ x ∈ order, R p x) →
      Frame c (RunInstructions rejects r order c prev changed).1 ∧
      ∃ added, (RunInstructions rejects r order c prev changed).1.control_edges
          = c.control_edges ++ added ∧
        ∀ e ∈ added, R e.1 e.2 ∧ c.is_collective e.1 = true ∧ c.is_collective e.2 = true ∧
          e.2 ∈ order ∧ (e.1 ∈ order ∨ prev = some e.1) := by
  intro order
  induction order with
  | nil =>
    intro c prev changed _ _
    exact ⟨Frame.refl c, [], by simp [RunInstructions], fun e he => by cases he⟩
  | cons x rest ih =>
    intro c prev changed hpw hprev
    have hpw2 := List.pairwise_cons.1 hpw
    -- continuing from `c` with the same `prev`
    have skip : ∀ ch, RunInstructions rejects r (x :: rest) c prev changed
          = RunInstructions rejects r rest c prev ch →
        Frame c (RunInstructions rejects r (x :: rest) c prev changed).1 ∧
        ∃ added, (RunInstructions rejects r (x :: rest) c prev changed).1.control_edges
            = c.control_edges ++ added ∧
          ∀ e ∈ added, R e.1 e.2 ∧ c.is_collective e.1 = true ∧
            c.is_collective e.2 = true ∧ e.2 ∈ x :: rest ∧ (e.1 ∈ x :: rest ∨ prev = some e.1) := by
      intro ch heq
      obtain ⟨hf, added, hadd, hprop⟩ := ih c prev ch hpw2.2
        (fun p hp => ⟨(hprev p hp).1, fun y hy => (hprev p hp).2 y (List.mem_cons_of_mem _ hy)⟩)
      rw [heq]
      refine ⟨hf, added, hadd, fun e he => ?_⟩
      obtain ⟨h1, h2, h3, h4, h5⟩ := hprop e he
      exact ⟨h1, h2, h3, List.mem_cons_of_mem _ h4, h5.imp (List.mem_cons_of_mem _) id⟩
    -- continuing from `c3` with `prev = x`, after appending `first` to the control edges
    have step : ∀ (c3 : HloComputation) (first : List (Nat × Nat)) ch,
        c.is_collective x = true → Frame c c3 →
        c3.control_edges = c.control_edges ++ first →
        (∀ e ∈ first, R e.1 e.2 ∧ c.is_collective e.1 = true ∧ c.is_collective e.2 = true ∧
          e.2 ∈ x :: rest ∧ (e.1 ∈ x :: rest ∨ prev = some e.1)) →
        RunInstructions rejects r (x :: rest) c prev changed
          = RunInstructions rejects r rest c3 (some x) ch →
        Frame c (RunInstructions rejects r (x :: rest) c prev changed).1 ∧
        ∃ added, (RunInstructions rejects r (x :: rest) c prev changed).1.control_edges
            = c.control_edges ++ added ∧
          ∀ e ∈ added, R e.1 e.2 ∧ c.is_collective e.1 = true ∧
            c.is_collective e.2 = true ∧ e.2 ∈ x :: rest ∧ (e.1 ∈ x :: rest ∨ prev = some e.1) := by
      intro c3 first ch hx hf3 hc3 hfirst heq
      obtain ⟨hf, added, hadd, hprop⟩ := ih c3 (some x) ch hpw2.2
        (fun p hp => by cases hp; exact ⟨by rw [hf3.2.1]; exact hx, hpw2.1⟩)
      rw [heq]
      refine ⟨hf3.trans hf, first ++ added, by rw [hadd, hc3, List.append_assoc], fun e he => ?_⟩
      rcases List.mem_append.1 he with he | he
      · exact hfirst e he
      · obtain ⟨h1, h2, h3, h4, h5⟩ := hprop e he
        rw [hf3.2.1] at h2 h3
        refine ⟨h1, h2, h3, List.mem_cons_of_mem _ h4, Or.inl ?_⟩
        rcases h5 with h5 | h5
        · exact List.mem_cons_of_mem _ h5
        · cases h5; exact List.mem_cons_self _ _
    by_cases hx : c.is_collective x = true
    · cases prev with
      | none =>
        exact step c [] changed hx (Frame.refl c) (by simp) (fun e he => by cases he)
          (by simp [RunInstructions, hx])
      | some p =>
        by_cases hconn : r.IsConnected x p = true
        · exact step c [] changed hx (Frame.refl c) (by simp) (fun e he => by cases he)
            (by simp [RunInstructions, hx, hconn])
        · cases hadd : AddControlDependencyTo rejects c p x with
          | error e =>
            have heq : RunInstructions rejects r (x :: rest) c (some p) changed
                = (c, .error e) := by simp [RunInstructions, hx, hconn, hadd]
            rw [heq]
            exact ⟨Frame.refl c, [], by simp, fun e he => by cases he⟩
          | ok c3 =>
            obtain ⟨hf3, _, hc3⟩ := AddControlDependencyTo_ok hadd
            have hedge : R p x ∧ c.is_collective p = true ∧ c.is_collective x = true ∧
                x ∈ x :: rest ∧ (p ∈ x :: rest ∨ some p = some p) :=
              ⟨(hprev p rfl).2 x (List.mem_cons_self _ _), (hprev p rfl).1, hx,
                List.mem_cons_self _ _, Or.inr rfl⟩
            rcases hc3 with hc3 | hc3
            · exact step c3 [] true hx hf3 (by simp [hc3]) (fun e he => by cases he)
                (by simp [RunInstructions, hx, hconn, hadd])
            · exact step c3 [(p, x)] true hx hf3 hc3
                (fun e he => by rw [List.mem_singleton] at he; subst he; exact hedge)
                (by simp [RunInstructions, hx, hconn, hadd])
    · exact skip changed (by simp [RunInstructions, hx])


/-- What the body of the computation loop does to a computation, in terms of
the traversal: see `RunInstructions_inserted`. -/
theorem RunComputation_inserted (env : Collaborators) (c : HloComputation) (changed : Bool)
    (R : Nat → Nat → Prop) (hR : (env.MakeInstructionPostOrder c).Pairwise R) :
    Frame c (RunComputation env c changed).1 ∧
    ∃ added, (RunComputation env c changed).1.control_edges = c.control_edges ++ added ∧
      ∀ e ∈ added, R e.1 e.2 ∧ c.is_collective e.1 = true ∧ c.is_collective e.2 = true ∧
        e.2 ∈ env.MakeInstructionPostOrder c ∧ e.1 ∈ env.MakeInstructionPostOrder c := by
  obtain ⟨hf, added, hadd, hprop⟩ :=
    RunInstructions_inserted env.rejects (env.Build c) R (env.MakeInstructionPostOrder c) c none
      changed hR (fun p hp => by cases hp)
  refine ⟨hf, added, hadd, fun e he => ?_⟩
  obtain ⟨h1, h2, h3, h4, h5⟩ := hprop e he
  refine ⟨h1, h2, h3, h4, ?_⟩
  rcases h5 with h5 | h5
  · exact h5
  · cases h5

/-- C14: for every module, whether or not the pass ends with an error: after
`Run` the computations are as many as before, and in each of them the
instructions, the classification of every instruction as collective or not,
and the data (operand) edges are unchanged, every control edge present before
the pass is still present, and every control edge that is new has both
endpoints collective instructions of the traversal of that same computation. -/
theorem linearizer_only_adds_ordering_edges (env : Collaborators)
    (module : List HloComputation) :
    List.Forall₂ (fun c cAfter =>
      cAfter.instructions = c.instructions ∧ cAfter.is_collective = c.is_collective ∧
      cAfter.operand_edges = c.operand_edges ∧
      (∀ e ∈ c.control_edges, e ∈ cAfter.control_edges) ∧
      (∀ e ∈ cAfter.control_edges, e ∉ c.control_edges →
        c.is_collective e.1 = true ∧ c.is_collective e.2 = true ∧
        e.1 ∈ env.MakeInstructionPostOrder c ∧ e.2 ∈ env.MakeInstructionPostOrder c))
      module (Run env module).1 := by
  refine forall₂_imp_of_mem (RunComputations_shape env module false) ?_
  intro c _ cAfter hshape
  rcases hshape with rfl | ⟨ch, rfl⟩
  · exact ⟨rfl, rfl, rfl, fun e he => he, fun e he hne => absurd he hne⟩
  · obtain ⟨hf, added, hadd, hprop⟩ := RunComputation_inserted env c ch (fun _ _ => True)
      (List.pairwise_of_forall (fun _ _ => trivial))
    refine ⟨hf.1, hf.2.1, hf.2.2.1, hf.2.2.2, fun e he hne => ?_⟩
    rw [hadd, List.mem_append] at he
    rcases he with he | he
    · exact absurd he hne
    · obtain ⟨_, h2, h3, h4, h5⟩ := hprop e he
      exact ⟨h2, h3, h5, h4⟩

/-! ## Acyclicity -/

theorem transGen_pos {c : HloComputation} {pos : Nat → Nat}
    (hpos : ∀ a b, c.Edge a b → pos a < pos b) {a b : Nat}
    (h : Relation.TransGen c.Edge a b) : pos a < pos b := by
  induction h with
  | single hab => exact hpos _ _ hab
  | tail _ hbc ih => exact lt_trans ih (hpos _ _ hbc)

/-- A computation with a topological order is acyclic. -/
theorem acyclic_of_topologicalOrder {c : HloComputation} {order : List Nat}
    (h : IsTopologicalOrder c order) : c.Acyclic := by
  intro a ha
  have hpos : ∀ x y, c.Edge x y → order.indexOf x < order.indexOf y :=
    fun x y hxy => (h.2.2 (x, y) hxy).2.2
  have := transGen_pos hpos ha
  omega

/-- The body of the computation loop keeps a topological traversal
topological, and inserts only edges that lead forward in it. -/
theorem RunComputation_topological (env : Collaborators) (c : HloComputation)
    (changed : Bool) (htop : IsTopologicalOrder c (env.MakeInstructionPostOrder c)) :
    (∀ e ∈ (RunComputation env c changed).1.control_edges, e ∈ c.control_edges ∨
      (e.1 ∈ env.MakeInstructionPostOrder c ∧ e.2 ∈ env.MakeInstructionPostOrder c ∧
        (env.MakeInstructionPostOrder c).indexOf e.1
          < (env.MakeInstructionPostOrder c).indexOf e.2)) ∧
    IsTopologicalOrder (RunComputation env c changed).1 (env.MakeInstructionPostOrder c) := by
  obtain ⟨hf, added, hadd, hprop⟩ := RunComputation_inserted env c changed
    (fun x y => (env.MakeInstructionPostOrder c).indexOf x
      < (env.MakeInstructionPostOrder c).indexOf y)
    (pairwise_indexOf_of_nodup _ htop.1)
  have hnew : ∀ e ∈ (RunComputation env c changed).1.control_edges, e ∈ c.control_edges ∨
      (e.1 ∈ env.MakeInstructionPostOrder c ∧ e.2 ∈ env.MakeInstructionPostOrder c ∧
        (env.MakeInstructionPostOrder c).indexOf e.1
          < (env.MakeInstructionPostOrder c).indexOf e.2) := by
    intro e he
    rw [hadd, List.mem_append] at he
    rcases he with he | he
    · exact Or.inl he
    · obtain ⟨h1, _, _, h4, h5⟩ := hprop e he
      exact Or.inr ⟨h5, h4, h1⟩
  refine ⟨hnew, htop.1, ?_, ?_⟩
  · rw [hf.1]; exact htop.2.1
  · intro e he
    unfold HloComputation.edges at he
    rw [List.mem_append, hf.2.2.1] at he
    rcases he with he | he
    · exact htop.2.2 e (List.mem_append_left _ he)
    · rcases hnew e he with h | h
      · exact htop.2.2 e (List.mem_append_right _ h)
      · exact h

/-- C11: for every module whose computations have a combined data+control
relation that is acyclic, visited along a traversal that is a topological order
of that relation, and whether or not the pass ends with an error: every
control edge that `Run` inserts goes from an instruction to one visited later,
the traversal is still a topological order of the resulting computation, and
so the combined relation of the resulting computation is still acyclic. -/
theorem acyclicity_preserved (env : Collaborators) (module : List HloComputation)
    (htop : ∀ c ∈ module, IsTopologicalOrder c (env.MakeInstructionPostOrder c)) :
    List.Forall₂ (fun c cAfter =>
      c.Acyclic ∧
      (∀ e ∈ cAfter.control_edges, e ∈ c.control_edges ∨
        (e.1 ∈ env.MakeInstructionPostOrder c ∧ e.2 ∈ env.MakeInstructionPostOrder c ∧
          (env.MakeInstructionPostOrder c).indexOf e.1
            < (env.MakeInstructionPostOrder c).indexOf e.2)) ∧
      IsTopologicalOrder cAfter (env.MakeInstructionPostOrder c) ∧ cAfter.Acyclic)
      module (Run env module).1 := by
  refine forall₂_imp_of_mem (RunComputations_shape env module false) ?_
  intro c hc cAfter hshape
  have h := htop c hc
  rcases hshape with rfl | ⟨ch, rfl⟩
  · exact ⟨acyclic_of_topologicalOrder h, fun e he => Or.inl he, h,
      acyclic_of_topologicalOrder h⟩
  · obtain ⟨h1, h2⟩ := RunComputation_topological env c ch h
    exact ⟨acyclic_of_topologicalOrder h, h1, h2, acyclic_of_topologicalOrder h2⟩

theorem test_module_topological :
    ∀ c ∈ [test_sum, FixOrdering_entry],
      IsTopologicalOrder c (test_env.MakeInstructionPostOrder c) :=
  fun c hc => (test_module_wellTraversed c hc).1

/-- Witness of C11: the module of the test `FixOrdering`. -/
theorem acyclicity_preserved_witness :
    (∀ c ∈ [test_sum, FixOrdering_entry],
      IsTopologicalOrder c (test_env.MakeInstructionPostOrder c)) ∧
    List.Forall₂ (fun _ cAfter => cAfter.Acyclic) [test_sum, FixOrdering_entry]
      (Run test_env [test_sum, FixOrdering_entry]).1 ∧
    (Run test_env [test_sum, FixOrdering_entry]).1 = [test_sum, FixOrdering_entry_after] :=
  ⟨test_module_topological,
    (acyclicity_preserved test_env [test_sum, FixOrdering_entry] test_module_topological).imp
      (fun _ _ h => h.2.2.2),
    rfl⟩


/-! ## The returned flag -/

/-- When no edge that the loop may try to insert is among the control edges
already, a successful loop returns `changed` set exactly when it was set
before or the control edges have changed; and when the control edges have not
changed, neither has the computation. -/
theorem RunInstructions_flag (rejects : HloComputation → Nat → Nat → Bool)
    (r : HloReachabilityMap) :
    ∀ (order : List Nat) (c : HloComputation) (prev : Option Nat) (changed : Bool)
      (c2 : HloComputation) (changed2 : Bool),
      (∀ x ∈ order, ∀ p, (p ∈ order ∨ prev = some p) → r.IsConnected x p = false →
        (p, x) ∉ c.control_edges) →
      RunInstructions rejects r order c prev changed = (c2, .ok changed2) →
      (changed2 = true ↔ changed = true ∨ c2.control_edges ≠ c.control_edges) ∧
      (c2.control_edges = c.control_edges → c2 = c) := by
  intro order
  induction order with
  | nil =>
    intro c prev changed c2 ch2 _ h
    simp only [RunInstructions, Prod.mk.injEq, Except.ok.injEq] at h
    obtain ⟨rfl, rfl⟩ := h
    simp
  | cons x rest ih =>
    intro c prev changed c2 ch2 hnew h
    have hnew2 : ∀ prev2, (∀ p, prev2 = some p → p = x ∨ prev = some p) →
        ∀ y ∈ rest, ∀ p, (p ∈ rest ∨ prev2 = some p) → r.IsConnected y p = false →
          (p, y) ∉ c.control_edges := by
      intro prev2 hp2 y hy p hp
      refine hnew y (List.mem_cons_of_mem _ hy) p ?_
      rcases hp with hp | hp
      · exact Or.inl (List.mem_cons_of_mem _ hp)
      · rcases hp2 p hp with rfl | h3
        · exact Or.inl (List.mem_cons_self _ _)
        · exact Or.inr h3
    by_cases hx : c.is_collective x = true
    · cases prev with
      | none =>
        simp only [RunInstructions, hx, if_true] at h
        exact ih c (some x) changed c2 ch2
          (hnew2 (some x) (fun p hp => by cases hp; exact Or.inl rfl)) h
      | some p =>
        by_cases hconn : r.IsConnected x p = true
        · simp only [RunInstructions, hx, hconn, if_true, Bool.not_true] at h
          exact ih c (some x) changed c2 ch2
            (hnew2 (some x) (fun p hp => by cases hp; exact Or.inl rfl)) h
        · cases hadd : AddControlDependencyTo rejects c p x with
          | error e => simp [RunInstructions, hx, hconn, hadd] at h
          | ok c3 =>
            simp only [RunInstructions, hx, hconn, hadd, if_true, Bool.not_false] at h
            obtain ⟨_, hin3, hc3⟩ := AddControlDependencyTo_ok hadd
            have hfresh : (p, x) ∉ c.control_edges :=
              hnew x (List.mem_cons_self _ _) p (Or.inr rfl) (by simpa using hconn)
            have hc3b : c3.control_edges = c.control_edges ++ [(p, x)] := by
              rcases hc3 with hc3 | hc3
              · rw [hc3] at hin3; exact absurd hin3 hfresh
              · exact hc3
            obtain ⟨_, added, hadded, _⟩ := RunInstructions_inserted rejects r
              (fun _ _ => True) rest c3 (some x) true
              (List.pairwise_of_forall (fun _ _ => trivial)) (fun q hq => by
                cases hq
                exact ⟨by rw [(AddControlDependencyTo_ok hadd).1.2.1]; exact hx,
                  fun _ _ => trivial⟩)
            rw [h] at hadded
            have hne : c2.control_edges ≠ c.control_edges := by
              intro heq
              have hlen := congrArg List.length heq
              rw [hadded, hc3b] at hlen
              simp at hlen
            have htrue := RunInstructions_changed rejects r rest c3 (some x) c2 ch2 h
            exact ⟨⟨fun _ => Or.inr hne, fun _ => htrue⟩, fun heq => absurd heq hne⟩
    · simp only [RunInstructions, hx] at h
      exact ih c prev changed c2 ch2 (hnew2 prev (fun p hp => Or.inr hp)) h

/-- The flag of the body of the computation loop, for an exact reachability
map and a traversal through instructions of the computation. -/
theorem RunComputation_flag (env : Collaborators) (c c2 : HloComputation)
    (changed changed2 : Bool) (hexact : (env.Build c).Exact c)
    (hsub : ∀ x ∈ env.MakeInstructionPostOrder c, x ∈ c.instructions)
    (h : RunComputation env c changed = (c2, .ok changed2)) :
    (changed2 = true ↔ changed = true ∨ c2.control_edges ≠ c.control_edges) ∧
    (c2.control_edges = c.control_edges → c2 = c) := by
  refine RunInstructions_flag env.rejects (env.Build c) _ c none changed c2 changed2 ?_ h
  intro x hx p hp hconn hmem
  have hp2 : p ∈ env.MakeInstructionPostOrder c := by
    rcases hp with hp | hp
    · exact hp
    · cases hp
  have hreach : c.Reaches p x := Relation.ReflTransGen.single
    (show (p, x) ∈ c.operand_edges ++ c.control_edges from List.mem_append_right _ hmem)
  have := (hexact p (hsub p hp2) x (hsub x hx)).2 hreach
  simp [HloReachabilityMap.IsConnected, this] at hconn

theorem RunComputations_flag (env : Collaborators) :
    ∀ (module module2 : List HloComputation) (changed changed2 : Bool),
      (∀ c ∈ module, (env.Build c).Exact c ∧
        ∀ x ∈ env.MakeInstructionPostOrder c, x ∈ c.instructions) →
      RunComputations env module changed = (module2, .ok changed2) →
      (changed2 = true ↔ changed = true ∨
        ∃ (i : Nat) (c c2 : HloComputation), module[i]? = some c ∧ module2[i]? = some c2 ∧
          c2.control_edges ≠ c.control_edges) ∧
      ((¬ ∃ (i : Nat) (c c2 : HloComputation), module[i]? = some c ∧ module2[i]? = some c2 ∧
          c2.control_edges ≠ c.control_edges) → module2 = module) := by
  intro module
  induction module with
  | nil =>
    intro module2 changed ch2 _ h
    simp only [RunComputations, Prod.mk.injEq, Except.ok.injEq] at h
    obtain ⟨rfl, rfl⟩ := h
    simp
  | cons c rest ih =>
    intro module2 changed ch2 hex h
    cases hrun : RunComputation env c changed with
    | mk c2 res =>
      cases res with
      | error e => simp [RunComputations, hrun] at h
      | ok ch3 =>
        simp only [RunComputations, hrun, Prod.mk.injEq] at h
        obtain ⟨rfl, h2⟩ := h
        obtain ⟨hflag, hsame⟩ := RunComputation_flag env c c2 changed ch3
          (hex c (List.mem_cons_self _ _)).1 (hex c (List.mem_cons_self _ _)).2 hrun
        obtain ⟨ihflag, ihsame⟩ := ih (RunComputations env rest ch3).1 ch3 ch2
          (fun x hx => hex x (List.mem_cons_of_mem _ hx)) (Prod.ext rfl h2)
        have hex_iff : (∃ (i : Nat) (a b : HloComputation), (c :: rest)[i]? = some a ∧
            (c2 :: (RunComputations env rest ch3).1)[i]? = some b ∧
            b.control_edges ≠ a.control_edges) ↔
            (c2.control_edges ≠ c.control_edges ∨
              ∃ (i : Nat) (a b : HloComputation), rest[i]? = some a ∧ (RunComputations env rest ch3).1[i]? = some b ∧
                b.control_edges ≠ a.control_edges) := by
          constructor
          · rintro ⟨i, a, b, ha, hb, hne⟩
            cases i with
            | zero =>
              simp only [List.getElem?_cons_zero, Option.some.injEq] at ha hb
              subst ha; subst hb
              exact Or.inl hne
            | succ j =>
              simp only [List.getElem?_cons_succ] at ha hb
              exact Or.inr ⟨j, a, b, ha, hb, hne⟩
          · rintro (hne | ⟨j, a, b, ha, hb, hne⟩)
            · exact ⟨0, c, c2, by simp, by simp, hne⟩
            · exact ⟨j + 1, a, b, by simpa using ha, by simpa using hb, hne⟩
        constructor
        · constructor
          · intro h
            rcases ihflag.1 h with h3 | hex3
            · rcases hflag.1 h3 with h4 | h4
              · exact Or.inl h4
              · exact Or.inr (hex_iff.2 (Or.inl h4))
            · exact Or.inr (hex_iff.2 (Or.inr hex3))
          · rintro (h | h)
            · exact ihflag.2 (Or.inl (hflag.2 (Or.inl h)))
            · rcases hex_iff.1 h with h4 | h4
              · exact ihflag.2 (Or.inl (hflag.2 (Or.inr h4)))
              · exact ihflag.2 (Or.inr h4)
        · intro hno
          rw [hex_iff] at hno
          have h1 : c2.control_edges = c.control_edges := by
            by_contra hne; exact hno (Or.inl hne)
          have h3 := ihsame (fun hh => hno (Or.inr hh))
          rw [hsame h1, h3]

/-- C12: for every module on which `Run` succeeds (the reachability maps being
exact and the traversals going through instructions of their computations),
the returned boolean is true if and only if in at least one computation the
control edges after the pass differ from those before, that is, `Run` inserted
at least one edge; equivalently, it is false if and only if the module after
the pass equals the module before. -/
theorem flag_reports_change (env : Collaborators) (module module2 : List HloComputation)
    (changed : Bool)
    (hexact : ∀ c ∈ module, (env.Build c).Exact c ∧
      ∀ x ∈ env.MakeInstructionPostOrder c, x ∈ c.instructions)
    (hrun : Run env module = (module2, .ok changed)) :
    (changed = true ↔
      ∃ (i : Nat) (c c2 : HloComputation), module[i]? = some c ∧ module2[i]? = some c2 ∧
        c2.control_edges ≠ c.control_edges) ∧
    (changed = false ↔ module2 = module) := by
  obtain ⟨hflag, hsame⟩ := RunComputations_flag env module module2 false changed hexact hrun
  have hflag2 : changed = true ↔ ∃ (i : Nat) (c c2 : HloComputation), module[i]? = some c ∧ module2[i]? = some c2 ∧
      c2.control_edges ≠ c.control_edges := by
    rw [hflag]; simp
  refine ⟨hflag2, ?_, ?_⟩
  · intro hch
    apply hsame
    intro hex
    rw [hflag2.2 hex] at hch
    cases hch
  · intro heq
    cases hc : changed with
    | false => rfl
    | true =>
      obtain ⟨i, a, b, ha, hb, hne⟩ := hflag2.1 hc
      rw [heq, ha] at hb
      cases hb
      exact absurd rfl hne


/-- Witness of C12: the module of the test `FixOrdering`, on which `Run`
inserts an edge and returns true. -/
theorem flag_reports_change_witness :
    (∀ c ∈ [test_sum, FixOrdering_entry], (test_env.Build c).Exact c ∧
      ∀ x ∈ test_env.MakeInstructionPostOrder c, x ∈ c.instructions) ∧
    Run test_env [test_sum, FixOrdering_entry]
      = ([test_sum, FixOrdering_entry_after], .ok true) ∧
    ((true = true ↔
      ∃ (i : Nat) (c c2 : HloComputation), [test_sum, FixOrdering_entry][i]? = some c ∧
        [test_sum, FixOrdering_entry_after][i]? = some c2 ∧
        c2.control_edges ≠ c.control_edges) ∧
    (true = false ↔ [test_sum, FixOrdering_entry_after] = [test_sum, FixOrdering_entry])) :=
  have h1 : ∀ c ∈ [test_sum, FixOrdering_entry], (test_env.Build c).Exact c ∧
      ∀ x ∈ test_env.MakeInstructionPostOrder c, x ∈ c.instructions :=
    fun c hc => ⟨(test_module_wellTraversed c hc).2, fun _ hx => hx⟩
  ⟨h1, Run_FixOrdering,
    flag_reports_change test_env [test_sum, FixOrdering_entry]
      [test_sum, FixOrdering_entry_after] true h1 Run_FixOrdering⟩

/-! ## Failure of an edge insertion -/

theorem AddControlDependencyTo_error {rejects : HloComputation → Nat → Nat → Bool}
    {c : HloComputation} {p n : Nat} {e : Status}
    (h : AddControlDependencyTo rejects c p n = .error e) : e.ok = false := by
  unfold AddControlDependencyTo at h
  split at h
  · cases h; rfl
  · split at h <;> cases h

/-- The logged loop computes what the loop computes; when it succeeds no step
has failed; when it ends with an error, the last step is the insertion that
returned this error, and no step before it has failed. -/
theorem RunInstructionsLog_spec (rejects : HloComputation → Nat → Nat → Bool)
    (r : HloReachabilityMap) :
    ∀ (order : List Nat) (c : HloComputation) (prev : Option Nat) (changed : Bool),
      (RunInstructionsLog rejects r order c prev changed).1
        = RunInstructions rejects r order c prev changed ∧
      (∀ ch, (RunInstructions rejects r order c prev changed).2 = .ok ch →
        ∀ ev ∈ (RunInstructionsLog rejects r order c prev changed).2, ev.failed = false) ∧
      (∀ e, (RunInstructions rejects r order c prev changed).2 = .error e →
        ∃ pre p x, (RunInstructionsLog rejects r order c prev changed).2
            = pre ++ [PassEvent.Insert p x e] ∧ e.ok = false ∧
          ∀ ev ∈ pre, ev.failed = false) := by
  intro order
  induction order with
  | nil =>
    intro c prev changed
    refine ⟨rfl, fun ch _ ev hev => by simp [RunInstructionsLog] at hev, fun e he => ?_⟩
    simp [RunInstructions] at he
  | cons x rest ih =>
    intro c prev changed
    -- a visit of `x`, then `first`, then the rest of the loop from `c3`
    have step : ∀ (c3 : HloComputation) (prev3 : Option Nat) (ch3 : Bool)
        (first : List PassEvent),
        (∀ ev ∈ first, ev.failed = false) →
        RunInstructions rejects r (x :: rest) c prev changed
          = RunInstructions rejects r rest c3 prev3 ch3 →
        RunInstructionsLog rejects r (x :: rest) c prev changed
          = ((RunInstructionsLog rejects r rest c3 prev3 ch3).1,
              PassEvent.Visit x :: (first ++ (RunInstructionsLog rejects r rest c3 prev3 ch3).2)) →
        (RunInstructionsLog rejects r (x :: rest) c prev changed).1
          = RunInstructions rejects r (x :: rest) c prev changed ∧
        (∀ ch, (RunInstructions rejects r (x :: rest) c prev changed).2 = .ok ch →
          ∀ ev ∈ (RunInstructionsLog rejects r (x :: rest) c prev changed).2,
            ev.failed = false) ∧
        (∀ e, (RunInstructions rejects r (x :: rest) c prev changed).2 = .error e →
          ∃ pre p y, (RunInstructionsLog rejects r (x :: rest) c prev changed).2
              = pre ++ [PassEvent.Insert p y e] ∧ e.ok = false ∧
            ∀ ev ∈ pre, ev.failed = false) := by
      intro c3 prev3 ch3 first hfirst heq hlog
      obtain ⟨h1, h2, h3⟩ := ih c3 prev3 ch3
      rw [heq, hlog]
      refine ⟨h1, fun ch hch ev hev => ?_, fun e he => ?_⟩
      · rcases List.mem_cons.1 hev with rfl | hev
        · rfl
        · rcases List.mem_append.1 hev with hev | hev
          · exact hfirst ev hev
          · exact h2 ch hch ev hev
      · obtain ⟨pre, p, y, hpre, hok, hall⟩ := h3 e he
        refine ⟨PassEvent.Visit x :: (first ++ pre), p, y, ?_, hok, fun ev hev => ?_⟩
        · simp only [hpre, List.cons_append, List.append_assoc]
        · rcases List.mem_cons.1 hev with rfl | hev
          · rfl
          · rcases List.mem_append.1 hev with hev | hev
            · exact hfirst ev hev
            · exact hall ev hev
    by_cases hx : c.is_collective x = true
    · cases prev with
      | none =>
        exact step c (some x) changed [] (fun ev hev => by cases hev)
          (by simp [RunInstructions, hx]) (by simp [RunInstructionsLog, hx])
      | some p =>
        by_cases hconn : r.IsConnected x p = true
        · exact step c (some x) changed [] (fun ev hev => by cases hev)
            (by simp [RunInstructions, hx, hconn]) (by simp [RunInstructionsLog, hx, hconn])
        · cases hadd : AddControlDependencyTo rejects c p x with
          | error e =>
            have h1 : RunInstructions rejects r (x :: rest) c (some p) changed
                = (c, .error e) := by simp [RunInstructions, hx, hconn, hadd]
            have h2 : RunInstructionsLog rejects r (x :: rest) c (some p) changed
                = ((c, .error e), [PassEvent.Visit x, PassEvent.Insert p x e]) := by
              simp [RunInstructionsLog, hx, hconn, hadd]
            rw [h1, h2]
            refine ⟨rfl, ?_, ?_⟩
            · intro ch hch
              simp at hch
            intro e2 he2
            simp only [Except.error.injEq] at he2
            subst he2
            refine ⟨[PassEvent.Visit x], p, x, rfl, AddControlDependencyTo_error hadd, ?_⟩
            intro ev hev
            rw [List.mem_singleton] at hev
            subst hev; rfl
          | ok c3 =>
            exact step c3 (some x) true [PassEvent.Insert p x Status.OkStatus]
              (fun ev hev => by rw [List.mem_singleton] at hev; subst hev; rfl)
              (by simp [RunInstructions, hx, hconn, hadd])
              (by simp [RunInstructionsLog, hx, hconn, hadd])
    · exact step c prev changed [] (fun ev hev => by cases hev)
        (by simp [RunInstructions, hx]) (by simp [RunInstructionsLog, hx])


theorem RunComputationsLog_spec (env : Collaborators) :
    ∀ (module : List HloComputation) (changed : Bool),
      (RunComputationsLog env module changed).1 = RunComputations env module changed ∧
      (∀ ch, (RunComputations env module changed).2 = .ok ch →
        ∀ ev ∈ (RunComputationsLog env module changed).2, ev.failed = false) ∧
      (∀ e, (RunComputations env module changed).2 = .error e →
        (∃ pre p x, (RunComputationsLog env module changed).2
            = pre ++ [PassEvent.Insert p x e] ∧ e.ok = false ∧
          ∀ ev ∈ pre, ev.failed = false) ∧
        ∃ (before : List HloComputation) (cur : HloComputation) (rest after : List HloComputation)
          (cur2 : HloComputation),
          module = before ++ cur :: rest ∧
          (RunComputations env module changed).1 = after ++ cur2 :: rest ∧
          after.length = before.length) := by
  intro module
  induction module with
  | nil =>
    intro changed
    refine ⟨rfl, fun ch _ ev hev => by simp [RunComputationsLog] at hev, fun e he => ?_⟩
    simp [RunComputations] at he
  | cons c rest ih =>
    intro changed
    obtain ⟨h1, h2, h3⟩ := RunInstructionsLog_spec env.rejects (env.Build c)
      (env.MakeInstructionPostOrder c) c none changed
    cases hlog : RunInstructionsLog env.rejects (env.Build c)
        (env.MakeInstructionPostOrder c) c none changed with
    | mk res log =>
      rw [hlog] at h1 h2 h3
      simp only at h1 h2 h3
      cases res with
      | mk c2 r =>
        have hrun : RunComputation env c changed = (c2, r) := h1.symm
        rw [← h1] at h2 h3
        simp only at h2 h3
        cases r with
        | error e =>
          have hR : RunComputations env (c :: rest) changed = (c2 :: rest, .error e) := by
            simp [RunComputations, hrun]
          have hL : RunComputationsLog env (c :: rest) changed
              = ((c2 :: rest, .error e), PassEvent.Enter :: log) := by
            simp [RunComputationsLog, hlog]
          rw [hR, hL]
          refine ⟨rfl, ?_, ?_⟩
          · intro ch hch
            simp at hch
          · intro e2 he2
            simp only [Except.error.injEq] at he2
            subst he2
            obtain ⟨pre, p, x, hpre, hok, hall⟩ := h3 e rfl
            refine ⟨⟨PassEvent.Enter :: pre, p, x, by simp [hpre], hok, ?_⟩,
              [], c, rest, [], c2, rfl, rfl, rfl⟩
            intro ev hev
            rcases List.mem_cons.1 hev with rfl | hev
            · rfl
            · exact hall ev hev
        | ok ch2 =>
          obtain ⟨i1, i2, i3⟩ := ih ch2
          have hR : RunComputations env (c :: rest) changed
              = (c2 :: (RunComputations env rest ch2).1, (RunComputations env rest ch2).2) := by
            simp [RunComputations, hrun]
          have hL : RunComputationsLog env (c :: rest) changed
              = ((c2 :: (RunComputationsLog env rest ch2).1.1,
                  (RunComputationsLog env rest ch2).1.2),
                PassEvent.Enter :: (log ++ (RunComputationsLog env rest ch2).2)) := by
            simp [RunComputationsLog, hlog]
          rw [hR, hL, i1]
          refine ⟨rfl, ?_, ?_⟩
          · intro ch hch ev hev
            rcases List.mem_cons.1 hev with rfl | hev
            · rfl
            · rcases List.mem_append.1 hev with hev | hev
              · exact h2 ch2 rfl ev hev
              · exact i2 ch hch ev hev
          · intro e he
            obtain ⟨⟨pre, p, x, hpre, hok, hall⟩, before, cur, rest2, after, cur2, hm, hr, hlen⟩ :=
              i3 e he
            refine ⟨⟨PassEvent.Enter :: (log ++ pre), p, x, by simp [hpre], hok, ?_⟩,
              c :: before, cur, rest2, c2 :: after, cur2, by simp [hm], by simp [hr],
              by simp [hlen]⟩
            intro ev hev
            rcases List.mem_cons.1 hev with rfl | hev
            · rfl
            · rcases List.mem_append.1 hev with hev | hev
              · exact h2 ch2 rfl ev hev
              · exact hall ev hev

/-- C13: `Run` returns an error if and only if some attempted edge insertion
(`AddControlDependencyTo`) returns an error.  The error `Run` returns is that
of the first failing insertion, which is the last step of the pass: no
instruction is visited, no edge is inserted and no computation is entered
after it, and the computations that follow the one in which it failed are
left as they were.  (The steps are those of `RunLog`, which computes what
`Run` computes.) -/
theorem insertion_failure_is_fatal (env : Collaborators) (module : List HloComputation) :
    (RunLog env module).1 = Run env module ∧
    ((∃ e, (Run env module).2 = .error e) ↔
      ∃ ev ∈ (RunLog env module).2, ev.failed = true) ∧
    (∀ e, (Run env module).2 = .error e →
      (∃ pre p x, (RunLog env module).2 = pre ++ [PassEvent.Insert p x e] ∧ e.ok = false ∧
        ∀ ev ∈ pre, ev.failed = false) ∧
      ∃ (before : List HloComputation) (cur : HloComputation) (rest after : List HloComputation)
        (cur2 : HloComputation),
        module = before ++ cur :: rest ∧ (Run env module).1 = after ++ cur2 :: rest ∧
        after.length = before.length) := by
  obtain ⟨h1, h2, h3⟩ := RunComputationsLog_spec env module false
  refine ⟨h1, ⟨?_, ?_⟩, h3⟩
  · rintro ⟨e, he⟩
    obtain ⟨⟨pre, p, x, hpre, hok, _⟩, _⟩ := h3 e he
    refine ⟨PassEvent.Insert p x e, ?_, by simp [PassEvent.failed, hok]⟩
    show PassEvent.Insert p x e ∈ (RunComputationsLog env module false).2
    rw [hpre]; simp
  · rintro ⟨ev, hev, hfailed⟩
    cases hres : (Run env module).2 with
    | error e => exact ⟨e, rfl⟩
    | ok ch =>
      have := h2 ch hres ev hev
      rw [this] at hfailed
      cases hfailed


/-! ## The inserted edges, exactly -/

theorem insertedEdges_cons_cons (r : HloReachabilityMap) (p x : Nat) (l : List Nat) :
    insertedEdges r (p :: x :: l) =
      if r.IsConnected x p = true then insertedEdges r (x :: l)
      else (p, x) :: insertedEdges r (x :: l) := by
  by_cases h : r.IsConnected x p = true
  · simp [insertedEdges, consecutive, h]
  · simp [insertedEdges, consecutive, h]

/-- After a successful loop the control edges are those there were before and
the edges between consecutive collectives (starting with `prev`) that the
reachability map does not connect. -/
theorem RunInstructions_edges (rejects : HloComputation → Nat → Nat → Bool)
    (r : HloReachabilityMap) :
    ∀ (order : List Nat) (c : HloComputation) (prev : Option Nat) (changed : Bool)
      (c2 : HloComputation) (changed2 : Bool),
      RunInstructions rejects r order c prev changed = (c2, .ok changed2) →
      ∀ e, e ∈ c2.control_edges ↔
        e ∈ c.control_edges ∨
          e ∈ insertedEdges r (prev.toList ++ order.filter c.is_collective) := by
  intro order
  induction order with
  | nil =>
    intro c prev changed c2 ch2 h e
    simp only [RunInstructions, Prod.mk.injEq, Except.ok.injEq] at h
    obtain ⟨rfl, rfl⟩ := h
    cases prev <;> simp [insertedEdges, consecutive]
  | cons x rest ih =>
    intro c prev changed c2 ch2 h e
    by_cases hx : c.is_collective x = true
    · rw [List.filter_cons_of_pos hx]
      cases prev with
      | none =>
        simp only [RunInstructions, hx, if_true] at h
        exact ih c (some x) changed c2 ch2 h e
      | some p =>
        have hcons : (some p).toList ++ x :: rest.filter c.is_collective
            = p :: x :: rest.filter c.is_collective := rfl
        rw [hcons, insertedEdges_cons_cons]
        by_cases hconn : r.IsConnected x p = true
        · simp only [RunInstructions, hx, hconn, if_true, Bool.not_true] at h
          rw [if_pos hconn]
          exact ih c (some x) changed c2 ch2 h e
        · cases hadd : AddControlDependencyTo rejects c p x with
          | error e => simp [RunInstructions, hx, hconn, hadd] at h
          | ok c3 =>
            simp only [RunInstructions, hx, hconn, hadd, if_true, Bool.not_false] at h
            obtain ⟨hf3, hin3, hc3⟩ := AddControlDependencyTo_ok hadd
            have h3 := ih c3 (some x) true c2 ch2 h e
            rw [hf3.2.1] at h3
            have hmem3 : e ∈ c3.control_edges ↔ e ∈ c.control_edges ∨ e = (p, x) := by
              rcases hc3 with hc3 | hc3
              · rw [hc3] at hin3 ⊢
                constructor
                · exact Or.inl
                · rintro (h | rfl)
                  · exact h
                  · exact hin3
              · rw [hc3]; simp
            rw [if_neg hconn, List.mem_cons, h3, hmem3]
            have hx2 : (some x).toList ++ rest.filter c.is_collective
                = x :: rest.filter c.is_collective := rfl
            rw [hx2]
            tauto
    · rw [List.filter_cons_of_neg hx]
      simp only [RunInstructions, hx] at h
      exact ih c prev changed c2 ch2 h e

/-- When the pass succeeds, each resulting computation is what the body of the
computation loop made of the computation, successfully. -/
theorem RunComputations_ok_shape (env : Collaborators) :
    ∀ (module module2 : List HloComputation) (changed changed2 : Bool),
      RunComputations env module changed = (module2, .ok changed2) →
      List.Forall₂ (fun c c2 => ∃ ch ch2, RunComputation env c ch = (c2, .ok ch2))
        module module2 := by
  intro module
  induction module with
  | nil =>
    intro module2 changed ch2 h
    simp only [RunComputations, Prod.mk.injEq] at h
    rw [← h.1]; exact List.Forall₂.nil
  | cons c rest ih =>
    intro module2 changed ch2 h
    cases hrun : RunComputation env c changed with
    | mk c2 res =>
      cases res with
      | error e => simp [RunComputations, hrun] at h
      | ok ch3 =>
        simp only [RunComputations, hrun, Prod.mk.injEq] at h
        obtain ⟨rfl, h2⟩ := h
        exact List.Forall₂.cons ⟨changed, ch3, hrun⟩
          (ih (RunComputations env rest ch3).1 ch3 ch2 (Prod.ext rfl h2))

/-- C16: after a successful `Run`, for every computation, with `c₁, …, cₙ`
its collective instructions in traversal order: the control edges are exactly
the control edges there were before the pass, still in their places, and the
edges `cᵢ → cᵢ₊₁` for those `i` where `cᵢ` and `cᵢ₊₁` are not connected in
either direction in the reachability map built before the pass; so every edge
that is new joins two consecutive collectives (the cursor moves to `cᵢ₊₁`
whether or not an edge was added). -/
theorem inserted_edges_exactly (env : Collaborators) (module module2 : List HloComputation)
    (changed : Bool) (hrun : Run env module = (module2, .ok changed)) :
    List.Forall₂ (fun c c2 =>
      (∀ e, e ∈ c2.control_edges ↔
        e ∈ c.control_edges ∨
          e ∈ insertedEdges (env.Build c)
            ((env.MakeInstructionPostOrder c).filter c.is_collective)) ∧
      (∃ added, c2.control_edges = c.control_edges ++ added) ∧
      (∀ e ∈ c2.control_edges, e ∉ c.control_edges →
        e ∈ consecutive ((env.MakeInstructionPostOrder c).filter c.is_collective)))
      module module2 := by
  refine (RunComputations_ok_shape env module module2 false changed hrun).imp ?_
  rintro c c2 ⟨ch, ch2, h⟩
  have hiff := RunInstructions_edges env.rejects (env.Build c)
    (env.MakeInstructionPostOrder c) c none ch c2 ch2 h
  have hnil : ∀ l : List Nat, (none : Option Nat).toList ++ l = l := fun _ => rfl
  simp only [hnil] at hiff
  obtain ⟨_, added, hadd, _⟩ := RunComputation_inserted env c ch (fun _ _ => True)
    (List.pairwise_of_forall (fun _ _ => trivial))
  rw [h] at hadd
  refine ⟨hiff, ⟨added, hadd⟩, fun e he hne => ?_⟩
  rcases (hiff e).1 he with h1 | h1
  · exact absurd h1 hne
  · exact (List.mem_filter.1 h1).1

theorem Run_NonPostorder :
    Run test_env [test_sum, NonPostorder_entry] =
      ([test_sum, NonPostorder_entry_after], .ok true) := by
  rfl

/-- Witness of C16: the module of the test `NonPostorder`, with `c3 → c1`
there before the pass and the collectives visited in the order `c3, c1, c2`:
the pass adds `c1 → c2` and the computation ends with 2 control edges. -/
theorem inserted_edges_exactly_witness :
    Run test_env [test_sum, NonPostorder_entry]
      = ([test_sum, NonPostorder_entry_after], .ok true) ∧
    CountControlEdges NonPostorder_entry_after = 2 ∧
    insertedEdges (test_env.Build NonPostorder_entry)
      ((test_env.MakeInstructionPostOrder NonPostorder_entry).filter
        NonPostorder_entry.is_collective) = [(2, 3)] ∧
    List.Forall₂ (fun c c2 =>
      ∃ added, c2.control_edges = c.control_edges ++ added)
      [test_sum, NonPostorder_entry] [test_sum, NonPostorder_entry_after] :=
  ⟨Run_NonPostorder, by decide, by decide,
    (inserted_edges_exactly test_env [test_sum, NonPostorder_entry]
      [test_sum, NonPostorder_entry_after] true Run_NonPostorder).imp
      (fun _ _ h => h.2.1)⟩


namespace gpu

/-! ## The wait and the lock -/

/-- C15: in the sequence of actions of one call of `MaybeBlockAfterFirstRun`
(acquire the mutex, `try_emplace` on the first-run map, release the mutex,
and, for the first call of a key, block on the stream): the mutex is free
whenever `BlockHostUntilDone` is invoked, which is after the release; and the
only actions performed while the mutex is held are the `try_emplace` and the
release. -/
theorem block_outside_lock (s : CollectivesSupport) (uid d : Int) (stream : Stream) :
    (∃ rest, (s.MaybeBlockAfterFirstRun uid d stream).actions
        = [Action.MutexLock, Action.TryEmplace (Key uid d), Action.MutexUnlock] ++ rest ∧
      (rest = [] ∨ rest = [Action.BlockHostUntilDone stream])) ∧
    ∀ (i : Nat) (a : Action), (s.MaybeBlockAfterFirstRun uid d stream).actions[i]? = some a →
      (a.isBlock = true →
        mutexHeld ((s.MaybeBlockAfterFirstRun uid d stream).actions.take i) = false ∧
        Action.MutexUnlock ∈ (s.MaybeBlockAfterFirstRun uid d stream).actions.take i) ∧
      (mutexHeld ((s.MaybeBlockAfterFirstRun uid d stream).actions.take i) = true →
        a = Action.TryEmplace (Key uid d) ∨ a = Action.MutexUnlock) := by
  cases hk : s.executed_ (Key uid d) with
  | none =>
    rw [MaybeBlock_of_none s uid d stream hk]
    refine ⟨⟨_, rfl, Or.inr rfl⟩, ?_⟩
    intro i a h
    rcases i with _ | _ | _ | _ | _ <;>
      simp [mutexHeld, Action.isBlock] at h ⊢ <;> subst h <;> simp
  | some b =>
    rw [MaybeBlock_of_some s uid d stream b hk]
    refine ⟨⟨_, rfl, Or.inl rfl⟩, ?_⟩
    intro i a h
    rcases i with _ | _ | _ | _ <;>
      simp [mutexHeld, Action.isBlock] at h ⊢ <;> subst h <;> simp

end gpu


namespace gpu

/-! ## Other keys -/

/-- For non-negative device ordinals, different `(uid, device_ordinal)` pairs
have different keys. -/
theorem Key_ne_of_nonneg (uid uid2 d d2 : Int) (hu : IsInt32 uid) (hu2 : IsInt32 uid2)
    (hd : 0 ≤ d ∧ d < (2 : Int) ^ 31) (hd2 : 0 ≤ d2 ∧ d2 < (2 : Int) ^ 31)
    (hne : (uid, d) ≠ (uid2, d2)) : Key uid2 d2 ≠ Key uid d := by
  intro h
  rw [Key_of_nonneg uid d hu hd.1 hd.2, Key_of_nonneg uid2 d2 hu2 hd2.1 hd2.2] at h
  obtain ⟨hd0, hd1⟩ := hd
  obtain ⟨hd20, hd21⟩ := hd2
  apply hne
  have h1 : uid = uid2 := by omega
  have h2 : d = d2 := by omega
  rw [h1, h2]

theorem PushEvent_other {Event : Type} (s : AsyncCollectivesSupport Event) (uid d : Int)
    (h : Event) (k : Int) (hk : k ≠ Key uid d) :
    (s.PushEvent uid d h).1.done_events_ k = s.done_events_ k := by
  cases hs : s.done_events_ (Key uid d) with
  | none => rw [PushEvent_of_none s uid d h hs]; simp [hk]
  | some y => rw [PushEvent_of_some s uid d y h hs]

theorem PopEvent_other {Event : Type} (s : AsyncCollectivesSupport Event) (uid d : Int)
    (k : Int) (hk : k ≠ Key uid d) :
    (s.PopEvent uid d).1.done_events_ k = s.done_events_ k := by
  cases hs : s.done_events_ (Key uid d) with
  | none => rw [PopEvent_of_none s uid d hs]
  | some y => rw [PopEvent_of_some s uid d y hs]; simp [HashMap.erase, hk]

/-- What `PopEvent` returns depends only on the entry of its key. -/
theorem PopEvent_congr {Event : Type} (s s2 : AsyncCollectivesSupport Event) (uid d : Int)
    (h : s2.done_events_ (Key uid d) = s.done_events_ (Key uid d)) :
    (s2.PopEvent uid d).2 = (s.PopEvent uid d).2 := by
  cases hs : s.done_events_ (Key uid d) with
  | none =>
    rw [PopEvent_of_none s uid d hs, PopEvent_of_none s2 uid d (h.trans hs)]
  | some y =>
    rw [PopEvent_of_some s uid d y hs, PopEvent_of_some s2 uid d y (h.trans hs)]

/-- C17: for 32-bit uids and non-negative 32-bit device ordinals with
`(uid, d) ≠ (uid2, d2)`, and every tracker state: a `PushEvent` or a `PopEvent`
on `(uid, d)`, whether it succeeds or fails, changes neither whether a handle
is pending for `(uid2, d2)`, nor which one, nor what a subsequent
`PopEvent(uid2, d2)` returns. -/
theorem other_keys_untouched {Event : Type} (s : AsyncCollectivesSupport Event)
    (uid uid2 d d2 : Int) (hu : IsInt32 uid) (hu2 : IsInt32 uid2)
    (hd : 0 ≤ d ∧ d < (2 : Int) ^ 31) (hd2 : 0 ≤ d2 ∧ d2 < (2 : Int) ^ 31)
    (hne : (uid, d) ≠ (uid2, d2)) :
    (∀ h : Event,
      (s.PushEvent uid d h).1.done_events_ (Key uid2 d2) = s.done_events_ (Key uid2 d2) ∧
      ((s.PushEvent uid d h).1.PopEvent uid2 d2).2 = (s.PopEvent uid2 d2).2) ∧
    ((s.PopEvent uid d).1.done_events_ (Key uid2 d2) = s.done_events_ (Key uid2 d2) ∧
      ((s.PopEvent uid d).1.PopEvent uid2 d2).2 = (s.PopEvent uid2 d2).2) := by
  have hk := Key_ne_of_nonneg uid uid2 d d2 hu hu2 hd hd2 hne
  refine ⟨fun h => ?_, ?_⟩
  · have h1 := PushEvent_other s uid d h (Key uid2 d2) hk
    exact ⟨h1, PopEvent_congr s _ uid2 d2 h1⟩
  · have h1 := PopEvent_other s uid d (Key uid2 d2) hk
    exact ⟨h1, PopEvent_congr s _ uid2 d2 h1⟩

/-- Witness of C17: with handle 7 pending for (5, 0), a push and a pop on
(5, 1) leave the pop of (5, 0) returning 7. -/
theorem other_keys_untouched_witness :
    ((((AsyncCollectivesSupport.init : AsyncCollectivesSupport Nat).PushEvent 5 0 7).1.PushEvent
        5 1 8).1.PopEvent 5 0).2 = .ok 7 ∧
    ((((AsyncCollectivesSupport.init : AsyncCollectivesSupport Nat).PushEvent 5 0 7).1.PopEvent
        5 1).1.PopEvent 5 0).2 = .ok 7 :=
  have h := other_keys_untouched
    ((AsyncCollectivesSupport.init : AsyncCollectivesSupport Nat).PushEvent 5 0 7).1
    5 5 1 0 (by decide) (by decide) (by decide) (by decide) (by decide)
  have hpop : ((((AsyncCollectivesSupport.init : AsyncCollectivesSupport Nat).PushEvent
      5 0 7).1).PopEvent 5 0).2 = .ok 7 :=
    (push_pop_roundtrip (AsyncCollectivesSupport.init : AsyncCollectivesSupport Nat)
      5 0 7 rfl).2 ▸ rfl
  ⟨(h.1 8).2.trans hpop, h.2.2.trans hpop⟩

/-! ## First-run flags -/

theorem MaybeBlock_support (s : CollectivesSupport) (uid d : Int) (stream : Stream) (k : Int) :
    (s.MaybeBlockAfterFirstRun uid d stream).support.executed_ k =
      if k = Key uid d ∧ s.executed_ (Key uid d) = none then some true else s.executed_ k := by
  cases hk : s.executed_ (Key uid d) with
  | none =>
    rw [MaybeBlock_of_none s uid d stream hk]
    by_cases h : k = Key uid d <;> simp [h]
  | some b =>
    rw [MaybeBlock_of_some s uid d stream b hk]
    simp

/-- Once a key is recorded, every later call for it, whatever calls come in
between, returns OK without blocking. -/
theorem sequence_of_some (k : Int) (calls : List (Int × Int × Stream)) :
    ∀ (s : CollectivesSupport), s.executed_ k ≠ none →
      ∀ (j : Nat) (cj : Int × Int × Stream) (rj : BlockResult),
        calls[j]? = some cj → Key cj.1 cj.2.1 = k → (s.sequence calls)[j]? = some rj →
        rj.blocked = false ∧ rj.status = Status.OkStatus := by
  induction calls with
  | nil => intro s _ j cj rj h; simp at h
  | cons c rest ih =>
    intro s hs j cj rj hc hkey hr
    obtain ⟨uid, d, stream⟩ := c
    cases j with
    | zero =>
      simp only [List.getElem?_cons_zero, Option.some.injEq] at hc
      subst hc
      simp only [CollectivesSupport.sequence, List.getElem?_cons_zero, Option.some.injEq] at hr
      subst hr
      simp only at hkey
      subst hkey
      cases hk : s.executed_ (Key uid d) with
      | none => exact absurd hk hs
      | some b =>
        rw [MaybeBlock_of_some s uid d stream b hk]
        exact ⟨by simp [BlockResult.blocked, Action.isBlock], rfl⟩
    | succ i =>
      simp only [List.getElem?_cons_succ] at hc
      simp only [CollectivesSupport.sequence, List.getElem?_cons_succ] at hr
      refine ih _ ?_ i cj rj hc hkey hr
      rw [MaybeBlock_support]
      split
      · simp
      · exact hs

theorem sequence_later_calls (calls : List (Int × Int × Stream)) :
    ∀ (s : CollectivesSupport) (i j : Nat) (ci cj : Int × Int × Stream) (rj : BlockResult),
      i < j → calls[i]? = some ci → calls[j]? = some cj →
      Key cj.1 cj.2.1 = Key ci.1 ci.2.1 → (s.sequence calls)[j]? = some rj →
      rj.blocked = false ∧ rj.status = Status.OkStatus := by
  induction calls with
  | nil => intro s i j ci cj rj _ h; simp at h
  | cons c rest ih =>
    intro s i j ci cj rj hij hi hj hkey hr
    obtain ⟨uid, d, stream⟩ := c
    cases j with
    | zero => omega
    | succ j2 =>
      simp only [List.getElem?_cons_succ] at hj
      simp only [CollectivesSupport.sequence, List.getElem?_cons_succ] at hr
      cases i with
      | zero =>
        simp only [List.getElem?_cons_zero, Option.some.injEq] at hi
        subst hi
        refine sequence_of_some (Key uid d) rest _ ?_ j2 cj rj hj hkey hr
        rw [MaybeBlock_support]
        split
        · simp
        · rename_i h
          intro hn
          exact h ⟨rfl, hn⟩
      | succ i2 =>
        simp only [List.getElem?_cons_succ] at hi
        exact ih _ i2 j2 ci cj rj (by omega) hi hj hkey hr

/-- C18: a freshly constructed `CollectivesSupport` records no key.  A call
of `MaybeBlockAfterFirstRun` leaves every recorded key recorded, records the
key of the call, and records no other key.  So in every sequence of calls,
from any state, a call that comes after a call with the same key returns OK
without blocking, whatever calls for other keys come in between.  And for
32-bit uids and non-negative 32-bit device ordinals a call for `(uid, d)`
does not touch the flag of a different `(uid2, d2)`. -/
theorem first_run_flags_lifecycle :
    (∀ k, CollectivesSupport.init.executed_ k = none) ∧
    (∀ (s : CollectivesSupport) (uid d : Int) (stream : Stream) (k : Int),
      (s.executed_ k ≠ none →
        (s.MaybeBlockAfterFirstRun uid d stream).support.executed_ k = s.executed_ k) ∧
      ((s.MaybeBlockAfterFirstRun uid d stream).support.executed_ k ≠ none →
        s.executed_ k ≠ none ∨ k = Key uid d) ∧
      (s.MaybeBlockAfterFirstRun uid d stream).support.executed_ (Key uid d) ≠ none) ∧
    (∀ (s : CollectivesSupport) (calls : List (Int × Int × Stream)) (i j : Nat)
      (ci cj : Int × Int × Stream) (rj : BlockResult),
      i < j → calls[i]? = some ci → calls[j]? = some cj →
      Key cj.1 cj.2.1 = Key ci.1 ci.2.1 → (s.sequence calls)[j]? = some rj →
      rj.blocked = false ∧ rj.status = Status.OkStatus) ∧
    (∀ (s : CollectivesSupport) (uid uid2 d d2 : Int) (stream : Stream),
      IsInt32 uid → IsInt32 uid2 → 0 ≤ d ∧ d < (2 : Int) ^ 31 → 0 ≤ d2 ∧ d2 < (2 : Int) ^ 31 →
      (uid, d) ≠ (uid2, d2) →
      (s.MaybeBlockAfterFirstRun uid d stream).support.executed_ (Key uid2 d2)
        = s.executed_ (Key uid2 d2)) := by
  refine ⟨fun _ => rfl, ?_, fun s calls => sequence_later_calls calls s, ?_⟩
  · intro s uid d stream k
    rw [MaybeBlock_support, MaybeBlock_support]
    refine ⟨?_, ?_, ?_⟩
    · intro hk
      split
      · rename_i h
        rw [h.1] at hk
        exact absurd h.2 hk
      · rfl
    · intro hk
      split at hk
      · rename_i h; exact Or.inr h.1
      · exact Or.inl hk
    · split
      · simp
      · rename_i h
        intro hn
        exact h ⟨rfl, hn⟩
  · intro s uid uid2 d d2 stream hu hu2 hd hd2 hne
    rw [MaybeBlock_support, if_neg]
    intro h
    exact Key_ne_of_nonneg uid uid2 d d2 hu hu2 hd hd2 hne h.1

end gpu


namespace gpu

/-! ## The replica-group loop -/

/-- The inner loop does nothing when `i` has reached the end offset. -/
theorem readGroup_of_le (values : List Int) (stop i : Int) (acc : List Int) (fuel : Nat)
    (h : stop ≤ i) : readGroup values stop (fuel + 1) i acc = .done (acc, i) := by
  simp [readGroup, not_lt.2 h]

/-- The inner loop reads the `n` values from index `i` on, when they are there. -/
theorem readGroup_ok (values : List Int) :
    ∀ (n i : Nat) (acc : List Int) (fuel : Nat), i + n ≤ values.length → n + 1 ≤ fuel →
      readGroup values ((i + n : Nat) : Int) fuel (i : Int) acc
        = .done (acc ++ (values.drop i).take n, ((i + n : Nat) : Int)) := by
  intro n
  induction n with
  | zero =>
    intro i acc fuel _ hfuel
    obtain ⟨f, rfl⟩ : ∃ f, fuel = f + 1 := ⟨fuel - 1, by omega⟩
    simp [readGroup]
  | succ n ih =>
    intro i acc fuel hi hfuel
    obtain ⟨f, rfl⟩ : ∃ f, fuel = f + 1 := ⟨fuel - 1, by omega⟩
    have hlt : i < values.length := by omega
    have hcond : (i : Int) < ((i + (n + 1) : Nat) : Int) := by omega
    have hget : values[(i : Int).toNat]? = some values[i] := by
      simp [List.getElem?_eq_getElem hlt]
    have hwrap : (i : Int) + 1 = ((i + 1 : Nat) : Int) := by omega
    have hdrop : (values.drop i).take (n + 1) = values[i] :: (values.drop (i + 1)).take n := by
      rw [List.drop_eq_getElem_cons hlt, List.take_succ_cons]
    rw [readGroup, if_pos hcond, if_pos (by omega : (0 : Int) ≤ (i : Int))]
    simp only [hget, hwrap]
    have := ih (i + 1) (acc ++ [values[i]]) f (by omega) (by omega)
    have hcast : ((i + 1 + n : Nat) : Int) = ((i + (n + 1) : Nat) : Int) := by omega
    rw [hcast] at this
    rw [this, hdrop]
    simp

theorem encodeOffsets_length (groups : List (List Int)) :
    ∀ start : Int, (encodeOffsets groups start).length = groups.length := by
  induction groups with
  | nil => intro _; rfl
  | cons g rest ih => intro start; simp [encodeOffsets, ih]

/-- Decoding the offsets of `groups`, which start at the end of `pre` in the
values, rebuilds `groups`. -/
theorem decodeGroups_roundtrip (values : List Int) :
    ∀ (groups : List (List Int)) (pre : List Int) (acc : List (List Int)),
      values = pre ++ groups.flatten →
      decodeGroups values (values.length + 1) (encodeOffsets groups (pre.length : Int))
        (pre.length : Int) acc = .done (acc ++ groups) := by
  intro groups
  induction groups with
  | nil => intro pre acc _; simp [encodeOffsets, decodeGroups]
  | cons g rest ih =>
    intro pre acc hv
    have hv2 : values = (pre ++ g) ++ rest.flatten := by
      rw [hv, List.flatten_cons, List.append_assoc]
    have hle : pre.length + g.length ≤ values.length := by
      rw [hv2]; simp only [List.length_append]; omega
    have hread := readGroup_ok values g.length pre.length [] (values.length + 1) hle
      (by omega)
    have hslice : (values.drop pre.length).take g.length = g := by
      rw [hv, List.flatten_cons, List.drop_left, List.take_left]
    rw [hslice, List.nil_append] at hread
    have hcast : (pre.length : Int) + (g.length : Int) = ((pre.length + g.length : Nat) : Int) := by
      push_cast; rfl
    have ih2 := ih (pre ++ g) (acc ++ [g]) hv2
    rw [List.length_append] at ih2
    simp only [encodeOffsets, decodeGroups, hcast, hread, ih2]
    simp

/-- The loop reads only inside the values when no offset exceeds their number. -/
theorem decodeGroups_inBounds (values : List Int) :
    ∀ (offsets : List Int) (i : Nat) (acc : List (List Int)),
      i ≤ values.length → (∀ o ∈ offsets, o ≤ (values.length : Int)) →
      ∃ groups, decodeGroups values (values.length + 1) offsets (i : Int) acc = .done groups ∧
        groups.length = acc.length + offsets.length := by
  intro offsets
  induction offsets with
  | nil => intro i acc _ _; exact ⟨acc, rfl, rfl⟩
  | cons stop rest ih =>
    intro i acc hi hall
    have hstop := hall stop (List.mem_cons_self _ _)
    have hrest : ∀ o ∈ rest, o ≤ (values.length : Int) :=
      fun o ho => hall o (List.mem_cons_of_mem _ ho)
    by_cases hle : stop ≤ (i : Int)
    · obtain ⟨groups, hg, hl⟩ := ih i (acc ++ [[]]) hi hrest
      refine ⟨groups, ?_, by simp at hl ⊢; omega⟩
      simp only [decodeGroups, readGroup_of_le values stop i [] values.length hle, hg]
    · have hn : stop = ((i + (stop - i).toNat : Nat) : Int) := by omega
      have hread := readGroup_ok values (stop - i).toNat i [] (values.length + 1)
        (by omega) (by omega)
      rw [← hn] at hread
      have hstop2 : stop = ((stop.toNat : Nat) : Int) := by omega
      obtain ⟨groups, hg, hl⟩ := ih stop.toNat
        (acc ++ [[] ++ (values.drop i).take (stop - i).toNat]) (by omega) hrest
      rw [← hstop2] at hg
      refine ⟨groups, ?_, by simp at hl ⊢; omega⟩
      simp only [decodeGroups, hread, hg]

theorem le_getLast_of_pairwise : ∀ (l : List Int), l.Pairwise (· ≤ ·) →
    ∀ last, l.getLast? = some last → ∀ o ∈ l, o ≤ last := by
  intro l
  induction l with
  | nil => intro _ _ _ o ho; cases ho
  | cons x rest ih =>
    intro hpw last hlast o ho
    obtain ⟨hx, hrest⟩ := List.pairwise_cons.1 hpw
    cases rest with
    | nil =>
      simp only [List.getLast?_singleton, Option.some.injEq] at hlast
      simp only [List.mem_singleton] at ho
      omega
    | cons y more =>
      have hlast2 : (y :: more).getLast? = some last := by
        simpa [List.getLast?_cons_cons] using hlast
      have hmem : last ∈ y :: more := List.mem_of_getLast?_eq_some hlast2
      rcases List.mem_cons.1 ho with rfl | ho
      · exact hx last hmem
      · exact ih hrest last hlast2 o ho

end gpu


namespace gpu

/-- C19: for every list of lists of integers, encoded as the list of the
cumulative ending offsets of its groups and the concatenation of its groups,
the loop of `GetNcclComm` ends and rebuilds exactly the list (same number of
groups, same ids in the same order, empty groups kept); and for all offsets
and values, when the offsets are non-decreasing with last element at most the
number of values, the loop reads the values at their indices only and ends
with one group per offset. -/
theorem replica_groups_roundtrip (groups : List (List Int)) :
    decodeReplicaGroups (replica_group_offsets_of groups) (replica_group_values_of groups)
      = Decode.done groups ∧
    ∀ offsets values : List Int, offsets.Pairwise (· ≤ ·) →
      (∀ last, offsets.getLast? = some last → last ≤ (values.length : Int)) →
      ∃ decoded, decodeReplicaGroups offsets values = Decode.done decoded ∧
        decoded.length = offsets.length := by
  constructor
  · have := decodeGroups_roundtrip (replica_group_values_of groups) groups [] []
      (by simp [replica_group_values_of])
    simpa [decodeReplicaGroups, replica_group_offsets_of] using this
  · intro offsets values hpw hlast
    have hall : ∀ o ∈ offsets, o ≤ (values.length : Int) := by
      intro o ho
      cases hl : offsets.getLast? with
      | none =>
        rw [List.getLast?_eq_none_iff] at hl
        rw [hl] at ho; cases ho
      | some last =>
        exact le_trans (le_getLast_of_pairwise offsets hpw last hl o ho) (hlast last hl)
    obtain ⟨decoded, hd, hl⟩ := decodeGroups_inBounds values offsets 0 [] (Nat.zero_le _) hall
    exact ⟨decoded, by simpa [decodeReplicaGroups] using hd, by simpa using hl⟩

/-- Witness of C19: the example of the source comment. -/
theorem replica_groups_roundtrip_witness :
    replica_group_offsets_of [[10, 20, 30, 40], [50, 60], [70, 80, 90]] = [4, 6, 9] ∧
    replica_group_values_of [[10, 20, 30, 40], [50, 60], [70, 80, 90]]
      = [10, 20, 30, 40, 50, 60, 70, 80, 90] ∧
    decodeReplicaGroups (replica_group_offsets_of [[10, 20, 30, 40], [50, 60], [70, 80, 90]])
        (replica_group_values_of [[10, 20, 30, 40], [50, 60], [70, 80, 90]])
      = Decode.done [[10, 20, 30, 40], [50, 60], [70, 80, 90]] :=
  ⟨by decide, by decide,
    (replica_groups_roundtrip [[10, 20, 30, 40], [50, 60], [70, 80, 90]]).1⟩

end gpu


/-! ## The reachability map built once -/

/-- A path from `p` cannot use an edge whose target does not come after `p`:
when every edge of `c` increases `pos` and every edge of `c` that is not an
edge of `c0` ends at or before `p`, what `p` reaches in `c` it reaches in `c0`. -/
theorem reaches_without_new_edges {c0 c : HloComputation} {pos : Nat → Nat} {p : Nat}
    (hpos : ∀ a b, c.Edge a b → pos a < pos b)
    (hnew : ∀ a b, c.Edge a b → c0.Edge a b ∨ pos b ≤ pos p) {y : Nat}
    (h : c.Reaches p y) : c0.Reaches p y := by
  induction h with
  | refl => exact Relation.ReflTransGen.refl
  | tail hpb hby ih =>
    rcases hnew _ _ hby with h0 | hle
    · exact Relation.ReflTransGen.tail ih h0
    · have h1 := hpos _ _ hby
      rcases reaches_pos hpos hpb with rfl | h2 <;> omega

/-- At the moment the pair `(p, x)` is tested, the map built before the pass
and the map built from the current computation give the same answer. -/
theorem IsConnected_not_stale {c0 c : HloComputation} {r0 r : HloReachabilityMap}
    {pos : Nat → Nat} {p x : Nat} (hf : Frame c0 c) (hexact0 : r0.Exact c0) (hexact : r.Exact c)
    (hpos : ∀ a b, c.Edge a b → pos a < pos b)
    (hnew : ∀ a b, c.Edge a b → c0.Edge a b ∨ pos b ≤ pos p)
    (hp : p ∈ c0.instructions) (hx : x ∈ c0.instructions) (hpx : pos p < pos x) :
    r.IsConnected x p = r0.IsConnected x p := by
  have hp2 : p ∈ c.instructions := by rw [hf.1]; exact hp
  have hx2 : x ∈ c.instructions := by rw [hf.1]; exact hx
  have hno : ¬ c.Reaches x p := fun h => by
    rcases reaches_pos hpos h with rfl | h <;> omega
  rw [Bool.eq_iff_iff]
  simp only [HloReachabilityMap.IsConnected, Bool.or_eq_true]
  rw [hexact x hx2 p hp2, hexact p hp2 x hx2, hexact0 x hx p hp, hexact0 p hp x hx]
  constructor
  · rintro (h | h)
    · exact absurd h hno
    · exact Or.inr (reaches_without_new_edges hpos hnew h)
  · rintro (h | h)
    · exact absurd (hf.reaches h) hno
    · exact Or.inr (hf.reaches h)

/-- The loop invariant behind C20: from a state reached by the pass, the
rebuilding loop and the loop with the map built once do the same. -/
theorem RunInstructionsRebuilding_eq (rejects : HloComputation → Nat → Nat → Bool)
    (Build : HloComputation → HloReachabilityMap) (c0 : HloComputation) (order0 : List Nat)
    (hexact : ∀ c2, Frame c0 c2 → IsTopologicalOrder c2 order0 → (Build c2).Exact c2) :
    ∀ (order : List Nat) (c : HloComputation) (prev : Option Nat) (changed : Bool),
      Frame c0 c → IsTopologicalOrder c0 order0 → IsTopologicalOrder c order0 →
      order.Pairwise (fun x y => order0.indexOf x < order0.indexOf y) →
      (∀ x ∈ order, x ∈ order0) →
      (∀ p, prev = some p → p ∈ order0 ∧ ∀ x ∈ order, order0.indexOf p < order0.indexOf x) →
      (∀ a b, c.Edge a b → c0.Edge a b ∨
        ∃ p, prev = some p ∧ order0.indexOf b ≤ order0.indexOf p) →
      RunInstructionsRebuilding rejects Build order c prev changed
        = RunInstructions rejects (Build c0) order c prev changed := by
  intro order
  induction order with
  | nil => intro c prev changed _ _ _ _ _ _ _; rfl
  | cons x rest ih =>
    intro c prev changed hf htop0 htop hpw hmem hprev hnew
    have hpw2 := List.pairwise_cons.1 hpw
    have hxin : x ∈ order0 := hmem x (List.mem_cons_self _ _)
    have hmem2 : ∀ y ∈ rest, y ∈ order0 := fun y hy => hmem y (List.mem_cons_of_mem _ hy)
    have hposc : ∀ a b, c.Edge a b → order0.indexOf a < order0.indexOf b :=
      fun a b hab => (htop.2.2 (a, b) hab).2.2
    -- the invariant on new edges, once `prev` has moved to `x`
    have hnewx : ∀ c3 : HloComputation, (∀ a b, c3.Edge a b → c.Edge a b ∨ (b = x)) →
        (∀ p, prev = some p → order0.indexOf p < order0.indexOf x) →
        ∀ a b, c3.Edge a b → c0.Edge a b ∨
          ∃ q, some x = some q ∧ order0.indexOf b ≤ order0.indexOf q := by
      intro c3 h3 hlt a b hab
      rcases h3 a b hab with h | rfl
      · rcases hnew a b h with h | ⟨p, hp, hle⟩
        · exact Or.inl h
        · exact Or.inr ⟨x, rfl, by have := hlt p hp; omega⟩
      · exact Or.inr ⟨b, rfl, le_refl _⟩
    have hprevx : ∀ q, some x = some q →
        q ∈ order0 ∧ ∀ y ∈ rest, order0.indexOf q < order0.indexOf y :=
      fun q hq => by cases hq; exact ⟨hxin, hpw2.1⟩
    by_cases hx : c.is_collective x = true
    · cases prev with
      | none =>
        simp only [RunInstructionsRebuilding, RunInstructions, hx, if_true]
        exact ih c (some x) changed hf htop0 htop hpw2.2 hmem2 hprevx
          (hnewx c (fun a b h => Or.inl h) (fun p hp => by cases hp))
      | some p =>
        obtain ⟨hpin, hplt⟩ := hprev p rfl
        have hpx := hplt x (List.mem_cons_self _ _)
        have hnewp : ∀ a b, c.Edge a b → c0.Edge a b ∨
            order0.indexOf b ≤ order0.indexOf p := by
          intro a b hab
          rcases hnew a b hab with h | ⟨q, hq, hle⟩
          · exact Or.inl h
          · cases hq; exact Or.inr hle
        have hsame : (Build c).IsConnected x p = (Build c0).IsConnected x p :=
          IsConnected_not_stale hf (hexact c0 (Frame.refl c0) htop0) (hexact c hf htop)
            hposc hnewp (htop0.2.1.mem_iff.1 hpin) (htop0.2.1.mem_iff.1 hxin) hpx
        by_cases hconn : (Build c0).IsConnected x p = true
        · simp only [RunInstructionsRebuilding, RunInstructions, hx, hsame, hconn, if_true,
            Bool.not_true]
          exact ih c (some x) changed hf htop0 htop hpw2.2 hmem2 hprevx
            (hnewx c (fun a b h => Or.inl h) (fun q hq => by cases hq; exact hpx))
        · cases hadd : AddControlDependencyTo rejects c p x with
          | error e =>
            simp [RunInstructionsRebuilding, RunInstructions, hx, hsame, hconn, hadd]
          | ok c3 =>
            obtain ⟨hf3, _, hc3⟩ := AddControlDependencyTo_ok hadd
            have hedge3 : ∀ a b, c3.Edge a b → c.Edge a b ∨ b = x := by
              intro a b hab
              rcases edge_after_insertion hf3 hc3 hab with h | ⟨_, rfl⟩
              · exact Or.inl h
              · exact Or.inr rfl
            have htop3 : IsTopologicalOrder c3 order0 := by
              refine ⟨htop.1, by rw [hf3.1]; exact htop.2.1, ?_⟩
              intro e he
              rcases edge_after_insertion hf3 hc3 (show c3.Edge e.1 e.2 from he) with
                h | ⟨h1, h2⟩
              · exact htop.2.2 e h
              · rw [h1, h2]; exact ⟨hpin, hxin, hpx⟩
            simp only [RunInstructionsRebuilding, RunInstructions, hx, hsame, hconn, hadd,
              if_true, Bool.not_false]
            exact ih c3 (some x) true (hf.trans hf3) htop0 htop3 hpw2.2 hmem2 hprevx
              (hnewx c3 hedge3 (fun q hq => by cases hq; exact hpx))
    · simp only [RunInstructionsRebuilding, RunInstructions, hx]
      exact ih c prev changed hf htop0 htop hpw2.2 hmem2
        (fun p hp => ⟨(hprev p hp).1, fun y hy => (hprev p hp).2 y (List.mem_cons_of_mem _ hy)⟩)
        hnew


theorem RunComputationsRebuilding_eq (env : Collaborators) :
    ∀ (module : List HloComputation) (changed : Bool),
      (∀ c ∈ module, IsTopologicalOrder c (env.MakeInstructionPostOrder c) ∧
        ∀ c2, Frame c c2 → IsTopologicalOrder c2 (env.MakeInstructionPostOrder c) →
          (env.Build c2).Exact c2) →
      RunComputationsRebuilding env module changed = RunComputations env module changed := by
  intro module
  induction module with
  | nil => intro changed _; rfl
  | cons c rest ih =>
    intro changed h
    obtain ⟨htop, hexact⟩ := h c (List.mem_cons_self _ _)
    have heq : RunInstructionsRebuilding env.rejects env.Build
        (env.MakeInstructionPostOrder c) c none changed = RunComputation env c changed :=
      RunInstructionsRebuilding_eq env.rejects env.Build c (env.MakeInstructionPostOrder c)
        hexact (env.MakeInstructionPostOrder c) c none changed (Frame.refl c) htop htop
        (pairwise_indexOf_of_nodup _ htop.1) (fun _ hx => hx) (fun p hp => by cases hp)
        (fun a b hab => Or.inl hab)
    have ih2 := fun ch => ih ch (fun x hx => h x (List.mem_cons_of_mem _ hx))
    simp only [RunComputationsRebuilding, RunComputations, heq, ih2]

/-- C20: for every module whose computations are acyclic and traversed in a
topological order, with `Build` exact on each computation and on what the pass
makes of it: the pass that tests every pair `(prev, next)` against the
reachability map built before any insertion returns the same computations,
so inserts the same edges, and the same result as the pass that rebuilds the
reachability map after every insertion. -/
theorem reachability_never_stale (env : Collaborators) (module : List HloComputation)
    (h : ∀ c ∈ module, IsTopologicalOrder c (env.MakeInstructionPostOrder c) ∧
      ∀ c2, Frame c c2 → IsTopologicalOrder c2 (env.MakeInstructionPostOrder c) →
        (env.Build c2).Exact c2) :
    Run env module = RunRebuilding env module :=
  (RunComputationsRebuilding_eq env module false h).symm

theorem test_module_rebuildable :
    ∀ c ∈ [test_sum, NonPostorder_entry],
      IsTopologicalOrder c (test_env.MakeInstructionPostOrder c) ∧
      ∀ c2, Frame c c2 → IsTopologicalOrder c2 (test_env.MakeInstructionPostOrder c) →
        (test_env.Build c2).Exact c2 := by
  intro c hc
  simp only [List.mem_cons, List.mem_singleton, List.not_mem_nil, or_false] at hc
  rcases hc with rfl | rfl
  · exact ⟨by decide, fun c2 _ h2 => searchReachability_exact c2 _ h2⟩
  · exact ⟨by decide, fun c2 _ h2 => searchReachability_exact c2 _ h2⟩

/-- Witness of C20: the module of the test `NonPostorder`. -/
theorem reachability_never_stale_witness :
    (∀ c ∈ [test_sum, NonPostorder_entry],
      IsTopologicalOrder c (test_env.MakeInstructionPostOrder c) ∧
      ∀ c2, Frame c c2 → IsTopologicalOrder c2 (test_env.MakeInstructionPostOrder c) →
        (test_env.Build c2).Exact c2) ∧
    RunRebuilding test_env [test_sum, NonPostorder_entry]
      = ([test_sum, NonPostorder_entry_after], .ok true) :=
  ⟨test_module_rebuildable,
    (reachability_never_stale test_env [test_sum, NonPostorder_entry]
      test_module_rebuildable).symm.trans Run_NonPostorder⟩


namespace gpu

/-! ## A wait that fails -/

/-- C21: a call of `MaybeBlockAfterFirstRun` that is the first for its key
invokes the wait and returns exactly the status of
`stream->BlockHostUntilDone()`; any other call returns OK without waiting.  The
first-run flag is set by the `try_emplace`, which comes before the wait in the
actions of the call, and the state the call leaves does not depend on the
stream or on what its wait returns: the flag is set also when the wait fails.
So after a first call, failed or not, every later call for the same key,
whatever calls come in between, returns OK without blocking: the wait is not
tried again. -/
theorem failed_wait_not_retried (s : CollectivesSupport) (uid d : Int) (stream : Stream) :
    (s.executed_ (Key uid d) = none →
      (s.MaybeBlockAfterFirstRun uid d stream).status = stream.BlockHostUntilDone ∧
      (s.MaybeBlockAfterFirstRun uid d stream).blocked = true ∧
      (s.MaybeBlockAfterFirstRun uid d stream).support.executed_ (Key uid d) = some true) ∧
    (s.executed_ (Key uid d) ≠ none →
      (s.MaybeBlockAfterFirstRun uid d stream).status = Status.OkStatus ∧
      (s.MaybeBlockAfterFirstRun uid d stream).blocked = false ∧
      (s.MaybeBlockAfterFirstRun uid d stream).support = s) ∧
    (∀ (i : Nat) (a : Action),
      (s.MaybeBlockAfterFirstRun uid d stream).actions[i]? = some a → a.isBlock = true →
      Action.TryEmplace (Key uid d) ∈ (s.MaybeBlockAfterFirstRun uid d stream).actions.take i) ∧
    (∀ stream2 : Stream,
      (s.MaybeBlockAfterFirstRun uid d stream2).support
        = (s.MaybeBlockAfterFirstRun uid d stream).support) ∧
    (∀ (calls : List (Int × Int × Stream)) (j : Nat) (cj : Int × Int × Stream)
      (rj : BlockResult),
      calls[j]? = some cj → Key cj.1 cj.2.1 = Key uid d →
      ((s.MaybeBlockAfterFirstRun uid d stream).support.sequence calls)[j]? = some rj →
      rj.blocked = false ∧ rj.status = Status.OkStatus) := by
  have hset : (s.MaybeBlockAfterFirstRun uid d stream).support.executed_ (Key uid d) ≠ none := by
    rw [MaybeBlock_support]
    split
    · simp
    · rename_i h
      intro hn
      exact h ⟨rfl, hn⟩
  refine ⟨?_, ?_, ?_, ?_, ?_⟩
  · intro hk
    rw [MaybeBlock_of_none s uid d stream hk]
    exact ⟨rfl, by simp [BlockResult.blocked, Action.isBlock], by simp⟩
  · intro hk
    cases hs : s.executed_ (Key uid d) with
    | none => exact absurd hs hk
    | some b =>
      rw [MaybeBlock_of_some s uid d stream b hs]
      exact ⟨rfl, by simp [BlockResult.blocked, Action.isBlock], rfl⟩
  · intro i a h hblock
    cases hs : s.executed_ (Key uid d) with
    | none =>
      rw [MaybeBlock_of_none s uid d stream hs] at h ⊢
      rcases i with _ | _ | _ | _ | _ <;>
        simp at h ⊢ <;> subst h <;> simp [Action.isBlock] at hblock
    | some b =>
      rw [MaybeBlock_of_some s uid d stream b hs] at h ⊢
      rcases i with _ | _ | _ | _ <;>
        simp at h ⊢ <;> subst h <;> simp [Action.isBlock] at hblock
  · intro stream2
    cases hs : s.executed_ (Key uid d) with
    | none =>
      rw [MaybeBlock_of_none s uid d stream hs, MaybeBlock_of_none s uid d stream2 hs]
    | some b =>
      rw [MaybeBlock_of_some s uid d stream b hs, MaybeBlock_of_some s uid d stream2 b hs]
  · intro calls j cj rj hc hkey hr
    exact sequence_of_some (Key uid d) calls _ hset j cj rj hc hkey hr

/-- Witness of C21: on a fresh `CollectivesSupport`, a first call for key
(5, 0) whose wait fails returns the error of the wait; a second call for the
key, after a call for key (6, 0), returns OK without blocking. -/
theorem failed_wait_not_retried_witness :
    (CollectivesSupport.init.MaybeBlockAfterFirstRun 5 0
      ⟨Status.Internal ("stream error")⟩).status = Status.Internal ("stream error") ∧
    ∀ rj, ((CollectivesSupport.init.MaybeBlockAfterFirstRun 5 0
        ⟨Status.Internal ("stream error")⟩).support.sequence
          [(6, 0, ⟨Status.OkStatus⟩), (5, 0, ⟨Status.Internal ("stream error")⟩)])[1]?
        = some rj → rj.blocked = false ∧ rj.status = Status.OkStatus :=
  have h := failed_wait_not_retried CollectivesSupport.init 5 0
    ⟨Status.Internal ("stream error")⟩
  ⟨(h.1 rfl).1,
    fun rj hr => h.2.2.2.2
      [(6, 0, ⟨Status.OkStatus⟩), (5, 0, ⟨Status.Internal ("stream error")⟩)] 1
      (5, 0, ⟨Status.Internal ("stream error")⟩) rj rfl rfl hr⟩

end gpu


namespace gpu

/-! ## The hand-off per execution key `(uid, device_ordinal)` -/

theorem Key_eq_iff_of_inRange (u dc uid d : Int) (h1 : InRange u dc) (h2 : InRange uid d) :
    Key u dc = Key uid d ↔ (u = uid ∧ dc = d) := by
  constructor
  · intro h
    by_contra hne
    have hpair : (uid, d) ≠ (u, dc) := by
      intro e
      simp only [Prod.mk.injEq] at e
      exact hne ⟨e.1.symm, e.2.symm⟩
    exact Key_ne_of_nonneg uid u d dc h2.1 h1.1 h2.2 h1.2 hpair h
  · rintro ⟨rfl, rfl⟩; rfl

/-- For arguments in range, the operations on a pair are the operations on
its key. -/
theorem successOn_eq_success {Event : Type} (uid d : Int) (h2 : InRange uid d)
    (c : Call Event) (r : Reply Event) (h1 : InRange c.uid c.device_ordinal) :
    successOn uid d (c, r) = success (Key uid d) (c, r) := by
  cases c with
  | Push u dc x =>
    have hiff := Key_eq_iff_of_inRange u dc uid d h1 h2
    cases r with
    | Pushed st =>
      cases st with
      | OkStatus =>
        by_cases h : u = uid ∧ dc = d
        · simp [successOn, success, h, hiff.2 h]
        · simp only [successOn, success, if_neg h, if_neg (fun e => h (hiff.1 e))]
      | Internal msg => simp [successOn, success]
    | Popped res => simp [successOn, success]
  | Pop u dc =>
    have hiff := Key_eq_iff_of_inRange u dc uid d h1 h2
    cases r with
    | Pushed st => simp [successOn, success]
    | Popped res =>
      cases res with
      | error e => simp [successOn, success]
      | ok x =>
        by_cases h : u = uid ∧ dc = d
        · simp [successOn, success, h, hiff.2 h]
        · simp only [successOn, success, if_neg h, if_neg (fun e => h (hiff.1 e))]

/-- A pair that is not in range has no operation among calls that are. -/
theorem successOn_of_not_inRange {Event : Type} (uid d : Int) (h2 : ¬ InRange uid d)
    (c : Call Event) (r : Reply Event) (h1 : InRange c.uid c.device_ordinal) :
    successOn uid d (c, r) = none := by
  cases c with
  | Push u dc x =>
    have hne : ¬ (u = uid ∧ dc = d) := by
      rintro ⟨rfl, rfl⟩; exact h2 h1
    cases r with
    | Pushed st =>
      cases st with
      | OkStatus => simp only [successOn, if_neg hne]
      | Internal msg => simp [successOn]
    | Popped res => simp [successOn]
  | Pop u dc =>
    have hne : ¬ (u = uid ∧ dc = d) := by
      rintro ⟨rfl, rfl⟩; exact h2 h1
    cases r with
    | Pushed st => simp [successOn]
    | Popped res =>
      cases res with
      | error e => simp [successOn]
      | ok x => simp only [successOn, if_neg hne]

theorem successesOn_eq_successes {Event : Type} (uid d : Int) (h2 : InRange uid d)
    (trace : List (Call Event × Reply Event))
    (h : ∀ e ∈ trace, InRange e.1.uid e.1.device_ordinal) :
    successesOn uid d trace = successes (Key uid d) trace := by
  unfold successesOn successes
  induction trace with
  | nil => rfl
  | cons e rest ih =>
    obtain ⟨c, r⟩ := e
    rw [List.filterMap_cons, List.filterMap_cons,
      successOn_eq_success uid d h2 c r (h (c, r) (List.mem_cons_self _ _)),
      ih (fun e he => h e (List.mem_cons_of_mem _ he))]

theorem successesOn_of_not_inRange {Event : Type} (uid d : Int) (h2 : ¬ InRange uid d)
    (trace : List (Call Event × Reply Event))
    (h : ∀ e ∈ trace, InRange e.1.uid e.1.device_ordinal) :
    successesOn uid d trace = [] := by
  unfold successesOn
  induction trace with
  | nil => rfl
  | cons e rest ih =>
    obtain ⟨c, r⟩ := e
    rw [List.filterMap_cons,
      successOn_of_not_inRange uid d h2 c r (h (c, r) (List.mem_cons_self _ _)),
      ih (fun e he => h e (List.mem_cons_of_mem _ he))]

theorem Call.key_eq {Event : Type} (c : Call Event) : c.key = Key c.uid c.device_ordinal := by
  cases c <;> rfl

/-- C3 (as stated, refuted): with device ordinal `-1` the pairs `(0, -1)` and
`(1, -1)` share the key `-1`.  In the sequence `push(0, -1, 7)`,
`push(1, -1, 8)`, `pop(1, -1)`, `pop(0, -1)` on a fresh tracker, the push on
`(1, -1)` fails although no handle was pushed for `(1, -1)`, and the only
successful call on `(1, -1)` is a pop, which returns the handle pushed for
`(0, -1)`: not a prefix of `(push, pop)*`. -/
theorem handoff_mixes_pairs_at_negative_ordinal :
    (∀ c ∈ [Call.Push 0 (-1) (7 : Nat), Call.Push 1 (-1) 8, Call.Pop 1 (-1), Call.Pop 0 (-1)],
      IsInt32 c.uid ∧ IsInt32 c.device_ordinal) ∧
    ((AsyncCollectivesSupport.init : AsyncCollectivesSupport Nat).run
      [Call.Push 0 (-1) 7, Call.Push 1 (-1) 8, Call.Pop 1 (-1), Call.Pop 0 (-1)])[1]?
      = some (Call.Push 1 (-1) 8,
          Reply.Pushed (Status.Internal ("Done event has not been consumed"))) ∧
    successesOn 1 (-1) (((AsyncCollectivesSupport.init : AsyncCollectivesSupport Nat).run
      [Call.Push 0 (-1) 7, Call.Push 1 (-1) 8, Call.Pop 1 (-1), Call.Pop 0 (-1)]).take 1) = [] ∧
    successesOn 1 (-1) ((AsyncCollectivesSupport.init : AsyncCollectivesSupport Nat).run
      [Call.Push 0 (-1) 7, Call.Push 1 (-1) 8, Call.Pop 1 (-1), Call.Pop 0 (-1)])
      = [Handoff.pop 7] ∧
    ¬ IsHandoffPrefix (successesOn 1 (-1)
      ((AsyncCollectivesSupport.init : AsyncCollectivesSupport Nat).run
        [Call.Push 0 (-1) 7, Call.Push 1 (-1) 8, Call.Pop 1 (-1), Call.Pop 0 (-1)])) := by
  refine ⟨by decide, rfl, rfl, rfl, ?_⟩
  have h : successesOn 1 (-1) ((AsyncCollectivesSupport.init : AsyncCollectivesSupport Nat).run
      [Call.Push 0 (-1) 7, Call.Push 1 (-1) 8, Call.Pop 1 (-1), Call.Pop 0 (-1)])
      = [Handoff.pop 7] := rfl
  rw [h]
  simp [IsHandoffPrefix]

/-- C3 (amended): for every finite sequence of `PushEvent`/`PopEvent` calls
with 32-bit uids and non-negative 32-bit device ordinals, applied to a freshly
constructed tracker, and for every execution key `(uid, device_ordinal)`:
every call gets its reply, in order; the successful calls on that key form a
prefix of `(push, pop)*` in which every pop returns the handle of the push
right before it; and a call on that key fails exactly when it deviates from
the pattern, that is, a push when the number of earlier successful calls on
the key is odd (a handle is pending for the key) or a pop when that number is
even (none is pending). -/
theorem handoff_correctness {Event : Type} (calls : List (Call Event))
    (hrange : ∀ c ∈ calls, InRange c.uid c.device_ordinal) (uid d : Int) :
    ((AsyncCollectivesSupport.init : AsyncCollectivesSupport Event).run calls).map Prod.fst
      = calls ∧
    IsHandoffPrefix (successesOn uid d
      ((AsyncCollectivesSupport.init : AsyncCollectivesSupport Event).run calls)) ∧
    ∀ (i : Nat) (c : Call Event) (r : Reply Event),
      ((AsyncCollectivesSupport.init : AsyncCollectivesSupport Event).run calls)[i]?
        = some (c, r) →
      c.uid = uid → c.device_ordinal = d →
      (r.failed = true ↔
        deviates c (successesOn uid d
          (((AsyncCollectivesSupport.init : AsyncCollectivesSupport Event).run calls).take
            i)).length) := by
  have hfst := run_map_fst calls (AsyncCollectivesSupport.init : AsyncCollectivesSupport Event)
  have htrace : ∀ e ∈ (AsyncCollectivesSupport.init : AsyncCollectivesSupport Event).run calls,
      InRange e.1.uid e.1.device_ordinal := by
    intro e he
    apply hrange
    rw [← hfst]
    exact List.mem_map_of_mem Prod.fst he
  obtain ⟨_, hprefix, hfail⟩ := handoff_by_key_value calls (Key uid d)
  refine ⟨hfst, ?_, ?_⟩
  · by_cases h2 : InRange uid d
    · rw [successesOn_eq_successes uid d h2 _ htrace]
      exact hprefix
    · rw [successesOn_of_not_inRange uid d h2 _ htrace]
      trivial
  · intro i c r hget hu hd
    have hmem : (c, r) ∈ (AsyncCollectivesSupport.init : AsyncCollectivesSupport Event).run calls :=
      List.getElem?_mem hget
    have h2 : InRange uid d := by
      have := htrace (c, r) hmem
      rw [hu, hd] at this
      exact this
    rw [successesOn_eq_successes uid d h2 _
      (fun e he => htrace e (List.mem_of_mem_take he))]
    exact hfail i c r hget (by rw [Call.key_eq, hu, hd])

/-- Witness of C3 (amended): two interleaved hand-offs, on the keys (5, 0) and
(5, 1), with a duplicate push and a pop too many on (5, 0). -/
theorem handoff_correctness_witness :
    (∀ c ∈ [Call.Push 5 0 (7 : Nat), Call.Push 5 1 8, Call.Push 5 0 9, Call.Pop 5 0,
        Call.Pop 5 1, Call.Pop 5 0], InRange c.uid c.device_ordinal) ∧
    successesOn 5 0 ((AsyncCollectivesSupport.init : AsyncCollectivesSupport Nat).run
      [Call.Push 5 0 7, Call.Push 5 1 8, Call.Push 5 0 9, Call.Pop 5 0, Call.Pop 5 1,
        Call.Pop 5 0]) = [Handoff.push 7, Handoff.pop 7] ∧
    IsHandoffPrefix (successesOn 5 1
      ((AsyncCollectivesSupport.init : AsyncCollectivesSupport Nat).run
        [Call.Push 5 0 7, Call.Push 5 1 8, Call.Push 5 0 9, Call.Pop 5 0, Call.Pop 5 1,
          Call.Pop 5 0])) :=
  ⟨by decide, rfl,
    (handoff_correctness
      [Call.Push 5 0 (7 : Nat), Call.Push 5 1 8, Call.Push 5 0 9, Call.Pop 5 0, Call.Pop 5 1,
        Call.Pop 5 0] (by decide) 5 1).2.1⟩

end gpu


end xla
